import Mathlib

/-!
Verification of the ARTIQ kernel-side RPC value codec
(`artiq/firmware/libproto_artiq/rpc_proto.rs`).

The Rust source is shallowly embedded below.  Machine integers are `Nat`
with explicit wrap-around (`w32`) where the 32-bit `usize` arithmetic of the
target can overflow; raw memory is a byte-addressed function `Nat → Nat`;
fallible code returns `Except RpcErr`.

Target model: the firmware's 32-bit RISC-V target, the only pointer width on
which the source is self-consistent (the `Tag::List` receive arm computes the
in-allocation header size as `let list_size = 4 + 4`, i.e. a 4-byte pointer
plus a 4-byte `usize`, and the source comments refer to RISC-V).  Consequences
used throughout: pointers have size 4 and alignment 4; `u8` has alignment 1,
`u32`/`usize` alignment 4, `i64`/`u64`/`f64` alignment 8; `CSlice`/`CMutSlice`
(`{ptr, len: usize}`) has size 8 and alignment 4; the target is little-endian,
so `NativeEndian::from_slice_i32`/`from_slice_i64` are the identity and
multi-byte values are stored in memory least-significant byte first.
-/

namespace RpcProto

/-- Outcome classification for the embedded code: `eof` models a recoverable
transport failure surfaced through the `Result` return value (the only
reader/writer failure the byte-list transport model can produce), while
`fatal` models a Rust panic (`assert!`, `unwrap`, `expect`, `unreachable!`,
out-of-bounds indexing), which aborts the kernel and is never surfaced as a
recoverable error result. -/
inductive RpcErr where
  | eof : RpcErr
  | fatal : String → RpcErr
deriving Repr, DecidableEq

/-- 32-bit wrap-around of the target's `usize`/`u32` arithmetic. -/
def w32 (n : Nat) : Nat := n % 4294967296

/-- Rust `usize::is_power_of_two`. -/
def isPowerOfTwo (n : Nat) : Bool := n != 0 && (n &&& (n - 1)) == 0

/-- `round_up` from rpc_proto.rs:
`assert!(power_of_two.is_power_of_two()); (val + max_rem) & (!max_rem)` on the
32-bit `usize`.  For a power of two `p`, masking the (wrapped) sum with the
32-bit complement of `p - 1` rounds it down to a multiple of `p`, which is
`((val + (p-1)) % 2^32) / p * p`.  `fatal` models the assertion failure. -/
def round_up (val power_of_two : Nat) : Except RpcErr Nat :=
  if isPowerOfTwo power_of_two then
    .ok (w32 (val + (power_of_two - 1)) / power_of_two * power_of_two)
  else
    .error (.fatal "assertion failed: power_of_two.is_power_of_two()")

/-- Total rounding-up to a multiple of `p` (no wrap, no assertion); used for
the always-power-of-two alignments of `consume_value!` cells, for the
spec-side layout functions, and for the 8-byte alignment guarantee of the
allocator. -/
def roundUpT (v p : Nat) : Nat := (v + (p - 1)) / p * p

/-- The `Tag` type from rpc_proto.rs.  The Rust `Tag` carries a lazily parsed
sub-`TagIterator` for composite tags; `TagIterator::sub(count)` eagerly walks
the `count` children (panicking on malformed bytes), so every composite tag a
`TagIterator` can yield carries exactly its child tags, which this embedding
stores structurally. -/
inductive RTag where
  | none : RTag
  | bool : RTag
  | int32 : RTag
  | int64 : RTag
  | float64 : RTag
  | string : RTag
  | bytes : RTag
  | byteArray : RTag
  | tuple : List RTag → RTag
  | list : RTag → RTag
  | array : RTag → Nat → RTag
  | range : RTag → RTag
  | keyword : RTag → RTag
  | object : RTag
deriving Repr

/-- `Tag::as_u8`: the wire byte of each tag constructor. -/
def RTag.as_u8 : RTag → Nat
  | .none => 110      -- b'n'
  | .bool => 98       -- b'b'
  | .int32 => 105     -- b'i'
  | .int64 => 73      -- b'I'
  | .float64 => 102   -- b'f'
  | .string => 115    -- b's'
  | .bytes => 66      -- b'B'
  | .byteArray => 65  -- b'A'
  | .tuple _ => 116   -- b't'
  | .list _ => 108    -- b'l'
  | .array _ _ => 97  -- b'a'
  | .range _ => 114   -- b'r'
  | .keyword _ => 107 -- b'k'
  | .object => 79     -- b'O'

mutual

/-- `Tag::alignment` from rpc_proto.rs, with the target-dependent
`core::mem::align_of` calls evaluated for the 32-bit RISC-V target.
`Tag::Range` holds a one-element sub-iterator, so
`it.take(3).map(|t| t.alignment()).max().unwrap()` is the alignment of its
single child.  `Keyword`/`Object` hit `unreachable!("unexpected tag from
host")`. -/
def RTag.alignment : RTag → Except RpcErr Nat
  | .none => .ok 1
  | .bool => .ok 1           -- align_of::<u8>()
  | .int32 => .ok 4          -- align_of::<i32>()
  | .int64 => .ok 8          -- align_of::<i64>()
  | .float64 => .ok 8        -- align_of::<f64>()
  | .tuple children => alignmentMax children Option.none
  | .range elt => elt.alignment
  | .string => .ok 4         -- align_of::<CSlice<()>>()
  | .bytes => .ok 4
  | .byteArray => .ok 4
  | .list _ => .ok 4
  | .array _ _ => .ok 4
  | .keyword _ => .error (.fatal "unexpected tag from host")
  | .object => .error (.fatal "unexpected tag from host")

/-- The `it.take(arity).map(|t| t.alignment()).max().unwrap()` fold of the
`Tag::Tuple` arm of `Tag::alignment`: `acc` is the running maximum (`None`
before the first element); `max()` of an empty iterator is `None`, whose
`unwrap` panics. -/
def alignmentMax (ts : List RTag) (acc : Option Nat) : Except RpcErr Nat :=
  match ts with
  | [] =>
    match acc with
    | Option.none => .error (.fatal "called Option::unwrap on a None value")
    | Option.some a => .ok a
  | t :: rest => do
    let a ← t.alignment
    alignmentMax rest (Option.some (match acc with
      | Option.none => a
      | Option.some b => Nat.max b a))

end

mutual

/-- `Tag::size` from rpc_proto.rs: the stride between successive values of
the tag's type.  Additions and multiplications happen on the 32-bit `usize`
(release build), hence the `w32` wraps.  `Keyword`/`Object` hit
`unreachable!()`. -/
def RTag.size : RTag → Except RpcErr Nat
  | .none => .ok 0
  | .bool => .ok 1
  | .int32 => .ok 4
  | .int64 => .ok 8
  | .float64 => .ok 8
  | .string => .ok 8
  | .bytes => .ok 8
  | .byteArray => .ok 8
  | .tuple children => tupleSizeLoop children 0 0
  | .list _ => .ok 8
  | .array _ numDims => .ok (w32 (4 * (1 + numDims)))
  | .range elt => do
    let s ← elt.size
    .ok (w32 (s * 3))
  | .keyword _ => .error (.fatal "internal error: entered unreachable code")
  | .object => .error (.fatal "internal error: entered unreachable code")

/-- The child loop of the `Tag::Tuple` arm of `Tag::size`:
`max_alignment = max(max_alignment, alignment); size = round_up(size,
alignment); size += tag.size()`, followed by the tail-padding
`round_up(size, max_alignment)` once the children are exhausted (on an empty
tuple that final call is `round_up(0, 0)`, whose power-of-two assertion
fails). -/
def tupleSizeLoop (ts : List RTag) (sz maxAl : Nat) : Except RpcErr Nat :=
  match ts with
  | [] => round_up sz maxAl
  | t :: rest => do
    let al ← t.alignment
    let sz' ← round_up sz al
    let s ← t.size
    tupleSizeLoop rest (w32 (sz' + s)) (Nat.max maxAl al)

end

mutual

/-- `TagIterator::next` on nonempty data together with the child walks done
by `TagIterator::sub`: parses one tag from the byte list, returning it and
the remaining bytes (with the strict-consumption bound needed by callers
that loop).  End of data is a panic here (`.expect("truncated tag")` in
`sub`, slice indexing for the `t`/`a` arity byte); the recoverable
end-of-iteration of the public `next` is handled by `tagNext` below.  An
unknown tag byte hits `unreachable!()`. -/
def parseOne : (bs : List Nat) → Except RpcErr (RTag × {r : List Nat // r.length < bs.length})
  | [] => .error (.fatal "truncated tag")
  | b :: rest =>
    if b = 110 then .ok (.none, ⟨rest, by simp⟩)
    else if b = 98 then .ok (.bool, ⟨rest, by simp⟩)
    else if b = 105 then .ok (.int32, ⟨rest, by simp⟩)
    else if b = 73 then .ok (.int64, ⟨rest, by simp⟩)
    else if b = 102 then .ok (.float64, ⟨rest, by simp⟩)
    else if b = 115 then .ok (.string, ⟨rest, by simp⟩)
    else if b = 66 then .ok (.bytes, ⟨rest, by simp⟩)
    else if b = 65 then .ok (.byteArray, ⟨rest, by simp⟩)
    else if b = 116 then
      match rest with
      | [] => .error (.fatal "index out of bounds: the len is 0 but the index is 0")
      | count :: rest2 => do
        let pr ← parseMany count rest2
        .ok (.tuple pr.1, ⟨pr.2.val, by
          have h := pr.2.property
          simp only [List.length_cons]
          omega⟩)
    else if b = 108 then do
      let pr ← parseOne rest
      .ok (.list pr.1, ⟨pr.2.val, by
        have h := pr.2.property
        simp only [List.length_cons]
        omega⟩)
    else if b = 97 then
      match rest with
      | [] => .error (.fatal "index out of bounds: the len is 0 but the index is 0")
      | count :: rest2 => do
        let pr ← parseOne rest2
        .ok (.array pr.1 count, ⟨pr.2.val, by
          have h := pr.2.property
          simp only [List.length_cons]
          omega⟩)
    else if b = 114 then do
      let pr ← parseOne rest
      .ok (.range pr.1, ⟨pr.2.val, by
        have h := pr.2.property
        simp only [List.length_cons]
        omega⟩)
    else if b = 107 then do
      let pr ← parseOne rest
      .ok (.keyword pr.1, ⟨pr.2.val, by
        have h := pr.2.property
        simp only [List.length_cons]
        omega⟩)
    else if b = 79 then .ok (.object, ⟨rest, by simp⟩)
    else .error (.fatal "internal error: entered unreachable code")
termination_by bs => (bs.length, 0)

/-- The walk `for _ in 0..count { self.next().expect("truncated tag"); }`
performed by `TagIterator::sub(count)`, parsing `count` consecutive child
tags. -/
def parseMany : (n : Nat) → (bs : List Nat) → Except RpcErr (List RTag × {r : List Nat // r.length ≤ bs.length})
  | 0, bs => .ok ([], ⟨bs, Nat.le_refl _⟩)
  | n + 1, bs => do
    let pr1 ← parseOne bs
    let pr2 ← parseMany n pr1.2.val
    .ok (pr1.1 :: pr2.1, ⟨pr2.2.val, by
      have h1 := pr1.2.property
      have h2 := pr2.2.property
      omega⟩)
termination_by n bs => (bs.length, n + 1)
decreasing_by
  · apply Prod.Lex.right
    omega
  · apply Prod.Lex.left
    exact pr1.2.property

end

/-- The public `TagIterator::next`: `None` at the end of the data, otherwise
one parsed tag and the remaining bytes. -/
def tagNext (bs : List Nat) : Except RpcErr (Option (RTag × List Nat)) :=
  match bs with
  | [] => .ok Option.none
  | _ :: _ => do
    let pr ← parseOne bs
    .ok (Option.some (pr.1, pr.2.val))

/-- `split_tag` from rpc_proto.rs: split the tag bytes at the first `:`
(byte 58); its absence panics
(`.expect("tag without a return separator")`). -/
def split_tag (bs : List Nat) : Except RpcErr (List Nat × List Nat) :=
  match bs.findIdx? (· == 58) with
  | Option.none => .error (.fatal "tag without a return separator")
  | Option.some i => .ok (bs.take i, bs.drop (i + 1))

/-! ## Raw memory

Byte-addressed memory as a function from addresses to byte values; every
read truncates to a byte, so junk stored in the model beyond 255 can never
be observed.  Multi-byte scalars live in memory least-significant byte
first (the target is little-endian). -/

/-- Byte-addressed raw memory. -/
def Mem : Type := Nat → Nat

/-- Read one byte. -/
def byteAt (m : Mem) (a : Nat) : Nat := m a % 256

/-- Write one byte. -/
def store1 (m : Mem) (a v : Nat) : Mem := fun x => if x = a then v % 256 else m x

/-- Write a byte list at consecutive addresses starting at `a`. -/
def storeBytes : Mem → Nat → List Nat → Mem
  | m, _, [] => m
  | m, a, b :: bs => storeBytes (store1 m a b) (a + 1) bs

/-- Read `n` consecutive bytes starting at `a`. -/
def loadBytes (m : Mem) (a : Nat) : Nat → List Nat
  | 0 => []
  | n + 1 => byteAt m a :: loadBytes m (a + 1) n

/-- Value of a little-endian byte list. -/
def leVal : List Nat → Nat
  | [] => 0
  | b :: bs => b % 256 + 256 * leVal bs

/-- The `n` little-endian bytes of `v` (truncating to `n` bytes). -/
def leBytes : Nat → Nat → List Nat
  | 0, _ => []
  | n + 1, v => v % 256 :: leBytes n (v / 256)

/-- Read an `n`-byte little-endian scalar from memory. -/
def loadLE (m : Mem) (a n : Nat) : Nat := leVal (loadBytes m a n)

/-- Write an `n`-byte little-endian scalar to memory. -/
def storeLE (m : Mem) (a n v : Nat) : Mem := storeBytes m a (leBytes n v)

/-! ## Transport

Modelled from the spec: the transport (`Reader`/`Writer` of §1 and §6, not
under src/) exchanges big-endian multibyte scalars through
`read_u8`/`read_u32`/`read_u64` and `write_u8`/`write_u32`/`write_u64`,
offers raw `read_exact`/`write_all`, and length-prefixed
`write_bytes`/`write_string` (a u32 byte count followed by the raw bytes).
The reader is a byte list; exhausting it is the recoverable transport
failure `eof`. -/

/-- Value of a big-endian byte list. -/
def beVal : List Nat → Nat
  | [] => 0
  | b :: bs => b % 256 * 256 ^ bs.length + beVal bs

/-- The `n` big-endian bytes of `v` (truncating to `n` bytes). -/
def beBytes : Nat → Nat → List Nat
  | 0, _ => []
  | n + 1, v => v / 256 ^ n % 256 :: beBytes n v

/-- Modelled from the spec: `Read::read_exact`; takes `n` bytes off the
stream or fails with the recoverable `eof`. -/
def readExact (inp : List Nat) (n : Nat) : Except RpcErr (List Nat × List Nat) :=
  if n ≤ inp.length then .ok (inp.take n, inp.drop n) else .error .eof

/-- Modelled from the spec: `ProtoWrite::write_u32` (big-endian). -/
def writeU32 (v : Nat) : List Nat := beBytes 4 v

/-- Modelled from the spec: `ProtoWrite::write_u64` (big-endian). -/
def writeU64 (v : Nat) : List Nat := beBytes 8 v

/-- Modelled from the spec: `ProtoWrite::write_bytes` — a u32 byte count,
then the raw bytes. -/
def writeBytesP (bs : List Nat) : List Nat := beBytes 4 bs.length ++ bs

/-- Modelled from the spec: `ProtoWrite::write_string` on an already
validated `&str` — the length-prefixed UTF-8 bytes (same framing as
`write_bytes`). -/
def writeStringP (bs : List Nat) : List Nat := writeBytesP bs

/-! ## UTF-8 validity

Modelled from the spec: `core::str::from_utf8` (not part of this
repository) accepts exactly well-formed UTF-8 — ASCII, 2-byte sequences
`C2..DF` + continuation, 3-byte sequences excluding overlongs (`E0` needs
`A0..BF`) and surrogates (`ED` needs `80..9F`), and 4-byte sequences up to
U+10FFFF (`F0` needs `90..BF`, `F4` needs `80..8F`); continuation bytes are
`80..BF`. -/

/-- Is `b` a UTF-8 continuation byte (`0x80..=0xBF`)? -/
def isCont (b : Nat) : Bool := 128 ≤ b && b ≤ 191

/-- UTF-8 validity of a byte list. -/
def validUtf8 : List Nat → Bool
  | [] => true
  | b :: bs =>
    if b ≤ 127 then validUtf8 bs
    else if 194 ≤ b && b ≤ 223 then
      match bs with
      | c1 :: bs' => isCont c1 && validUtf8 bs'
      | [] => false
    else if b = 224 then
      match bs with
      | c1 :: c2 :: bs' => (160 ≤ c1 && c1 ≤ 191) && isCont c2 && validUtf8 bs'
      | _ => false
    else if (225 ≤ b && b ≤ 236) || b = 238 || b = 239 then
      match bs with
      | c1 :: c2 :: bs' => isCont c1 && isCont c2 && validUtf8 bs'
      | _ => false
    else if b = 237 then
      match bs with
      | c1 :: c2 :: bs' => (128 ≤ c1 && c1 ≤ 159) && isCont c2 && validUtf8 bs'
      | _ => false
    else if b = 240 then
      match bs with
      | c1 :: c2 :: c3 :: bs' => (144 ≤ c1 && c1 ≤ 191) && isCont c2 && isCont c3 && validUtf8 bs'
      | _ => false
    else if 241 ≤ b && b ≤ 243 then
      match bs with
      | c1 :: c2 :: c3 :: bs' => isCont c1 && isCont c2 && isCont c3 && validUtf8 bs'
      | _ => false
    else if b = 244 then
      match bs with
      | c1 :: c2 :: c3 :: bs' => (128 ≤ c1 && c1 ≤ 143) && isCont c2 && isCont c3 && validUtf8 bs'
      | _ => false
    else false

/-- `core::str::from_utf8(..).unwrap()`: the bytes themselves on valid
UTF-8, a panic otherwise. -/
def fromUtf8Unwrap (bs : List Nat) : Except RpcErr (List Nat) :=
  if validUtf8 bs then .ok bs else .error (.fatal "called Result::unwrap on an Err value")

/-! ## Decoder -/

/-- State threaded through `recv_value`: the remaining wire bytes, the
kernel memory, the data cursor (`*data` in the source), and the allocator
state — `hp` is the arena bump pointer and `calls` logs the byte size of
every `alloc` invocation, in order. -/
structure RecvSt where
  input : List Nat
  mem : Mem
  cursor : Nat
  hp : Nat
  calls : List Nat

/-- Modelled from the spec: the externally supplied allocator (§1, §5 —
"returns memory suitably aligned for any payload scalar (i.e. ≥ 8-byte
aligned)"), as a bump allocator on the arena: the returned pointer is the
bump pointer rounded up to 8. -/
def allocOne (s : RecvSt) (n : Nat) : Nat × RecvSt :=
  let p := roundUpT s.hp 8
  (p, { s with hp := p + n, calls := s.calls ++ [n] })

/-- `reader.read_u8()?` on the state. -/
def stReadU8 (s : RecvSt) : Except RpcErr (Nat × RecvSt) := do
  let br ← readExact s.input 1
  .ok (beVal br.1, { s with input := br.2 })

/-- `reader.read_u32()?` on the state (big-endian framing order). -/
def stReadU32 (s : RecvSt) : Except RpcErr (Nat × RecvSt) := do
  let br ← readExact s.input 4
  .ok (beVal br.1, { s with input := br.2 })

/-- `reader.read_u64()?` on the state (big-endian framing order). -/
def stReadU64 (s : RecvSt) : Except RpcErr (Nat × RecvSt) := do
  let br ← readExact s.input 8
  .ok (beVal br.1, { s with input := br.2 })

/-- The per-dimension loop of the `Tag::Array` arm of `recv_value`: for each
dimension, `let len = reader.read_u32()? as usize; total_len *= len;
consume_value!(usize, |ptr| *ptr = len)` — the dimension cell is a 4-byte
`usize` aligned to 4. -/
def recvDims : Nat → Nat → RecvSt → Except RpcErr (Nat × RecvSt)
  | 0, total, s => .ok (total, s)
  | nd + 1, total, s => do
    let r ← stReadU32 s
    let p := roundUpT r.2.cursor 4
    recvDims nd (w32 (total * r.1))
      { r.2 with mem := storeLE r.2.mem p 4 r.1, cursor := p + 4 }

/-- The element types special-cased for bulk transfer by `recv_elements` and
`send_elements`, with their `size_of`: Bool (1 byte), Int32 (4), Int64 and
Float64 (8).  `Option.none` for every other tag, which takes the
per-element loop. -/
def scalarWidth : RTag → Option Nat
  | .bool => Option.some 1
  | .int32 => Option.some 4
  | .int64 => Option.some 8
  | .float64 => Option.some 8
  | _ => Option.none

/-- The shared `String`/`Bytes`/`ByteArray` arm of `recv_value`: consume a
`CMutSlice<u8>` cell (size 8, align 4), read a u32 length, allocate that
many bytes, store the `{ptr, len}` slice header in the cell and
`read_exact` the payload into the allocation. -/
def recvSlice (s : RecvSt) : Except RpcErr RecvSt := do
  let p := roundUpT s.cursor 4
  let r ← stReadU32 { s with cursor := p + 8 }
  let len := r.1
  let q := (allocOne r.2 len).1
  let s2 := (allocOne r.2 len).2
  let br ← readExact s2.input len
  let m' := storeBytes (storeLE (storeLE s2.mem p 4 q) (p + 4) 4 len) q br.1
  .ok { s2 with input := br.2, mem := m' }

mutual

/-- The `Tag::Array` arm of `recv_value` from rpc_proto.rs, which is
self-nested: it fills its element storage with
`recv_elements(reader, tag, total_len, *buffer, alloc)` where `tag` is the
*Array* tag itself (line 173 — `elt_tag` is consulted only for the
allocation size), and `Array` is not one of `recv_elements`' bulk scalar
cases, so every element is decoded by another `recv_value` with the same
`Array(elt, nd)` tag, re-reading `nd` dimension words from the wire at each
level.  `fuel` bounds the nesting depth: a level with `nd ≥ 1` consumes at
least 4 bytes of input before recursing, so the depth can never exceed
`input.length + 1`, the fuel `recv_value` supplies — for `nd ≥ 1`
exhaustion is unreachable and this computes exactly the source's recursion.
With `nd = 0` the source recurses forever (`total_len` stays 1) and
crashes by exhausting the stack; running out of fuel models that
divergence as the fatal outcome. -/
def recvArrF (fuel : Nat) (elt : RTag) (nd : Nat) (s : RecvSt) : Except RpcErr RecvSt :=
  match fuel with
  | 0 => .error (.fatal "stack overflow: unbounded array recursion")
  | fuel + 1 => do
    let p := roundUpT s.cursor 4
    let r ← recvDims nd 1 { s with cursor := p + 4 }
    let total := r.1
    let cOut := r.2.cursor
    let esz ← elt.size
    let q := (allocOne r.2 (w32 (esz * total))).1
    let s2 := (allocOne r.2 (w32 (esz * total))).2
    let s3 ← recvArrElts fuel elt nd total
      { s2 with mem := storeLE s2.mem p 4 q, cursor := q }
    .ok { s3 with cursor := cOut }
termination_by (fuel, 0, 0)

/-- The generic-element arm of `recv_elements` as reached with an `Array`
tag: `for _ in 0..length { recv_value(reader, tag, &mut data, alloc)? }`
with `tag` the array tag. -/
def recvArrElts (fuel : Nat) (elt : RTag) (nd : Nat) (n : Nat) (s : RecvSt) : Except RpcErr RecvSt :=
  match n with
  | 0 => .ok s
  | n + 1 => do
    let s1 ← recvArrF fuel elt nd s
    recvArrElts fuel elt nd n s1
termination_by (fuel, 1, n)

end

mutual

/-- `recv_value` from rpc_proto.rs.  `consume_value!(ty, ..)` aligns the
cursor to `align_of::<ty>()` and advances it past `size_of::<ty>()`; both
are evaluated for the 32-bit target (pointers and `usize`: size 4, align 4;
`CMutSlice<u8>`: size 8, align 4; `u64`: size 8, align 8).  The `List` arm
allocates one block holding the `List { elements, length }` header (the
source's `let list_size = 4 + 4`) followed, at
`round_up(8, elt.alignment())`, by the element storage, and stores a pointer
to that block in the cursor cell; `recv_elements` then walks the storage
with its own data pointer.  The `Array` arm is `recvArrF`, the self-nested
decode of rpc_proto.rs line 173, entered with fuel `input.length + 1` (see
its doc comment: exhaustion is unreachable for `nd ≥ 1` and models the
source's infinite recursion for `nd = 0`).  `Keyword`/`Object` hit
`unreachable!()`. -/
def recv_value (t : RTag) (s : RecvSt) : Except RpcErr RecvSt :=
  match t with
  | .none => .ok s
  | .bool => do
    let p := roundUpT s.cursor 1
    let r ← stReadU8 { s with cursor := p + 1 }
    .ok { r.2 with mem := store1 r.2.mem p r.1 }
  | .int32 => do
    let p := roundUpT s.cursor 4
    let r ← stReadU32 { s with cursor := p + 4 }
    .ok { r.2 with mem := storeLE r.2.mem p 4 r.1 }
  | .int64 => do
    let p := roundUpT s.cursor 8
    let r ← stReadU64 { s with cursor := p + 8 }
    .ok { r.2 with mem := storeLE r.2.mem p 8 r.1 }
  | .float64 => do
    let p := roundUpT s.cursor 8
    let r ← stReadU64 { s with cursor := p + 8 }
    .ok { r.2 with mem := storeLE r.2.mem p 8 r.1 }
  | .string => recvSlice s
  | .bytes => recvSlice s
  | .byteArray => recvSlice s
  | .tuple cs => do
    let al ← (RTag.tuple cs).alignment
    let p ← round_up s.cursor al
    let s1 ← recv_tuple cs { s with cursor := p }
    let p2 ← round_up s1.cursor al
    .ok { s1 with cursor := p2 }
  | .list elt => do
    let p := roundUpT s.cursor 4
    let r ← stReadU32 { s with cursor := p + 4 }
    let len := r.1
    let al ← elt.alignment
    let off ← round_up 8 al
    let esz ← elt.size
    let q := (allocOne r.2 (w32 (off + w32 (esz * len)))).1
    let s2 := (allocOne r.2 (w32 (off + w32 (esz * len)))).2
    let m1 := storeLE s2.mem p 4 q
    let m2 := storeLE (storeLE m1 (q + 4) 4 len) q 4 (q + off)
    let s3 ← recv_elements elt len { s2 with mem := m2, cursor := q + off }
    .ok { s3 with cursor := p + 4 }
  | .array elt nd => recvArrF (s.input.length + 1) elt nd s
  | .range elt => do
    let al ← (RTag.range elt).alignment
    let p ← round_up s.cursor al
    let s1 ← recv_value elt { s with cursor := p }
    let s2 ← recv_value elt s1
    recv_value elt s2
  | .keyword _ => .error (.fatal "internal error: entered unreachable code")
  | .object => .error (.fatal "internal error: entered unreachable code")
termination_by (sizeOf t, 0)

/-- The child loop of the `Tag::Tuple` arm of `recv_value`. -/
def recv_tuple (ts : List RTag) (s : RecvSt) : Except RpcErr RecvSt :=
  match ts with
  | [] => .ok s
  | t :: rest => do
    let s1 ← recv_value t s
    recv_tuple rest s1
termination_by (sizeOf ts, 0)

/-- `recv_elements` from rpc_proto.rs: the state's cursor is the element
storage pointer.  Bool/Int32/Int64/Float64 elements take one bulk
`read_exact` of `length · size_of(elt)` bytes straight into the storage
(`NativeEndian::from_slice_i32`/`_i64` are the identity on the
little-endian target, so the wire bytes land in memory unchanged); every
other element type loops `length` times over `recv_value`. -/
def recv_elements (t : RTag) (n : Nat) (s : RecvSt) : Except RpcErr RecvSt :=
  match scalarWidth t with
  | Option.some k => do
    let br ← readExact s.input (n * k)
    .ok { s with input := br.2, mem := storeBytes s.mem s.cursor br.1 }
  | Option.none => recvEltsLoop t n s
termination_by (sizeOf t, n + 2)

/-- The generic-element loop of `recv_elements`:
`for _ in 0..length { recv_value(reader, tag, &mut data, alloc)? }`. -/
def recvEltsLoop (t : RTag) (n : Nat) (s : RecvSt) : Except RpcErr RecvSt :=
  match n with
  | 0 => .ok s
  | n + 1 => do
    let s1 ← recv_value t s
    recvEltsLoop t n s1
termination_by (sizeOf t, n + 1)

end

/-- `recv_return` from rpc_proto.rs: parse the single top-level return tag
(`it.next().expect("truncated tag")`) and receive one value of it. -/
def recv_return (tagBytes : List Nat) (s : RecvSt) : Except RpcErr RecvSt := do
  match ← tagNext tagBytes with
  | Option.none => .error (.fatal "truncated tag")
  | Option.some (t, _) => recv_value t s

/-! ## Encoder

`send_value` reads the value from memory (which it never mutates) and
returns the advanced cursor together with the emitted wire bytes. -/

/-- The per-dimension loop of the `Tag::Array` arm of `send_value`: for each
dimension, `consume_value!(u32, |len| { writer.write_u32(*len)?;
total_len *= *len; })` — read the 4-byte dimension cell, emit it big-endian,
accumulate the (wrapping u32) product.  Returns the cursor past the
dimension cells, the emitted bytes and the product. -/
def sendDims (m : Mem) : Nat → Nat → Nat → Nat × List Nat × Nat
  | 0, c, total => (c, [], total)
  | nd + 1, c, total =>
    let p := roundUpT c 4
    let v := loadLE m p 4
    let (c', out, t') := sendDims m nd (p + 4) (w32 (total * v))
    (c', writeU32 v ++ out, t')

/-- The shared slice-header read of the `String`/`Bytes`/`ByteArray`/
`Keyword` arms of `send_value`: at the 4-aligned cursor sits a
`CSlice<u8>` `{ptr, len}`; returns the aligned cell address, the payload
pointer and the length. -/
def sendSliceHeader (m : Mem) (c : Nat) : Nat × Nat × Nat :=
  let p := roundUpT c 4
  (p, loadLE m p 4, loadLE m (p + 4) 4)

mutual

/-- `send_value` from rpc_proto.rs: first
`writer.write_u8(tag.as_u8())?`, then the tag-specific body from
`send_body`. -/
def send_value (m : Mem) (t : RTag) (c : Nat) : Except RpcErr (Nat × List Nat) := do
  let r ← send_body m t c
  .ok (r.1, t.as_u8 :: r.2)
termination_by (sizeOf t, 1)

/-- The `match tag` of `send_value` (everything after the tag byte).
`consume_value!` cells are as in `recv_value`; `String` and `Keyword` pass
the payload through `str::from_utf8(..).unwrap()` before
`write_string`.  The `Tuple` arm emits the arity byte, sends the children
while folding their alignments into `max_alignment`, and finally rounds the
cursor up to that maximum (`round_up`'s assertion fails on arity 0).  The
`Keyword` arm sends the value from a fresh cursor placed right after the
name's slice header and advances the outer cursor past the header only. -/
def send_body (m : Mem) (t : RTag) (c : Nat) : Except RpcErr (Nat × List Nat) :=
  match t with
  | .none => .ok (c, [])
  | .bool =>
    let p := roundUpT c 1
    .ok (p + 1, [byteAt m p])
  | .int32 =>
    let p := roundUpT c 4
    .ok (p + 4, writeU32 (loadLE m p 4))
  | .int64 =>
    let p := roundUpT c 8
    .ok (p + 8, writeU64 (loadLE m p 8))
  | .float64 =>
    let p := roundUpT c 8
    .ok (p + 8, writeU64 (loadLE m p 8))
  | .string => do
    let p := (sendSliceHeader m c).1
    let q := (sendSliceHeader m c).2.1
    let len := (sendSliceHeader m c).2.2
    let bs ← fromUtf8Unwrap (loadBytes m q len)
    .ok (p + 8, writeStringP bs)
  | .bytes =>
    let p := (sendSliceHeader m c).1
    let q := (sendSliceHeader m c).2.1
    let len := (sendSliceHeader m c).2.2
    .ok (p + 8, writeBytesP (loadBytes m q len))
  | .byteArray =>
    let p := (sendSliceHeader m c).1
    let q := (sendSliceHeader m c).2.1
    let len := (sendSliceHeader m c).2.2
    .ok (p + 8, writeBytesP (loadBytes m q len))
  | .tuple cs => do
    let r ← send_tuple m cs c 0
    let c2 ← round_up r.1 r.2.2
    .ok (c2, cs.length % 256 :: r.2.1)
  | .list elt => do
    let p := roundUpT c 4
    let lp := loadLE m p 4
    let len := loadLE m (lp + 4) 4
    let out ← send_elements m elt len (loadLE m lp 4)
    .ok (p + 4, writeU32 len ++ out)
  | .array elt nd => do
    let p := roundUpT c 4
    let bufp := loadLE m p 4
    let dr := sendDims m nd (p + 4) 1
    let out ← send_elements m elt dr.2.2 bufp
    .ok (dr.1, nd % 256 :: (dr.2.1 ++ out))
  | .range elt => do
    let r1 ← send_value m elt c
    let r2 ← send_value m elt r1.1
    let r3 ← send_value m elt r2.1
    .ok (r3.1, r1.2 ++ r2.2 ++ r3.2)
  | .keyword elt => do
    let p := (sendSliceHeader m c).1
    let q := (sendSliceHeader m c).2.1
    let len := (sendSliceHeader m c).2.2
    let bs ← fromUtf8Unwrap (loadBytes m q len)
    let r ← send_value m elt (p + 8)
    .ok (p + 8, writeStringP bs ++ r.2)
  | .object =>
    let p := roundUpT c 4
    .ok (p + 4, writeU32 (loadLE m (loadLE m p 4) 4))
termination_by (sizeOf t, 0)

/-- The child loop of the `Tuple` arm: send each child, folding
`max_alignment = max(max_alignment, tag.alignment())`. -/
def send_tuple (m : Mem) (ts : List RTag) (c maxAl : Nat) : Except RpcErr (Nat × List Nat × Nat) :=
  match ts with
  | [] => .ok (c, [], maxAl)
  | t :: rest => do
    let al ← t.alignment
    let r1 ← send_value m t c
    let r2 ← send_tuple m rest r1.1 (Nat.max maxAl al)
    .ok (r2.1, r1.2 ++ r2.2.1, r2.2.2)
termination_by (sizeOf ts, 1)

/-- `send_elements` from rpc_proto.rs: `writer.write_u8(elt_tag.as_u8())?`,
then for Bool/Int32/Int64/Float64 one bulk `write_all` of the contiguous
`length · size_of(elt)` storage bytes (already native-endian in memory),
otherwise `length` individual `send_value` calls walking the storage. -/
def send_elements (m : Mem) (t : RTag) (n : Nat) (dp : Nat) : Except RpcErr (List Nat) :=
  match scalarWidth t with
  | Option.some k => .ok (t.as_u8 :: loadBytes m dp (n * k))
  | Option.none => do
    let out ← sendEltsLoop m t n dp
    .ok (t.as_u8 :: out)
termination_by (sizeOf t, n + 2)

/-- The generic-element loop of `send_elements`. -/
def sendEltsLoop (m : Mem) (t : RTag) (n : Nat) (dp : Nat) : Except RpcErr (List Nat) :=
  match n with
  | 0 => .ok []
  | n + 1 => do
    let r ← send_value m t dp
    let rest ← sendEltsLoop m t n r.1
    .ok (r.2 ++ rest)
termination_by (sizeOf t, n + 1)

end

/-- The argument loop of `send_args`: while the argument tag iterator
yields a tag, fetch `*data.offset(index)` — the `index`-th 4-byte pointer of
the argument table — and `send_value` from it. -/
def sendArgsLoop (m : Mem) (bs : List Nat) (argp : Nat) (idx : Nat) : Except RpcErr (List Nat) :=
  match bs with
  | [] => .ok []
  | b :: more => do
    let pr ← parseOne (b :: more)
    let dp := loadLE m (argp + 4 * idx) 4
    let sr ← send_value m pr.1 dp
    let rest ← sendArgsLoop m pr.2.val argp (idx + 1)
    .ok (sr.2 ++ rest)
termination_by bs.length
decreasing_by
  have h := pr.2.property
  simpa using h

/-- `send_args` from rpc_proto.rs: split the tag string at `:`, write the
u32 service id, send each argument tagged, write the 0x00 end-of-args
sentinel, then `writer.write_bytes(return_tag_bytes)` (the transport's
length-prefixed framing). -/
def send_args (m : Mem) (service : Nat) (tagBytes : List Nat) (argp : Nat) : Except RpcErr (List Nat) := do
  let tr ← split_tag tagBytes
  let out ← sendArgsLoop m tr.1 argp 0
  .ok (writeU32 service ++ out ++ [0] ++ writeBytesP tr.2)

/-! ## Spec-side layout functions

Total counterparts of the layout oracle, used to state the claims: `alignN`
and `sizeN` compute what `Tag::alignment`/`Tag::size` return on every valid
tag (proved below), and `advN` is the exact cursor advance of both codec
directions — it agrees with `sizeN` everywhere except on `List`, whose
cursor cell is a single 4-byte pointer. -/

mutual

/-- Total alignment (agrees with `Tag::alignment` on valid tags). -/
def alignN : RTag → Nat
  | .none => 1
  | .bool => 1
  | .int32 => 4
  | .int64 => 8
  | .float64 => 8
  | .string => 4
  | .bytes => 4
  | .byteArray => 4
  | .tuple cs => alMax cs
  | .list _ => 4
  | .array _ _ => 4
  | .range e => alignN e
  | .keyword _ => 1
  | .object => 1

/-- Maximum child alignment (0 on an empty list, where the source's
`max().unwrap()` panics). -/
def alMax : List RTag → Nat
  | [] => 0
  | t :: ts => Nat.max (alignN t) (alMax ts)

end

mutual

/-- Total size (agrees with `Tag::size` on valid tags whose layout fits the
32-bit size arithmetic). -/
def sizeN : RTag → Nat
  | .none => 0
  | .bool => 1
  | .int32 => 4
  | .int64 => 8
  | .float64 => 8
  | .string => 8
  | .bytes => 8
  | .byteArray => 8
  | .tuple cs => roundUpT (szLoop cs 0) (alMax cs)
  | .list _ => 8
  | .array _ nd => 4 * (1 + nd)
  | .range e => sizeN e * 3
  | .keyword _ => 0
  | .object => 0

/-- The running size of a tuple's children:
`running = round_up(running, child.alignment) + child.size`. -/
def szLoop : List RTag → Nat → Nat
  | [], acc => acc
  | t :: ts, acc => szLoop ts (roundUpT acc (alignN t) + sizeN t)

end

mutual

/-- The exact cursor advance of `recv_value` and `send_value` from a cursor
already aligned to `alignN`: identical to `sizeN` except that a `List`
value's cursor cell is one 4-byte pointer to the heap-allocated
`{elements, length}` header, so it advances by 4, not by
`Tag::size(List) = 8`. -/
def advN : RTag → Nat
  | .none => 0
  | .bool => 1
  | .int32 => 4
  | .int64 => 8
  | .float64 => 8
  | .string => 8
  | .bytes => 8
  | .byteArray => 8
  | .tuple cs => roundUpT (advLoop cs 0) (alMax cs)
  | .list _ => 4
  | .array _ nd => 4 * (1 + nd)
  | .range e => advN e * 3
  | .keyword _ => 0
  | .object => 0

/-- The running cursor offset of a tuple's children under `advN`. -/
def advLoop : List RTag → Nat → Nat
  | [], acc => acc
  | t :: ts, acc => advLoop ts (roundUpT acc (alignN t) + advN t)

end

mutual

/-- Well-formed tags: the ones on which both codec directions are defined —
`Keyword` and `Object` nowhere (both directions panic on them inside
composites, and `recv_value` panics on them even at top level), and every
tuple nonempty (the layout oracle and the encoder panic on arity 0 — claim
C9). -/
def validT : RTag → Bool
  | .none => true
  | .bool => true
  | .int32 => true
  | .int64 => true
  | .float64 => true
  | .string => true
  | .bytes => true
  | .byteArray => true
  | .tuple cs => !cs.isEmpty && validL cs
  | .list e => validT e
  | .array e _ => validT e
  | .range e => validT e
  | .keyword _ => false
  | .object => false

/-- All tags in the list are valid. -/
def validL : List RTag → Bool
  | [] => true
  | t :: ts => validT t && validL ts

end

mutual

/-- Tags whose deserialization never calls the allocator: everything except
`String`/`Bytes`/`ByteArray`/`List`/`Array` (and composites containing
them). -/
def noAllocT : RTag → Bool
  | .none => true
  | .bool => true
  | .int32 => true
  | .int64 => true
  | .float64 => true
  | .string => false
  | .bytes => false
  | .byteArray => false
  | .tuple cs => noAllocL cs
  | .list _ => false
  | .array _ _ => false
  | .range e => noAllocT e
  | .keyword _ => true
  | .object => true

/-- No tag in the list allocates. -/
def noAllocL : List RTag → Bool
  | [] => true
  | t :: ts => noAllocT t && noAllocL ts

end

mutual

/-- Tags containing no `Array` constructor anywhere.  The array receive
path of the source does not decode its elements (rpc_proto.rs line 173
passes the `Array` tag itself, not the element tag, to `recv_elements`),
so only array-free tags round-trip (claim C1). -/
def noArray : RTag → Bool
  | .none => true
  | .bool => true
  | .int32 => true
  | .int64 => true
  | .float64 => true
  | .string => true
  | .bytes => true
  | .byteArray => true
  | .tuple cs => noArrayL cs
  | .list e => noArray e
  | .array _ _ => false
  | .range e => noArray e
  | .keyword _ => true
  | .object => true

/-- No tag in the list contains an `Array`. -/
def noArrayL : List RTag → Bool
  | [] => true
  | t :: ts => noArray t && noArrayL ts

end

mutual

/-- Tags containing no `List` anywhere: on these `advN = sizeN`. -/
def listFreeT : RTag → Bool
  | .none => true
  | .bool => true
  | .int32 => true
  | .int64 => true
  | .float64 => true
  | .string => true
  | .bytes => true
  | .byteArray => true
  | .tuple cs => listFreeL cs
  | .list _ => false
  | .array e _ => listFreeT e
  | .range e => listFreeT e
  | .keyword e => listFreeT e
  | .object => true

def listFreeL : List RTag → Bool
  | [] => true
  | t :: ts => listFreeT t && listFreeL ts

end

/-- The per-field offsets of a tuple, as the spec words the packing rule:
each field sits at the running size so far rounded up to the field's
alignment, and the running size then advances past the field. -/
def tupleOffsets : List RTag → Nat → List Nat
  | [], _ => []
  | t :: ts, run =>
    roundUpT run (alignN t) :: tupleOffsets ts (roundUpT run (alignN t) + sizeN t)

/-- The running (32-bit wrapping) product of `nd` dimension lengths as the
decoder reads them: each is the big-endian u32 at the front of the input. -/
def dimsProd : Nat → List Nat → Nat → Nat
  | 0, _, total => total
  | nd + 1, inp, total => dimsProd nd (inp.drop 4) (w32 (total * beVal (inp.take 4)))

mutual

/-- Tags that `send_value` only encodes correctly from a cursor already
aligned to their alignment: unlike `recv_value`, the encoder's `Tuple` arm
never aligns the cursor on entry (it relies on each child aligning itself,
and only rounds up to the running maximum alignment on exit), so a tuple —
or a range whose element is such a tag — read from an unaligned cursor
walks different addresses than the decoder wrote. -/
def needsAlign : RTag → Bool
  | .tuple _ => true
  | .range e => needsAlign e
  | _ => false

end

mutual

/-- Tags whose encoder walk agrees with the decoder walk from an aligned
cursor: every field of a nested tuple that `needsAlign` must sit at a
running offset that is already a multiple of its alignment (no alignment
padding directly before it), since the encoder will not skip that padding. -/
def alignOkT : RTag → Bool
  | .tuple cs => alignOkFields cs 0
  | .list e => alignOkT e
  | .array e _ => alignOkT e
  | .range e => alignOkT e
  | .keyword e => alignOkT e
  | _ => true

/-- Field-by-field check of `alignOkT` for a tuple's children, threading
the running offset. -/
def alignOkFields : List RTag → Nat → Bool
  | [], _ => true
  | t :: ts, run =>
    (!needsAlign t || decide (alignN t ∣ run)) && alignOkT t
      && alignOkFields ts (roundUpT run (alignN t) + advN t)

end

/-! ## Round-trip oracles (claim C1)

`recv_value` is driven by the tag alone and never reads the framing bytes
that `send_value` interleaves (the per-value tag byte, the tuple arity
byte, the array dimension-count byte, and the element-tag byte of
`send_elements`).  `bodyStream` below is `send_body` with exactly those
emissions removed — the byte stream the decoder actually consumes — and
`consume` is the memoryless skeleton of `recv_value`'s stream consumption
and arena arithmetic, which renders the claim's "representable on the
target" as a decidable check that the decoded layout fits the 32-bit
arena. -/

mutual

/-- Spec-side de-framed encoder for claim C1: literally `send_body`, with
the framing bytes removed — children are emitted through `bodyStream`
itself instead of `send_value` (dropping the per-value tag byte), the
tuple arm emits no arity byte, the array arm emits no dimension-count
byte, and elements are emitted without `send_elements`' leading
element-tag byte.  The `Keyword`/`Object` arms mirror the decoder's
`unreachable!()` (both are outside claim C1's well-formed tags).  All
placement arithmetic is unchanged from `send_body`. -/
def bodyStream (m : Mem) (t : RTag) (c : Nat) : Except RpcErr (Nat × List Nat) :=
  match t with
  | .none => .ok (c, [])
  | .bool =>
    let p := roundUpT c 1
    .ok (p + 1, [byteAt m p])
  | .int32 =>
    let p := roundUpT c 4
    .ok (p + 4, writeU32 (loadLE m p 4))
  | .int64 =>
    let p := roundUpT c 8
    .ok (p + 8, writeU64 (loadLE m p 8))
  | .float64 =>
    let p := roundUpT c 8
    .ok (p + 8, writeU64 (loadLE m p 8))
  | .string => do
    let p := (sendSliceHeader m c).1
    let q := (sendSliceHeader m c).2.1
    let len := (sendSliceHeader m c).2.2
    let bs ← fromUtf8Unwrap (loadBytes m q len)
    .ok (p + 8, writeStringP bs)
  | .bytes =>
    let p := (sendSliceHeader m c).1
    let q := (sendSliceHeader m c).2.1
    let len := (sendSliceHeader m c).2.2
    .ok (p + 8, writeBytesP (loadBytes m q len))
  | .byteArray =>
    let p := (sendSliceHeader m c).1
    let q := (sendSliceHeader m c).2.1
    let len := (sendSliceHeader m c).2.2
    .ok (p + 8, writeBytesP (loadBytes m q len))
  | .tuple cs => do
    let r ← bodyTuple m cs c 0
    let c2 ← round_up r.1 r.2.2
    .ok (c2, r.2.1)
  | .list elt => do
    let p := roundUpT c 4
    let lp := loadLE m p 4
    let len := loadLE m (lp + 4) 4
    let out ← bodyElements m elt len (loadLE m lp 4)
    .ok (p + 4, writeU32 len ++ out)
  | .array elt nd => do
    let p := roundUpT c 4
    let bufp := loadLE m p 4
    let dr := sendDims m nd (p + 4) 1
    let out ← bodyElements m elt dr.2.2 bufp
    .ok (dr.1, dr.2.1 ++ out)
  | .range elt => do
    let r1 ← bodyStream m elt c
    let r2 ← bodyStream m elt r1.1
    let r3 ← bodyStream m elt r2.1
    .ok (r3.1, r1.2 ++ r2.2 ++ r3.2)
  | .keyword _ => .error (.fatal "internal error: entered unreachable code")
  | .object => .error (.fatal "internal error: entered unreachable code")
termination_by (sizeOf t, 0)

/-- The child loop of `bodyStream`'s tuple arm: `send_tuple` with the
children's tag bytes removed. -/
def bodyTuple (m : Mem) (ts : List RTag) (c maxAl : Nat) : Except RpcErr (Nat × List Nat × Nat) :=
  match ts with
  | [] => .ok (c, [], maxAl)
  | t :: rest => do
    let al ← t.alignment
    let r1 ← bodyStream m t c
    let r2 ← bodyTuple m rest r1.1 (Nat.max maxAl al)
    .ok (r2.1, r1.2 ++ r2.2.1, r2.2.2)
termination_by (sizeOf ts, 1)

/-- `send_elements` without its leading element-tag byte. -/
def bodyElements (m : Mem) (t : RTag) (n : Nat) (dp : Nat) : Except RpcErr (List Nat) :=
  match scalarWidth t with
  | Option.some k => .ok (loadBytes m dp (n * k))
  | Option.none => bodyEltsLoop m t n dp
termination_by (sizeOf t, n + 2)

/-- The generic-element loop of `bodyElements`: `sendEltsLoop` with
`bodyStream` in place of `send_value`. -/
def bodyEltsLoop (m : Mem) (t : RTag) (n : Nat) (dp : Nat) : Except RpcErr (List Nat) :=
  match n with
  | 0 => .ok []
  | n + 1 => do
    let r ← bodyStream m t dp
    let rest ← bodyEltsLoop m t n r.1
    .ok (r.2 ++ rest)
termination_by (sizeOf t, n + 1)

end

/-- Stream consumption and arena footprint of the `String`/`Bytes`/
`ByteArray` arm of `recv_value`: a u32 length, that many payload bytes,
and one allocation of the payload size. -/
def consumeSlice (inp : List Nat) (hp : Nat) : Option (List Nat × Nat) :=
  if 4 ≤ inp.length then
    if beVal (inp.take 4) ≤ (inp.drop 4).length then
      Option.some ((inp.drop 4).drop (beVal (inp.take 4)), roundUpT hp 8 + beVal (inp.take 4))
    else Option.none
  else Option.none

mutual

/-- Spec-side rendering of claim C1's "value representable on the target":
the stream- and tag-driven skeleton of `recv_value` — consumption of the
wire stream and the arena bump pointer, which the decoder determines from
the stream content alone — with a guard wherever the decoder's 32-bit
layout arithmetic (`Tag::size() * length`, the list's
`round_up(8, alignment) + size * length`) would wrap: a value whose
decoded layout overflows the 32-bit target arena is not representable on
it.  Returns the unconsumed stream and the final bump pointer. -/
def consume (t : RTag) (inp : List Nat) (hp : Nat) : Option (List Nat × Nat) :=
  match t with
  | .none => Option.some (inp, hp)
  | .bool => if 1 ≤ inp.length then Option.some (inp.drop 1, hp) else Option.none
  | .int32 => if 4 ≤ inp.length then Option.some (inp.drop 4, hp) else Option.none
  | .int64 => if 8 ≤ inp.length then Option.some (inp.drop 8, hp) else Option.none
  | .float64 => if 8 ≤ inp.length then Option.some (inp.drop 8, hp) else Option.none
  | .string => consumeSlice inp hp
  | .bytes => consumeSlice inp hp
  | .byteArray => consumeSlice inp hp
  | .tuple cs => consumeL cs inp hp
  | .list elt =>
    if 4 ≤ inp.length then
      if roundUpT 8 (alignN elt) + sizeN elt * beVal (inp.take 4) + 8 ≤ 4294967296 then
        consumeN elt (beVal (inp.take 4)) (inp.drop 4)
          (roundUpT hp 8 + (roundUpT 8 (alignN elt) + sizeN elt * beVal (inp.take 4)))
      else Option.none
    else Option.none
  | .array elt nd =>
    if 4 * nd ≤ inp.length then
      if sizeN elt * dimsProd nd inp 1 + 8 ≤ 4294967296 then
        consumeN elt (dimsProd nd inp 1) (inp.drop (4 * nd))
          (roundUpT hp 8 + sizeN elt * dimsProd nd inp 1)
      else Option.none
    else Option.none
  | .range elt => do
    let r1 ← consume elt inp hp
    let r2 ← consume elt r1.1 r1.2
    consume elt r2.1 r2.2
  | .keyword _ => Option.none
  | .object => Option.none
termination_by (sizeOf t, 0)

/-- `consume` over a tuple's children. -/
def consumeL (ts : List RTag) (inp : List Nat) (hp : Nat) : Option (List Nat × Nat) :=
  match ts with
  | [] => Option.some (inp, hp)
  | t :: rest => do
    let r ← consume t inp hp
    consumeL rest r.1 r.2
termination_by (sizeOf ts, 1)

/-- `consume` for `n` array or list elements (the skeleton of
`recv_elements`: one bulk read for the scalar-width element types, a loop
otherwise). -/
def consumeN (t : RTag) (n : Nat) (inp : List Nat) (hp : Nat) : Option (List Nat × Nat) :=
  match scalarWidth t with
  | Option.some k => if n * k ≤ inp.length then Option.some (inp.drop (n * k), hp) else Option.none
  | Option.none => consumeNL t n inp hp
termination_by (sizeOf t, n + 2)

/-- The generic-element loop of `consumeN`. -/
def consumeNL (t : RTag) (n : Nat) (inp : List Nat) (hp : Nat) : Option (List Nat × Nat) :=
  match n with
  | 0 => Option.some (inp, hp)
  | n + 1 => do
    let r ← consume t inp hp
    consumeNL t n r.1 r.2
termination_by (sizeOf t, n + 1)

end

/-- Frame property of a decode step: memory is unchanged outside the
cursor window `[lo, hi)` and the heap window `[s.hp, s2.hp)`. -/
def frameOn (s s2 : RecvSt) (lo hi : Nat) : Prop :=
  ∀ a, (a < lo ∨ hi ≤ a) → (a < s.hp ∨ s2.hp ≤ a) → s2.mem a = s.mem a

/-- `m2` agrees with the post-decode memory `s2.mem` on the cursor window
`[lo, hi)` and the heap window `[s.hp, s2.hp)` — the read footprint of
re-encoding the decoded value. -/
def agreeOn (m2 : Mem) (s s2 : RecvSt) (lo hi : Nat) : Prop :=
  ∀ a, (lo ≤ a ∧ a < hi) ∨ (s.hp ≤ a ∧ a < s2.hp) → m2 a = s2.mem a

end RpcProto

namespace RpcProto

/-! ## Arithmetic lemmas -/

theorem w32_eq {n : Nat} (h : n < 4294967296) : w32 n = n :=
  Nat.mod_eq_of_lt h

theorem div_mul_eq_sub_mod (a p : Nat) : a / p * p = a - a % p := by
  have h := Nat.div_add_mod a p
  have h2 : a / p * p = p * (a / p) := Nat.mul_comm _ _
  omega

theorem roundUpT_one (v : Nat) : roundUpT v 1 = v := by
  simp [roundUpT]

theorem le_roundUpT (v : Nat) {p : Nat} (hp : 0 < p) : v ≤ roundUpT v p := by
  have h1 := div_mul_eq_sub_mod (v + (p - 1)) p
  have h2 : (v + (p - 1)) % p < p := Nat.mod_lt _ hp
  unfold roundUpT
  omega

theorem roundUpT_le (v : Nat) {p : Nat} (hp : 0 < p) : roundUpT v p ≤ v + (p - 1) := by
  have h1 := div_mul_eq_sub_mod (v + (p - 1)) p
  unfold roundUpT
  omega

theorem dvd_roundUpT (v p : Nat) : p ∣ roundUpT v p :=
  Dvd.intro_left _ rfl

theorem roundUpT_eq_self {v p : Nat} (hp : 0 < p) (h : p ∣ v) : roundUpT v p = v := by
  rcases h with ⟨k, rfl⟩
  unfold roundUpT
  have h1 : p * k + (p - 1) = (p - 1) + k * p := by ring
  rw [h1, Nat.add_mul_div_right _ _ hp]
  have h2 : (p - 1) / p = 0 := Nat.div_eq_of_lt (by omega)
  rw [h2, Nat.zero_add, Nat.mul_comm]

theorem roundUpT_add_left {p s : Nat} (v : Nat) (hp : 0 < p) (h : p ∣ s) :
    roundUpT (s + v) p = s + roundUpT v p := by
  rcases h with ⟨k, rfl⟩
  unfold roundUpT
  have h1 : p * k + v + (p - 1) = v + (p - 1) + k * p := by ring
  rw [h1, Nat.add_mul_div_right _ _ hp, Nat.add_mul, Nat.mul_comm k p]
  omega

theorem roundUpT_mono {v w : Nat} (p : Nat) (h : v ≤ w) : roundUpT v p ≤ roundUpT w p :=
  Nat.mul_le_mul_right _ (Nat.div_le_div_right (by omega))

theorem round_up_ok {v p : Nat} (hp : isPowerOfTwo p = true) (h : v + p ≤ 4294967296) :
    round_up v p = .ok (roundUpT v p) := by
  have hp0 : 0 < p := by
    rcases Nat.eq_zero_or_pos p with h0 | h0
    · subst h0; simp [isPowerOfTwo] at hp
    · exact h0
  unfold round_up roundUpT
  rw [if_pos hp, w32_eq (by omega)]

/-! ## Alignment classification -/

mutual

theorem alignN_cases : ∀ t, validT t = true → alignN t = 1 ∨ alignN t = 4 ∨ alignN t = 8
  | .none, _ => Or.inl rfl
  | .bool, _ => Or.inl rfl
  | .int32, _ => Or.inr (Or.inl rfl)
  | .int64, _ => Or.inr (Or.inr rfl)
  | .float64, _ => Or.inr (Or.inr rfl)
  | .string, _ => Or.inr (Or.inl rfl)
  | .bytes, _ => Or.inr (Or.inl rfl)
  | .byteArray, _ => Or.inr (Or.inl rfl)
  | .list _, _ => Or.inr (Or.inl rfl)
  | .array _ _, _ => Or.inr (Or.inl rfl)
  | .tuple cs, hv => by
    have h : validL cs = true ∧ cs ≠ [] := by
      cases cs with
      | nil => simp [validT] at hv
      | cons c cs' => exact ⟨by simpa [validT] using hv, by simp⟩
    exact alMax_cases cs h.1 h.2
  | .range e, hv => alignN_cases e (by simpa [validT] using hv)
  | .keyword _, hv => by simp [validT] at hv
  | .object, hv => by simp [validT] at hv

theorem alMax_cases : ∀ ts : List RTag, validL ts = true → ts ≠ [] →
    alMax ts = 1 ∨ alMax ts = 4 ∨ alMax ts = 8
  | [t], hv, _ => by
    have h1 := alignN_cases t (by simpa [validL] using hv)
    simp only [alMax]
    rcases h1 with h | h | h <;> simp [h]
  | t :: r :: rs, hv, _ => by
    have hv' : validT t = true ∧ validL (r :: rs) = true := by
      simpa [validL, Bool.and_eq_true] using hv
    have h1 := alignN_cases t hv'.1
    have h2 := alMax_cases (r :: rs) hv'.2 (by simp)
    rw [show alMax (t :: r :: rs) = Nat.max (alignN t) (alMax (r :: rs)) from rfl]
    rcases h1 with h | h | h <;> rcases h2 with g | g | g <;>
      rw [h, g] <;> simp [Nat.max_def]

end

theorem alignN_pos {t : RTag} (hv : validT t = true) : 0 < alignN t := by
  rcases alignN_cases t hv with h | h | h <;> omega

theorem alignN_dvd8 {t : RTag} (hv : validT t = true) : alignN t ∣ 8 := by
  rcases alignN_cases t hv with h | h | h <;> rw [h] <;> decide

theorem alignN_pow2 {t : RTag} (hv : validT t = true) : isPowerOfTwo (alignN t) = true := by
  rcases alignN_cases t hv with h | h | h <;> rw [h] <;> decide

theorem alMax_pow2 {ts : List RTag} (hv : validL ts = true) (hne : ts ≠ []) :
    isPowerOfTwo (alMax ts) = true := by
  rcases alMax_cases ts hv hne with h | h | h <;> rw [h] <;> decide

theorem alMax_pos {ts : List RTag} (hv : validL ts = true) (hne : ts ≠ []) :
    0 < alMax ts := by
  rcases alMax_cases ts hv hne with h | h | h <;> omega

theorem alMax_le8 {ts : List RTag} (hv : validL ts = true) (hne : ts ≠ []) :
    alMax ts ≤ 8 := by
  rcases alMax_cases ts hv hne with h | h | h <;> omega

theorem alignN_le8 {t : RTag} (hv : validT t = true) : alignN t ≤ 8 := by
  rcases alignN_cases t hv with h | h | h <;> omega

theorem alignN_le_alMax {t : RTag} {ts : List RTag} (h : t ∈ ts) : alignN t ≤ alMax ts := by
  induction ts with
  | nil => simp at h
  | cons x xs ih =>
    rcases List.mem_cons.mp h with rfl | h'
    · simp [alMax, Nat.le_max_left]
    · exact Nat.le_trans (ih h') (by simp [alMax, Nat.le_max_right])

theorem pow2_dvd_of_le {a b : Nat} (ha : a = 1 ∨ a = 4 ∨ a = 8)
    (hb : b = 1 ∨ b = 4 ∨ b = 8) (h : a ≤ b) : a ∣ b := by
  rcases ha with rfl | rfl | rfl <;> rcases hb with rfl | rfl | rfl <;> first | decide | omega

theorem alignN_dvd_alMax {t : RTag} {ts : List RTag} (hmem : t ∈ ts)
    (hvt : validT t = true) (hv : validL ts = true) (hne : ts ≠ []) :
    alignN t ∣ alMax ts :=
  pow2_dvd_of_le (alignN_cases t hvt) (alMax_cases ts hv hne) (alignN_le_alMax hmem)

/-! ## Layout oracle linking -/

mutual

theorem alignment_eq : ∀ t, validT t = true → RTag.alignment t = .ok (alignN t)
  | .none, _ => rfl
  | .bool, _ => rfl
  | .int32, _ => rfl
  | .int64, _ => rfl
  | .float64, _ => rfl
  | .string, _ => rfl
  | .bytes, _ => rfl
  | .byteArray, _ => rfl
  | .list _, _ => rfl
  | .array _ _, _ => rfl
  | .tuple cs, hv => by
    cases cs with
    | nil => simp [validT] at hv
    | cons c cs' =>
      have hv' : validT c = true ∧ validL cs' = true := by
        simpa [validT, validL, Bool.and_eq_true] using hv
      show alignmentMax (c :: cs') Option.none = _
      rw [alignmentMax, alignment_eq c hv'.1]
      show alignmentMax cs' (Option.some (alignN c)) = _
      rw [alignmentMax_some cs' (alignN c) hv'.2]
      rfl
  | .range e, hv => by
    show RTag.alignment e = _
    rw [alignment_eq e (by simpa [validT] using hv)]
    rfl
  | .keyword _, hv => by simp [validT] at hv
  | .object, hv => by simp [validT] at hv

theorem alignmentMax_some : ∀ ts b, validL ts = true →
    alignmentMax ts (Option.some b) = .ok (Nat.max b (alMax ts))
  | [], b, _ => by simp [alignmentMax, alMax]
  | t :: rest, b, hv => by
    have hv' : validT t = true ∧ validL rest = true := by
      simpa [validL, Bool.and_eq_true] using hv
    rw [alignmentMax, alignment_eq t hv'.1]
    show alignmentMax rest (Option.some (Nat.max b (alignN t))) = _
    rw [alignmentMax_some rest _ hv'.2, show alMax (t :: rest) = Nat.max (alignN t) (alMax rest) from rfl]
    exact congrArg Except.ok (Nat.max_assoc _ _ _)

end

theorem bind_ok_law {α β : Type} (a : α) (f : α → Except RpcErr β) :
    (Except.ok a >>= f) = f a := rfl

theorem szLoop_le {ts : List RTag} (hv : validL ts = true) (acc : Nat) :
    acc ≤ szLoop ts acc := by
  induction ts generalizing acc with
  | nil => simp [szLoop]
  | cons t rest ih =>
    have hv' : validT t = true ∧ validL rest = true := by
      simpa [validL, Bool.and_eq_true] using hv
    calc acc ≤ roundUpT acc (alignN t) := le_roundUpT _ (alignN_pos hv'.1)
    _ ≤ roundUpT acc (alignN t) + sizeN t := Nat.le_add_right _ _
    _ ≤ szLoop rest (roundUpT acc (alignN t) + sizeN t) := ih hv'.2 _
    _ = szLoop (t :: rest) acc := rfl

mutual

theorem size_eq : ∀ t, validT t = true → sizeN t + 8 ≤ 4294967296 →
    RTag.size t = .ok (sizeN t)
  | .none, _, _ => rfl
  | .bool, _, _ => rfl
  | .int32, _, _ => rfl
  | .int64, _, _ => rfl
  | .float64, _, _ => rfl
  | .string, _, _ => rfl
  | .bytes, _, _ => rfl
  | .byteArray, _, _ => rfl
  | .list _, _, _ => rfl
  | .array e nd, _, hb => by
    have hsz : sizeN (.array e nd) = 4 * (1 + nd) := rfl
    show Except.ok (w32 (4 * (1 + nd))) = _
    rw [w32_eq (by omega), hsz]
  | .tuple cs, hv, hb => by
    have hcs : validL cs = true ∧ cs ≠ [] := by
      cases cs with
      | nil => simp [validT] at hv
      | cons c cs' => exact ⟨by simpa [validT] using hv, by simp⟩
    have hmx : Nat.max 0 (alMax cs) = alMax cs := Nat.zero_max _
    have hb' : szLoop cs 0 + 8 ≤ 4294967296 := by
      have h1 : szLoop cs 0 ≤ roundUpT (szLoop cs 0) (alMax cs) :=
        le_roundUpT _ (alMax_pos hcs.1 hcs.2)
      have h2 : sizeN (.tuple cs) = roundUpT (szLoop cs 0) (alMax cs) := rfl
      omega
    show tupleSizeLoop cs 0 0 = _
    rw [tupleSizeLoop_eq cs 0 0 hcs.1 (by rw [hmx]; exact alMax_pow2 hcs.1 hcs.2)
      (by rw [hmx]; exact alMax_le8 hcs.1 hcs.2) hb', hmx]
    rfl
  | .range e, hv, hb => by
    have hv' : validT e = true := by simpa [validT] using hv
    have hsz : sizeN e + 8 ≤ 4294967296 := by
      have h3 : sizeN e ≤ sizeN e * 3 := by omega
      simp only [sizeN] at hb
      have h4 : sizeN e * 3 ≤ w32 (sizeN e * 3) + 4294967296 := by
        unfold w32
        omega
      omega
    show (RTag.size e >>= fun s => Except.ok (w32 (s * 3))) = _
    rw [size_eq e hv' hsz, bind_ok_law]
    show Except.ok (w32 (sizeN e * 3)) = Except.ok (sizeN (.range e))
    rw [show sizeN (.range e) = sizeN e * 3 from rfl, w32_eq (by simp only [sizeN] at hb; omega)]
  | .keyword _, hv, _ => by simp [validT] at hv
  | .object, hv, _ => by simp [validT] at hv

theorem tupleSizeLoop_eq : ∀ ts acc maxAl, validL ts = true →
    isPowerOfTwo (Nat.max maxAl (alMax ts)) = true →
    Nat.max maxAl (alMax ts) ≤ 8 →
    szLoop ts acc + 8 ≤ 4294967296 →
    tupleSizeLoop ts acc maxAl = .ok (roundUpT (szLoop ts acc) (Nat.max maxAl (alMax ts)))
  | [], acc, maxAl, _, hpow, hle, hb => by
    show round_up acc maxAl = _
    rw [show Nat.max maxAl (alMax []) = maxAl by simp [alMax]] at hpow hle ⊢
    exact round_up_ok hpow (by simp only [szLoop] at hb; omega)
  | t :: rest, acc, maxAl, hv, hpow, hle, hb => by
    have hv' : validT t = true ∧ validL rest = true := by
      simpa [validL, Bool.and_eq_true] using hv
    have hacc : acc ≤ szLoop (t :: rest) acc := szLoop_le hv acc
    have hstep : roundUpT acc (alignN t) + sizeN t ≤ szLoop (t :: rest) acc := by
      have h := szLoop_le hv'.2 (roundUpT acc (alignN t) + sizeN t)
      exact h
    have hbound : szLoop (t :: rest) acc + 8 ≤ 4294967296 := hb
    have hcons : alMax (t :: rest) = Nat.max (alignN t) (alMax rest) := rfl
    have hmaxeq : Nat.max (Nat.max maxAl (alignN t)) (alMax rest) = Nat.max maxAl (alMax (t :: rest)) := by
      rw [hcons]
      exact Nat.max_assoc _ _ _
    have hszcons : szLoop (t :: rest) acc = szLoop rest (roundUpT acc (alignN t) + sizeN t) := rfl
    show (RTag.alignment t >>= fun al => round_up acc al >>= fun sz' =>
      RTag.size t >>= fun s => tupleSizeLoop rest (w32 (sz' + s)) (Nat.max maxAl al)) = _
    rw [alignment_eq t hv'.1, bind_ok_law,
      round_up_ok (alignN_pow2 hv'.1) (by have := alignN_le8 hv'.1; omega), bind_ok_law,
      size_eq t hv'.1 (by omega), bind_ok_law,
      w32_eq (by omega),
      tupleSizeLoop_eq rest (roundUpT acc (alignN t) + sizeN t) (Nat.max maxAl (alignN t)) hv'.2
        (by rw [hmaxeq]; exact hpow)
        (by rw [hmaxeq]; exact hle)
        (by rw [← hszcons]; exact hb)]
    rw [hmaxeq, ← hszcons]

end

theorem szLoop_mono {ts : List RTag} (hv : validL ts = true) {a b : Nat} (h : a ≤ b) :
    szLoop ts a ≤ szLoop ts b := by
  induction ts generalizing a b with
  | nil => simpa [szLoop] using h
  | cons t rest ih =>
    have hv' : validT t = true ∧ validL rest = true := by
      simpa [validL, Bool.and_eq_true] using hv
    show szLoop rest _ ≤ szLoop rest _
    exact ih hv'.2 (Nat.add_le_add_right (roundUpT_mono _ h) _)

mutual

theorem advN_le_sizeN : ∀ t, validT t = true → advN t ≤ sizeN t
  | .none, _ => Nat.le_refl _
  | .bool, _ => Nat.le_refl _
  | .int32, _ => Nat.le_refl _
  | .int64, _ => Nat.le_refl _
  | .float64, _ => Nat.le_refl _
  | .string, _ => Nat.le_refl _
  | .bytes, _ => Nat.le_refl _
  | .byteArray, _ => Nat.le_refl _
  | .list _, _ => by simp [advN, sizeN]
  | .array _ _, _ => Nat.le_refl _
  | .tuple cs, hv => by
    have hcs : validL cs = true := by
      cases cs with
      | nil => simp [validT] at hv
      | cons c cs' => exact by simpa [validT] using hv
    show roundUpT (advLoop cs 0) (alMax cs) ≤ roundUpT (szLoop cs 0) (alMax cs)
    exact roundUpT_mono _ (advLoop_le_szLoop cs hcs (Nat.le_refl 0))
  | .range e, hv => by
    have h := advN_le_sizeN e (by simpa [validT] using hv)
    show advN e * 3 ≤ sizeN e * 3
    omega
  | .keyword _, _ => Nat.le_refl _
  | .object, _ => Nat.le_refl _

theorem advLoop_le_szLoop : ∀ ts : List RTag, validL ts = true → ∀ {a b : Nat}, a ≤ b →
    advLoop ts a ≤ szLoop ts b
  | [], _, _, _, h => by simpa [advLoop, szLoop] using h
  | t :: rest, hv, a, b, h => by
    have hv' : validT t = true ∧ validL rest = true := by
      simpa [validL, Bool.and_eq_true] using hv
    show advLoop rest _ ≤ szLoop rest _
    exact advLoop_le_szLoop rest hv'.2
      (Nat.add_le_add (roundUpT_mono _ h) (advN_le_sizeN t hv'.1))

end

theorem alignN_dvd_advN : ∀ t, validT t = true → alignN t ∣ advN t
  | .none, _ => Dvd.intro 0 rfl
  | .bool, _ => Dvd.intro 1 rfl
  | .int32, _ => Dvd.intro 1 rfl
  | .int64, _ => Dvd.intro 1 rfl
  | .float64, _ => Dvd.intro 1 rfl
  | .string, _ => by decide
  | .bytes, _ => by decide
  | .byteArray, _ => by decide
  | .list _, _ => Dvd.intro 1 rfl
  | .array _ nd, _ => by
    show (4 : Nat) ∣ 4 * (1 + nd)
    exact Dvd.intro _ rfl
  | .tuple cs, _ => dvd_roundUpT _ _
  | .range e, hv => by
    have h := alignN_dvd_advN e (by simpa [validT] using hv)
    show alignN e ∣ advN e * 3
    exact Dvd.dvd.mul_right h 3
  | .keyword _, hv => by simp [validT] at hv
  | .object, hv => by simp [validT] at hv

mutual

/-- On every valid tag, `Tag::size` succeeds (possibly with wrapped
arithmetic): the only failure paths are `Keyword`/`Object` and the arity-0
tuple. -/
theorem size_ok : ∀ t, validT t = true → ∃ v, RTag.size t = .ok v
  | .none, _ => ⟨_, rfl⟩
  | .bool, _ => ⟨_, rfl⟩
  | .int32, _ => ⟨_, rfl⟩
  | .int64, _ => ⟨_, rfl⟩
  | .float64, _ => ⟨_, rfl⟩
  | .string, _ => ⟨_, rfl⟩
  | .bytes, _ => ⟨_, rfl⟩
  | .byteArray, _ => ⟨_, rfl⟩
  | .list _, _ => ⟨_, rfl⟩
  | .array _ nd, _ => ⟨_, rfl⟩
  | .tuple cs, hv => by
    have hcs : validL cs = true ∧ cs ≠ [] := by
      cases cs with
      | nil => simp [validT] at hv
      | cons c cs' => exact ⟨by simpa [validT] using hv, by simp⟩
    have h := tupleSizeLoop_ok cs 0 0 hcs.1
      (by rw [show Nat.max 0 (alMax cs) = alMax cs from Nat.zero_max _]
          exact alMax_pow2 hcs.1 hcs.2)
    exact h
  | .range e, hv => by
    obtain ⟨v, hv'⟩ := size_ok e (by simpa [validT] using hv)
    exact ⟨_, by show (RTag.size e >>= fun s => Except.ok (w32 (s * 3))) = _; rw [hv', bind_ok_law]⟩
  | .keyword _, hv => by simp [validT] at hv
  | .object, hv => by simp [validT] at hv

theorem tupleSizeLoop_ok : ∀ ts acc maxAl, validL ts = true →
    isPowerOfTwo (Nat.max maxAl (alMax ts)) = true →
    ∃ v, tupleSizeLoop ts acc maxAl = .ok v
  | [], acc, maxAl, _, hpow => by
    rw [show Nat.max maxAl (alMax []) = maxAl by simp [alMax]] at hpow
    exact ⟨_, by show round_up acc maxAl = _; unfold round_up; rw [if_pos hpow]⟩
  | t :: rest, acc, maxAl, hv, hpow => by
    have hv' : validT t = true ∧ validL rest = true := by
      simpa [validL, Bool.and_eq_true] using hv
    have hcons : alMax (t :: rest) = Nat.max (alignN t) (alMax rest) := rfl
    have hmaxeq : Nat.max (Nat.max maxAl (alignN t)) (alMax rest) = Nat.max maxAl (alMax (t :: rest)) := by
      rw [hcons]
      exact Nat.max_assoc _ _ _
    obtain ⟨s, hs⟩ := size_ok t hv'.1
    obtain ⟨v, hrec⟩ := tupleSizeLoop_ok rest
      (w32 (w32 (acc + (alignN t - 1)) / alignN t * alignN t + s)) (Nat.max maxAl (alignN t)) hv'.2
      (by rw [hmaxeq]; exact hpow)
    refine ⟨v, ?_⟩
    show (RTag.alignment t >>= fun al => round_up acc al >>= fun sz' =>
      RTag.size t >>= fun s => tupleSizeLoop rest (w32 (sz' + s)) (Nat.max maxAl al)) = _
    rw [alignment_eq t hv'.1, bind_ok_law]
    unfold round_up
    rw [if_pos (alignN_pow2 hv'.1), bind_ok_law, hs, bind_ok_law]
    exact hrec

end

/-! ## Decoder cursor advance -/

theorem bind_eq_ok {α β : Type} {x : Except RpcErr α} {f : α → Except RpcErr β} {b : β}
    (h : (x >>= f) = .ok b) : ∃ a, x = .ok a ∧ f a = .ok b := by
  cases x with
  | ok a => exact ⟨a, rfl, h⟩
  | error e => simp [Bind.bind, Except.bind] at h

theorem validL_mem {ts : List RTag} {u : RTag} (hv : validL ts = true) (hm : u ∈ ts) :
    validT u = true := by
  induction ts with
  | nil => simp at hm
  | cons t rest ih =>
    have hv' : validT t = true ∧ validL rest = true := by
      simpa [validL, Bool.and_eq_true] using hv
    rcases List.mem_cons.mp hm with rfl | hm'
    · exact hv'.1
    · exact ih hv'.2 hm'

theorem stReadU8_ok {s : RecvSt} {r : Nat × RecvSt} (h : stReadU8 s = .ok r) :
    1 ≤ s.input.length ∧ r.1 = beVal (s.input.take 1) ∧
    r.2 = { s with input := s.input.drop 1 } := by
  unfold stReadU8 readExact at h
  split at h
  · rw [bind_ok_law] at h
    simp only [Except.ok.injEq] at h
    rw [← h]
    exact ⟨by omega, rfl, rfl⟩
  · simp [Bind.bind, Except.bind] at h

theorem stReadU32_ok {s : RecvSt} {r : Nat × RecvSt} (h : stReadU32 s = .ok r) :
    4 ≤ s.input.length ∧ r.1 = beVal (s.input.take 4) ∧
    r.2 = { s with input := s.input.drop 4 } := by
  unfold stReadU32 readExact at h
  split at h
  · rw [bind_ok_law] at h
    simp only [Except.ok.injEq] at h
    rw [← h]
    exact ⟨by omega, rfl, rfl⟩
  · simp [Bind.bind, Except.bind] at h

theorem stReadU64_ok {s : RecvSt} {r : Nat × RecvSt} (h : stReadU64 s = .ok r) :
    8 ≤ s.input.length ∧ r.1 = beVal (s.input.take 8) ∧
    r.2 = { s with input := s.input.drop 8 } := by
  unfold stReadU64 readExact at h
  split at h
  · rw [bind_ok_law] at h
    simp only [Except.ok.injEq] at h
    rw [← h]
    exact ⟨by omega, rfl, rfl⟩
  · simp [Bind.bind, Except.bind] at h

theorem recvDims_adv : ∀ nd total (s : RecvSt) (r : Nat × RecvSt),
    recvDims nd total s = .ok r → 4 ∣ s.cursor →
    r.2.cursor = s.cursor + 4 * nd
  | 0, total, s, r, h, _ => by
    unfold recvDims at h
    simp only [Except.ok.injEq] at h
    rw [← h]
    show s.cursor = s.cursor + 4 * 0
    omega
  | nd + 1, total, s, r, h, hdvd => by
    unfold recvDims at h
    obtain ⟨r1, h1, h2⟩ := bind_eq_ok h
    have hs1 := stReadU32_ok h1
    have hcur : r1.2.cursor = s.cursor := by rw [hs1.2.2]
    have hround : roundUpT r1.2.cursor 4 = s.cursor := by
      rw [hcur]
      exact roundUpT_eq_self (by omega) hdvd
    have hrec := recvDims_adv nd (w32 (total * r1.1)) _ r h2
      (by show (4 : Nat) ∣ roundUpT r1.2.cursor 4 + 4
          have hd := dvd_roundUpT r1.2.cursor 4
          omega)
    have hc : r.2.cursor = roundUpT r1.2.cursor 4 + 4 + 4 * nd := hrec
    rw [hc, hround]
    omega

theorem recvSlice_adv {s s' : RecvSt} (h : recvSlice s = .ok s') :
    s'.cursor = roundUpT s.cursor 4 + 8 := by
  unfold recvSlice at h
  obtain ⟨r, h1, h2⟩ := bind_eq_ok h
  obtain ⟨br, h3, h4⟩ := bind_eq_ok h2
  have hr := stReadU32_ok h1
  simp only [Except.ok.injEq] at h4
  rw [← h4]
  show (allocOne r.2 r.1).2.cursor = roundUpT s.cursor 4 + 8
  have hall : (allocOne r.2 r.1).2.cursor = r.2.cursor := rfl
  rw [hall, hr.2.2]

/-- On success (any fuel), the self-nested array decode restores the main
cursor to just past the pointer cell and the `nd` dimension cells. -/
theorem recvArrF_adv : ∀ (f : Nat) (elt : RTag) (nd : Nat) (s s' : RecvSt),
    recvArrF f elt nd s = .ok s' → s'.cursor = roundUpT s.cursor 4 + 4 + 4 * nd
  | 0, elt, nd, s, s', h => by
    unfold recvArrF at h
    cases h
  | f + 1, elt, nd, s, s', h => by
    unfold recvArrF at h
    obtain ⟨r, h1, h2⟩ := bind_eq_ok h
    obtain ⟨esz, h3, h4⟩ := bind_eq_ok h2
    obtain ⟨s3, h5, h6⟩ := bind_eq_ok h4
    simp only [Except.ok.injEq] at h6
    have hdims := recvDims_adv nd 1 _ r h1 (by
      show (4 : Nat) ∣ roundUpT s.cursor 4 + 4
      have hd := dvd_roundUpT s.cursor 4
      omega)
    rw [← h6]
    show r.2.cursor = roundUpT s.cursor 4 + 4 + 4 * nd
    exact hdims

mutual

/-- On success, `recv_value` advances the cursor to its `alignN`-aligned
position plus exactly `advN` bytes, for every valid tag and any input. -/
theorem recv_value_adv : ∀ (t : RTag) (s s' : RecvSt), validT t = true →
    roundUpT s.cursor (alignN t) + sizeN t + 8 ≤ 4294967296 →
    recv_value t s = .ok s' → s'.cursor = roundUpT s.cursor (alignN t) + advN t
  | .none, s, s', _, _, h => by
    unfold recv_value at h
    simp only [Except.ok.injEq] at h
    rw [← h]
    show s.cursor = roundUpT s.cursor 1 + 0
    rw [roundUpT_one]
    rfl
  | .bool, s, s', _, _, h => by
    unfold recv_value at h
    obtain ⟨r, h1, h2⟩ := bind_eq_ok h
    have hr := stReadU8_ok h1
    simp only [Except.ok.injEq] at h2
    rw [← h2]
    show r.2.cursor = roundUpT s.cursor (alignN .bool) + advN .bool
    rw [hr.2.2]
    rfl
  | .int32, s, s', _, _, h => by
    unfold recv_value at h
    obtain ⟨r, h1, h2⟩ := bind_eq_ok h
    have hr := stReadU32_ok h1
    simp only [Except.ok.injEq] at h2
    rw [← h2]
    show r.2.cursor = roundUpT s.cursor (alignN .int32) + advN .int32
    rw [hr.2.2]
    rfl
  | .int64, s, s', _, _, h => by
    unfold recv_value at h
    obtain ⟨r, h1, h2⟩ := bind_eq_ok h
    have hr := stReadU64_ok h1
    simp only [Except.ok.injEq] at h2
    rw [← h2]
    show r.2.cursor = roundUpT s.cursor (alignN .int64) + advN .int64
    rw [hr.2.2]
    rfl
  | .float64, s, s', _, _, h => by
    unfold recv_value at h
    obtain ⟨r, h1, h2⟩ := bind_eq_ok h
    have hr := stReadU64_ok h1
    simp only [Except.ok.injEq] at h2
    rw [← h2]
    show r.2.cursor = roundUpT s.cursor (alignN .float64) + advN .float64
    rw [hr.2.2]
    rfl
  | .string, s, s', _, _, h => by
    unfold recv_value at h
    rw [recvSlice_adv h]
    rfl
  | .bytes, s, s', _, _, h => by
    unfold recv_value at h
    rw [recvSlice_adv h]
    rfl
  | .byteArray, s, s', _, _, h => by
    unfold recv_value at h
    rw [recvSlice_adv h]
    rfl
  | .tuple cs, s, s', hv, hb, h => by
    have hcs : validL cs = true ∧ cs ≠ [] := by
      cases cs with
      | nil => simp [validT] at hv
      | cons c cs' => exact ⟨by simpa [validT] using hv, by simp⟩
    have halm := alMax_pos hcs.1 hcs.2
    have halm8 := alMax_le8 hcs.1 hcs.2
    have hc_le : s.cursor ≤ roundUpT s.cursor (alMax cs) := le_roundUpT _ halm
    have hszle : szLoop cs 0 ≤ roundUpT (szLoop cs 0) (alMax cs) := le_roundUpT _ halm
    have hadvsz : advLoop cs 0 ≤ szLoop cs 0 := advLoop_le_szLoop cs hcs.1 (Nat.le_refl 0)
    have hb2 : roundUpT s.cursor (alMax cs) + roundUpT (szLoop cs 0) (alMax cs) + 8 ≤ 4294967296 := hb
    unfold recv_value at h
    have haleq : RTag.alignment (.tuple cs) = Except.ok (alMax cs) := alignment_eq _ hv
    rw [haleq, bind_ok_law,
      round_up_ok (alMax_pow2 hcs.1 hcs.2) (by omega), bind_ok_law] at h
    obtain ⟨s1, h1, h2⟩ := bind_eq_ok h
    have hs1c := recv_tuple_adv cs (roundUpT s.cursor (alMax cs)) 0
      { s with cursor := roundUpT s.cursor (alMax cs) } s1 hcs.1
      (fun u hu => Dvd.dvd.trans
        (alignN_dvd_alMax hu (validL_mem hcs.1 hu) hcs.1 hcs.2)
        (dvd_roundUpT _ _))
      (by show roundUpT s.cursor (alMax cs) = roundUpT s.cursor (alMax cs) + 0; omega)
      (by omega)
      h1
    rw [hs1c,
      round_up_ok (alMax_pow2 hcs.1 hcs.2) (by omega), bind_ok_law] at h2
    simp only [Except.ok.injEq] at h2
    rw [← h2]
    show roundUpT (roundUpT s.cursor (alMax cs) + advLoop cs 0) (alMax cs) = _
    rw [roundUpT_add_left (advLoop cs 0) halm (dvd_roundUpT _ _)]
    rfl
  | .list elt, s, s', hv, hb, h => by
    have hve : validT elt = true := by simpa [validT] using hv
    unfold recv_value at h
    obtain ⟨r, h1, h2⟩ := bind_eq_ok h
    rw [alignment_eq elt hve, bind_ok_law,
      round_up_ok (alignN_pow2 hve) (by have h8 := alignN_le8 hve; omega), bind_ok_law] at h2
    obtain ⟨sz, hsz⟩ := size_ok elt hve
    rw [hsz, bind_ok_law] at h2
    obtain ⟨s3, h3, h4⟩ := bind_eq_ok h2
    simp only [Except.ok.injEq] at h4
    rw [← h4]
    show roundUpT s.cursor 4 + 4 = roundUpT s.cursor (alignN (.list elt)) + advN (.list elt)
    rfl
  | .array elt nd, s, s', hv, hb, h => by
    unfold recv_value at h
    have hadv := recvArrF_adv (s.input.length + 1) elt nd s s' h
    rw [hadv]
    show roundUpT s.cursor 4 + 4 + 4 * nd = roundUpT s.cursor 4 + 4 * (1 + nd)
    omega
  | .range elt, s, s', hv, hb, h => by
    have hve : validT elt = true := by simpa [validT] using hv
    have halpos := alignN_pos hve
    have hal8 := alignN_le8 hve
    have hdadv := alignN_dvd_advN elt hve
    have hadvsz := advN_le_sizeN elt hve
    have hc_le : s.cursor ≤ roundUpT s.cursor (alignN elt) := le_roundUpT _ halpos
    have hb2 : roundUpT s.cursor (alignN elt) + sizeN elt * 3 + 8 ≤ 4294967296 := hb
    unfold recv_value at h
    have haleq : RTag.alignment (.range elt) = Except.ok (alignN elt) := alignment_eq _ hv
    rw [haleq, bind_ok_law,
      round_up_ok (alignN_pow2 hve) (by omega), bind_ok_law] at h
    obtain ⟨s1, h1, h2⟩ := bind_eq_ok h
    obtain ⟨s2, h3, h4⟩ := bind_eq_ok h2
    have hpdvd : alignN elt ∣ roundUpT s.cursor (alignN elt) := dvd_roundUpT _ _
    have hA := recv_value_adv elt { s with cursor := roundUpT s.cursor (alignN elt) } s1 hve
      (by show roundUpT (roundUpT s.cursor (alignN elt)) (alignN elt) + sizeN elt + 8 ≤ 4294967296
          rw [roundUpT_eq_self halpos hpdvd]
          omega)
      h1
    have hA2 : s1.cursor = roundUpT s.cursor (alignN elt) + advN elt := by
      have hx : roundUpT ({ s with cursor := roundUpT s.cursor (alignN elt) } : RecvSt).cursor (alignN elt)
          = roundUpT s.cursor (alignN elt) := by
        show roundUpT (roundUpT s.cursor (alignN elt)) (alignN elt) = _
        exact roundUpT_eq_self halpos hpdvd
      rw [hA, hx]
    have hs1dvd : alignN elt ∣ s1.cursor := by
      rw [hA2]
      exact Dvd.dvd.add hpdvd hdadv
    have hB := recv_value_adv elt s1 s2 hve
      (by rw [roundUpT_eq_self halpos hs1dvd, hA2]; omega)
      h3
    have hB2 : s2.cursor = roundUpT s.cursor (alignN elt) + advN elt + advN elt := by
      rw [hB, roundUpT_eq_self halpos hs1dvd, hA2]
    have hs2dvd : alignN elt ∣ s2.cursor := by
      rw [hB2]
      exact Dvd.dvd.add (Dvd.dvd.add hpdvd hdadv) hdadv
    have hC := recv_value_adv elt s2 s' hve
      (by rw [roundUpT_eq_self halpos hs2dvd, hB2]; omega)
      h4
    rw [hC, roundUpT_eq_self halpos hs2dvd, hB2]
    show roundUpT s.cursor (alignN elt) + advN elt + advN elt + advN elt
      = roundUpT s.cursor (alignN elt) + advN elt * 3
    omega
  | .keyword _, s, s', hv, _, h => by simp [validT] at hv
  | .object, s, s', hv, _, h => by simp [validT] at hv

theorem recv_tuple_adv : ∀ (ts : List RTag) (d a : Nat) (s s' : RecvSt), validL ts = true →
    (∀ u ∈ ts, alignN u ∣ d) →
    s.cursor = d + a →
    d + szLoop ts a + 8 ≤ 4294967296 →
    recv_tuple ts s = .ok s' → s'.cursor = d + advLoop ts a
  | [], d, a, s, s', _, _, hcur, _, h => by
    unfold recv_tuple at h
    simp only [Except.ok.injEq] at h
    rw [← h, hcur]
    rfl
  | t :: rest, d, a, s, s', hv, hdvd, hcur, hb, h => by
    have hv' : validT t = true ∧ validL rest = true := by
      simpa [validL, Bool.and_eq_true] using hv
    have hdt : alignN t ∣ d := hdvd t (by simp)
    have halpos := alignN_pos hv'.1
    unfold recv_tuple at h
    obtain ⟨s1, h1, h2⟩ := bind_eq_ok h
    have hrnd : roundUpT s.cursor (alignN t) = d + roundUpT a (alignN t) := by
      rw [hcur]
      exact roundUpT_add_left a halpos hdt
    have hszle : roundUpT a (alignN t) + sizeN t ≤ szLoop (t :: rest) a := szLoop_le hv'.2 _
    have hchild := recv_value_adv t s s1 hv'.1 (by rw [hrnd]; omega) h1
    have hs1 : s1.cursor = d + (roundUpT a (alignN t) + advN t) := by
      rw [hchild, hrnd]
      omega
    have hadv_le : roundUpT a (alignN t) + advN t ≤ roundUpT a (alignN t) + sizeN t := by
      have hx := advN_le_sizeN t hv'.1
      omega
    have hrec := recv_tuple_adv rest d (roundUpT a (alignN t) + advN t) s1 s' hv'.2
      (fun u hu => hdvd u (by simp [hu]))
      hs1
      (by
        have hmono := szLoop_mono hv'.2 hadv_le
        have hco : szLoop rest (roundUpT a (alignN t) + sizeN t) = szLoop (t :: rest) a := rfl
        omega)
      h2
    rw [hrec]
    rfl

end

/-! ## Encoder cursor advance -/

theorem sendDims_adv (m : Mem) : ∀ (nd x total : Nat), 4 ∣ x →
    (sendDims m nd x total).1 = x + 4 * nd
  | 0, x, total, _ => by
    unfold sendDims
    omega
  | nd + 1, x, total, hdvd => by
    unfold sendDims
    have hx : roundUpT x 4 = x := roundUpT_eq_self (by omega) hdvd
    show (sendDims m nd (roundUpT x 4 + 4) (w32 (total * loadLE m (roundUpT x 4) 4))).1 = x + 4 * (nd + 1)
    rw [sendDims_adv m nd _ _ (by rw [hx]; omega), hx]
    omega

mutual

/-- On success, `send_value` advances the cursor by the same amount as
`recv_value` — to the `alignN`-aligned position plus `advN` — on valid
`alignOkT` tags, with the cursor pre-aligned whenever the tag `needsAlign`. -/
theorem send_value_adv : ∀ (t : RTag) (m : Mem) (c : Nat) (r : Nat × List Nat),
    validT t = true → alignOkT t = true →
    (needsAlign t = true → alignN t ∣ c) →
    roundUpT c (alignN t) + sizeN t + 8 ≤ 4294967296 →
    send_value m t c = .ok r → r.1 = roundUpT c (alignN t) + advN t
  | t, m, c, r, hv, hok, hna, hb, h => by
    unfold send_value at h
    obtain ⟨rb, h1, h2⟩ := bind_eq_ok h
    simp only [Except.ok.injEq] at h2
    have hb1 := send_body_adv t m c rb hv hok hna hb h1
    rw [← h2]
    exact hb1

theorem send_body_adv : ∀ (t : RTag) (m : Mem) (c : Nat) (r : Nat × List Nat),
    validT t = true → alignOkT t = true →
    (needsAlign t = true → alignN t ∣ c) →
    roundUpT c (alignN t) + sizeN t + 8 ≤ 4294967296 →
    send_body m t c = .ok r → r.1 = roundUpT c (alignN t) + advN t
  | .none, m, c, r, _, _, _, _, h => by
    unfold send_body at h
    simp only [Except.ok.injEq] at h
    rw [← h]
    show c = roundUpT c 1 + 0
    rw [roundUpT_one]
    rfl
  | .bool, m, c, r, _, _, _, _, h => by
    unfold send_body at h
    simp only [Except.ok.injEq] at h
    rw [← h]
    rfl
  | .int32, m, c, r, _, _, _, _, h => by
    unfold send_body at h
    simp only [Except.ok.injEq] at h
    rw [← h]
    rfl
  | .int64, m, c, r, _, _, _, _, h => by
    unfold send_body at h
    simp only [Except.ok.injEq] at h
    rw [← h]
    rfl
  | .float64, m, c, r, _, _, _, _, h => by
    unfold send_body at h
    simp only [Except.ok.injEq] at h
    rw [← h]
    rfl
  | .string, m, c, r, _, _, _, _, h => by
    unfold send_body at h
    obtain ⟨bs, h1, h2⟩ := bind_eq_ok h
    simp only [Except.ok.injEq] at h2
    rw [← h2]
    rfl
  | .bytes, m, c, r, _, _, _, _, h => by
    unfold send_body at h
    simp only [Except.ok.injEq] at h
    rw [← h]
    rfl
  | .byteArray, m, c, r, _, _, _, _, h => by
    unfold send_body at h
    simp only [Except.ok.injEq] at h
    rw [← h]
    rfl
  | .tuple cs, m, c, r, hv, hok, hna, hb, h => by
    have hcs : validL cs = true ∧ cs ≠ [] := by
      cases cs with
      | nil => simp [validT] at hv
      | cons c0 cs' => exact ⟨by simpa [validT] using hv, by simp⟩
    have halm := alMax_pos hcs.1 hcs.2
    have halm8 := alMax_le8 hcs.1 hcs.2
    have hcal : alMax cs ∣ c := hna rfl
    have hcrnd : roundUpT c (alMax cs) = c := roundUpT_eq_self halm hcal
    have hadvsz : advLoop cs 0 ≤ szLoop cs 0 := advLoop_le_szLoop cs hcs.1 (Nat.le_refl 0)
    have hszle : szLoop cs 0 ≤ roundUpT (szLoop cs 0) (alMax cs) := le_roundUpT _ halm
    have hb2 : roundUpT c (alMax cs) + roundUpT (szLoop cs 0) (alMax cs) + 8 ≤ 4294967296 := hb
    unfold send_body at h
    obtain ⟨rt, h1, h2⟩ := bind_eq_ok h
    have hok' : alignOkFields cs 0 = true := hok
    have htup := send_tuple_adv cs m c 0 0 rt hcs.1 hok'
      (fun u hu => Dvd.dvd.trans
        (alignN_dvd_alMax hu (validL_mem hcs.1 hu) hcs.1 hcs.2) hcal)
      (by rw [hcrnd] at hb2; omega)
      h1
    rw [htup.1, htup.2, show Nat.max 0 (alMax cs) = alMax cs from Nat.zero_max _,
      round_up_ok (alMax_pow2 hcs.1 hcs.2) (by rw [hcrnd] at hb2; omega), bind_ok_law] at h2
    simp only [Except.ok.injEq] at h2
    rw [← h2]
    show roundUpT (c + advLoop cs 0) (alMax cs) = roundUpT c (alignN (.tuple cs)) + advN (.tuple cs)
    rw [roundUpT_add_left (advLoop cs 0) halm hcal]
    show c + roundUpT (advLoop cs 0) (alMax cs) = roundUpT c (alMax cs) + roundUpT (advLoop cs 0) (alMax cs)
    rw [hcrnd]
  | .list elt, m, c, r, hv, _, _, _, h => by
    unfold send_body at h
    obtain ⟨out, h1, h2⟩ := bind_eq_ok h
    simp only [Except.ok.injEq] at h2
    rw [← h2]
    rfl
  | .array elt nd, m, c, r, hv, _, _, _, h => by
    unfold send_body at h
    obtain ⟨out, h1, h2⟩ := bind_eq_ok h
    simp only [Except.ok.injEq] at h2
    rw [← h2]
    show (sendDims m nd (roundUpT c 4 + 4) 1).1 = roundUpT c (alignN (.array elt nd)) + advN (.array elt nd)
    rw [sendDims_adv m nd _ _ (by have hd := dvd_roundUpT c 4; omega)]
    show roundUpT c 4 + 4 + 4 * nd = roundUpT c 4 + 4 * (1 + nd)
    omega
  | .range elt, m, c, r, hv, hok, hna, hb, h => by
    have hve : validT elt = true := by simpa [validT] using hv
    have halpos := alignN_pos hve
    have hdadv := alignN_dvd_advN elt hve
    have hadvsz := advN_le_sizeN elt hve
    have hc_le : c ≤ roundUpT c (alignN elt) := le_roundUpT _ halpos
    have hal8 := alignN_le8 hve
    have hb2 : roundUpT c (alignN elt) + sizeN elt * 3 + 8 ≤ 4294967296 := hb
    have hok' : alignOkT elt = true := hok
    unfold send_body at h
    obtain ⟨r1, h1, h2⟩ := bind_eq_ok h
    obtain ⟨r2, h3, h4⟩ := bind_eq_ok h2
    obtain ⟨r3, h5, h6⟩ := bind_eq_ok h4
    have hA := send_value_adv elt m c r1 hve hok' (fun hn => hna hn) (by omega) h1
    have hpdvd : alignN elt ∣ roundUpT c (alignN elt) := dvd_roundUpT _ _
    have hs1dvd : alignN elt ∣ r1.1 := by
      rw [hA]
      exact Dvd.dvd.add hpdvd hdadv
    have hB := send_value_adv elt m r1.1 r2 hve hok' (fun _ => hs1dvd)
      (by rw [roundUpT_eq_self halpos hs1dvd, hA]; omega) h3
    have hB2 : r2.1 = roundUpT c (alignN elt) + advN elt + advN elt := by
      rw [hB, roundUpT_eq_self halpos hs1dvd, hA]
    have hs2dvd : alignN elt ∣ r2.1 := by
      rw [hB2]
      exact Dvd.dvd.add (Dvd.dvd.add hpdvd hdadv) hdadv
    have hC := send_value_adv elt m r2.1 r3 hve hok' (fun _ => hs2dvd)
      (by rw [roundUpT_eq_self halpos hs2dvd, hB2]; omega) h5
    simp only [Except.ok.injEq] at h6
    rw [← h6]
    show r3.1 = roundUpT c (alignN (.range elt)) + advN (.range elt)
    rw [hC, roundUpT_eq_self halpos hs2dvd, hB2]
    show roundUpT c (alignN elt) + advN elt + advN elt + advN elt
      = roundUpT c (alignN elt) + advN elt * 3
    omega
  | .keyword _, m, c, r, hv, _, _, _, h => by simp [validT] at hv
  | .object, m, c, r, hv, _, _, _, h => by simp [validT] at hv

theorem send_tuple_adv : ∀ (ts : List RTag) (m : Mem) (d a maxAl : Nat)
    (r : Nat × List Nat × Nat), validL ts = true →
    alignOkFields ts a = true →
    (∀ u ∈ ts, alignN u ∣ d) →
    d + szLoop ts a + 8 ≤ 4294967296 →
    send_tuple m ts (d + a) maxAl = .ok r →
    r.1 = d + advLoop ts a ∧ r.2.2 = Nat.max maxAl (alMax ts)
  | [], m, d, a, maxAl, r, _, _, _, _, h => by
    unfold send_tuple at h
    simp only [Except.ok.injEq] at h
    rw [← h]
    exact ⟨rfl, by show maxAl = Nat.max maxAl 0; simp [Nat.max_def]⟩
  | t :: rest, m, d, a, maxAl, r, hv, hok, hdvd, hb, h => by
    have hv' : validT t = true ∧ validL rest = true := by
      simpa [validL, Bool.and_eq_true] using hv
    have hdt : alignN t ∣ d := hdvd t (by simp)
    have halpos := alignN_pos hv'.1
    have hokparts : (!needsAlign t || decide (alignN t ∣ a)) = true ∧ alignOkT t = true ∧
        alignOkFields rest (roundUpT a (alignN t) + advN t) = true := by
      have hx : alignOkFields (t :: rest) a
          = ((!needsAlign t || decide (alignN t ∣ a)) && alignOkT t
            && alignOkFields rest (roundUpT a (alignN t) + advN t)) := rfl
      rw [hx] at hok
      simp only [Bool.and_eq_true] at hok
      exact ⟨hok.1.1, hok.1.2, hok.2⟩
    unfold send_tuple at h
    rw [alignment_eq t hv'.1, bind_ok_law] at h
    obtain ⟨r1, h1, h2⟩ := bind_eq_ok h
    obtain ⟨r2, h3, h4⟩ := bind_eq_ok h2
    have hrnd : roundUpT (d + a) (alignN t) = d + roundUpT a (alignN t) :=
      roundUpT_add_left a halpos hdt
    have hszle : roundUpT a (alignN t) + sizeN t ≤ szLoop (t :: rest) a := szLoop_le hv'.2 _
    have hchild := send_value_adv t m (d + a) r1 hv'.1 hokparts.2.1
      (fun hn => by
        have hda : alignN t ∣ a := by
          have hx := hokparts.1
          rw [hn] at hx
          simpa using hx
        exact Dvd.dvd.add hdt hda)
      (by rw [hrnd]; omega)
      h1
    have hs1 : r1.1 = d + (roundUpT a (alignN t) + advN t) := by
      rw [hchild, hrnd]
      omega
    have hadv_le : roundUpT a (alignN t) + advN t ≤ roundUpT a (alignN t) + sizeN t := by
      have hx := advN_le_sizeN t hv'.1
      omega
    rw [hs1] at h3
    have hrec := send_tuple_adv rest m d (roundUpT a (alignN t) + advN t)
      (Nat.max maxAl (alignN t)) r2 hv'.2 hokparts.2.2
      (fun u hu => hdvd u (by simp [hu]))
      (by
        have hmono := szLoop_mono hv'.2 hadv_le
        have hco : szLoop rest (roundUpT a (alignN t) + sizeN t) = szLoop (t :: rest) a := rfl
        omega)
      h3
    simp only [Except.ok.injEq] at h4
    rw [← h4]
    refine ⟨by rw [hrec.1]; rfl, ?_⟩
    show r2.2.2 = Nat.max maxAl (alMax (t :: rest))
    rw [hrec.2, show alMax (t :: rest) = Nat.max (alignN t) (alMax rest) from rfl]
    exact Nat.max_assoc _ _ _

end

mutual

theorem advN_eq_sizeN : ∀ t, listFreeT t = true → advN t = sizeN t
  | .none, _ => rfl
  | .bool, _ => rfl
  | .int32, _ => rfl
  | .int64, _ => rfl
  | .float64, _ => rfl
  | .string, _ => rfl
  | .bytes, _ => rfl
  | .byteArray, _ => rfl
  | .list _, hf => by simp [listFreeT] at hf
  | .array _ _, _ => rfl
  | .tuple cs, hf => by
    have hf' : listFreeL cs = true := hf
    show roundUpT (advLoop cs 0) (alMax cs) = roundUpT (szLoop cs 0) (alMax cs)
    rw [advLoop_eq_szLoop cs hf' 0]
  | .range e, hf => by
    have h := advN_eq_sizeN e (by simpa [listFreeT] using hf)
    show advN e * 3 = sizeN e * 3
    rw [h]
  | .keyword e, _ => rfl
  | .object, _ => rfl

theorem advLoop_eq_szLoop : ∀ ts, listFreeL ts = true → ∀ a, advLoop ts a = szLoop ts a
  | [], _, a => rfl
  | t :: rest, hf, a => by
    have hf' : listFreeT t = true ∧ listFreeL rest = true := by
      simpa [listFreeL, Bool.and_eq_true] using hf
    show advLoop rest (roundUpT a (alignN t) + advN t) = szLoop rest (roundUpT a (alignN t) + sizeN t)
    rw [advN_eq_sizeN t hf'.1, advLoop_eq_szLoop rest hf'.2]

end

/-! ## Claim theorems -/

/-- **C9**: the wire bytes `'t', 0` parse to an arity-0 tuple, on which the
layout oracle and the encoder panic rather than return: `Tag::alignment`
unwraps the `max` of an empty child sequence (`None`), `Tag::size` reaches
`round_up(0, 0)` whose power-of-two assertion fails, and `send_value`'s
`Tuple` arm, after emitting zero children, rounds the cursor up to the
accumulated `max_alignment` of 0, failing the same assertion — for every
memory and cursor. -/
theorem C9_empty_tuple :
    tagNext [116, 0] = .ok (Option.some (RTag.tuple [], []))
    ∧ (RTag.tuple []).alignment = .error (.fatal "called Option::unwrap on a None value")
    ∧ (RTag.tuple []).size = .error (.fatal "assertion failed: power_of_two.is_power_of_two()")
    ∧ ∀ (m : Mem) (c : Nat), send_value m (RTag.tuple []) c
        = .error (.fatal "assertion failed: power_of_two.is_power_of_two()") := by
  refine ⟨?_, rfl, rfl, ?_⟩
  · simp [tagNext, parseOne, parseMany, Bind.bind, Except.bind]
  · intro m c
    simp [send_value, send_body, send_tuple, round_up, isPowerOfTwo, Bind.bind, Except.bind]

/-- **C2** (counterexample): the claim that both codec directions advance the
cursor by `size(T)` for every valid tag fails at `T = List(Int32)`: on this
32-bit target the `List` cursor cell is a single 4-byte pointer to the
heap-allocated `{elements, length}` header, so from a fresh aligned cursor
the decoder and the encoder both advance by 4, while `Tag::size` says 8. -/
theorem C2_counterexample :
    (RTag.list .int32).size = .ok 8
    ∧ (RTag.list .int32).alignment = .ok 4
    ∧ (recv_value (.list .int32) ⟨[0, 0, 0, 0], fun _ => 0, 0, 64, []⟩).map (fun s => s.cursor)
        = .ok 4
    ∧ (send_value (fun _ => 0) (.list .int32) 0).map (fun r => r.1) = .ok 4 := by
  refine ⟨rfl, rfl, ?_, ?_⟩
  · simp [recv_value, recv_elements, recvEltsLoop, stReadU32, readExact, allocOne,
      RTag.alignment, RTag.size, round_up, roundUpT, isPowerOfTwo, w32, beVal, scalarWidth,
      Except.map, Bind.bind, Except.bind, show (4 &&& 3 : Nat) = 0 from rfl,
      show (8 &&& 7 : Nat) = 0 from rfl]
  · simp [send_value, send_body, send_elements, sendEltsLoop, scalarWidth, RTag.as_u8,
      loadLE, loadBytes, byteAt, leVal, writeU32, beBytes, roundUpT, Except.map,
      Bind.bind, Except.bind]

/-- **C2** (amended): from a cursor pre-aligned to `alignment(T)`, a
successful `recv_value` of any valid tag advances the cursor by exactly
`advN T`, and a successful `send_value` advances by the same amount (on
tags whose nested tuples sit at unpadded offsets, since the encoder does
not re-align at tuple entry); `advN` agrees with the `Tag::size` oracle on
every tag not containing a `List`, but a `List` cell advances by the 4-byte
pointer it stores, not by `size(List) = 8`. -/
theorem C2_layout_agreement (t : RTag) (hv : validT t = true) :
    (∀ s s' : RecvSt, alignN t ∣ s.cursor → s.cursor + sizeN t + 8 ≤ 4294967296 →
      recv_value t s = .ok s' → s'.cursor = s.cursor + advN t)
    ∧ (∀ (m : Mem) (c : Nat) (r : Nat × List Nat), alignOkT t = true → alignN t ∣ c →
      c + sizeN t + 8 ≤ 4294967296 →
      send_value m t c = .ok r → r.1 = c + advN t)
    ∧ (listFreeT t = true → sizeN t + 8 ≤ 4294967296 → RTag.size t = .ok (advN t))
    ∧ ∀ u : RTag, advN (.list u) = 4 := by
  have hpos := alignN_pos hv
  refine ⟨?_, ?_, ?_, fun _ => rfl⟩
  · intro s s' hdvd hb hrec
    have hrnd : roundUpT s.cursor (alignN t) = s.cursor := roundUpT_eq_self hpos hdvd
    have h := recv_value_adv t s s' hv (by rw [hrnd]; omega) hrec
    rw [h, hrnd]
  · intro m c r hok hdvd hb hsend
    have hrnd : roundUpT c (alignN t) = c := roundUpT_eq_self hpos hdvd
    have h := send_value_adv t m c r hv hok (fun _ => hdvd) (by rw [hrnd]; omega) hsend
    rw [h, hrnd]
  · intro hfree hb
    rw [advN_eq_sizeN t hfree]
    exact size_eq t hv hb

/-- Witness for C2: a decode of `List(Int32)` from an aligned fresh cursor
lands exactly `advN` past it. -/
theorem C2_witness :
    (recv_value (.list .int32) ⟨[0, 0, 0, 0], fun _ => 0, 0, 64, []⟩).map (fun s => s.cursor)
      = .ok (0 + advN (.list .int32)) := by
  cases hrm : recv_value (.list .int32) ⟨[0, 0, 0, 0], fun _ => 0, 0, 64, []⟩ with
  | error e =>
    simp [recv_value, recv_elements, recvEltsLoop, stReadU32, readExact, allocOne,
      RTag.alignment, RTag.size, round_up, roundUpT, isPowerOfTwo, w32, beVal, scalarWidth,
      Bind.bind, Except.bind, show (4 &&& 3 : Nat) = 0 from rfl,
      show (8 &&& 7 : Nat) = 0 from rfl] at hrm
  | ok s' =>
    have h := ((C2_layout_agreement (.list .int32) (by decide)).1)
      ⟨[0, 0, 0, 0], fun _ => 0, 0, 64, []⟩ s' (by decide) (by decide) hrm
    simp [Except.map, h]

/-- **C8**: every structural failure is a panic (`fatal`), never the
recoverable error result: a tag string with no `:` given to `send_args`
(the `split_tag` `expect`), an unknown tag byte in the iterator
(`unreachable!`), a truncated tag (the missing arity byte's index panic,
and `sub`'s `expect("truncated tag")` — both on an empty rest and inside a
composite), and a `Keyword` or `Object` tag reaching `recv_value`
(`unreachable!`). -/
theorem C8_structural_failures :
    (∀ (m : Mem) (service : Nat) (bs : List Nat) (argp : Nat), (∀ b ∈ bs, b ≠ 58) →
      send_args m service bs argp = .error (.fatal "tag without a return separator"))
    ∧ (∀ (b : Nat) (rest : List Nat),
      b ∉ ([110, 98, 105, 73, 102, 115, 66, 65, 116, 108, 97, 114, 107, 79] : List Nat) →
      parseOne (b :: rest) = .error (.fatal "internal error: entered unreachable code"))
    ∧ parseOne [] = .error (.fatal "truncated tag")
    ∧ parseOne [116] = .error (.fatal "index out of bounds: the len is 0 but the index is 0")
    ∧ parseOne [116, 2, 105] = .error (.fatal "truncated tag")
    ∧ (∀ (e : RTag) (s : RecvSt),
      recv_value (.keyword e) s = .error (.fatal "internal error: entered unreachable code"))
    ∧ (∀ s : RecvSt,
      recv_value .object s = .error (.fatal "internal error: entered unreachable code")) := by
  refine ⟨?_, ?_, by simp [parseOne], by simp [parseOne], ?_, ?_, ?_⟩
  · intro m service bs argp hno
    have hsplit : split_tag bs = .error (.fatal "tag without a return separator") := by
      unfold split_tag
      have hidx : bs.findIdx? (· == 58) = Option.none := by
        rw [List.findIdx?_eq_none_iff]
        intro x hx
        simpa using hno x hx
      rw [hidx]
    unfold send_args
    rw [hsplit]
    rfl
  · intro b rest hmem
    simp only [List.mem_cons, not_or] at hmem
    obtain ⟨h1, h2, h3, h4, h5, h6, h7, h8, h9, h10, h11, h12, h13, h14⟩ := hmem
    unfold parseOne
    rw [if_neg h1, if_neg h2, if_neg h3, if_neg h4, if_neg h5, if_neg h6, if_neg h7,
      if_neg h8, if_neg h9, if_neg h10, if_neg h11, if_neg h12, if_neg h13, if_neg h14.1]
  · simp [parseOne, parseMany, Bind.bind, Except.bind]
  · intro e s
    simp [recv_value]
  · intro s
    simp [recv_value]

/-- Witness for C8: a concrete tag string without `:` aborts `send_args`,
and a concrete unknown tag byte aborts the iterator. -/
theorem C8_witness :
    send_args (fun _ => 0) 1 [105, 110] 0 = .error (.fatal "tag without a return separator")
    ∧ parseOne [120, 105] = .error (.fatal "internal error: entered unreachable code") :=
  ⟨C8_structural_failures.1 _ 1 [105, 110] 0 (by decide),
   C8_structural_failures.2.1 120 [105] (by decide)⟩

/-- **C10**: `send_value` passes a `String` payload (and a `Keyword` name)
through `str::from_utf8(..).unwrap()` before writing: if the bytes the
slice header points at are not valid UTF-8, it panics instead of returning
an error, so valid UTF-8 is an unchecked precondition of sending. -/
theorem C10_utf8_unchecked (m : Mem) (c : Nat)
    (h : validUtf8 (loadBytes m ((sendSliceHeader m c).2.1) ((sendSliceHeader m c).2.2)) = false) :
    send_value m .string c = .error (.fatal "called Result::unwrap on an Err value")
    ∧ ∀ e : RTag, send_value m (.keyword e) c
        = .error (.fatal "called Result::unwrap on an Err value") := by
  constructor
  · simp [send_value, send_body, fromUtf8Unwrap, h, Bind.bind, Except.bind]
  · intro e
    simp [send_value, send_body, fromUtf8Unwrap, h, Bind.bind, Except.bind]

/-- Witness for C10: a slice whose single payload byte is `0xFF` (never
valid UTF-8) panics the encoder. -/
theorem C10_witness :
    send_value (fun a => if a = 0 then 8 else if a = 4 then 1 else if a = 8 then 255 else 0)
      .string 0 = .error (.fatal "called Result::unwrap on an Err value") :=
  (C10_utf8_unchecked _ 0 (by decide)).1

theorem recvDims_spec : ∀ nd total (s : RecvSt) (r : Nat × RecvSt),
    recvDims nd total s = .ok r →
    r.1 = dimsProd nd s.input total ∧ r.2.input = s.input.drop (4 * nd)
    ∧ r.2.hp = s.hp ∧ r.2.calls = s.calls
  | 0, total, s, r, h => by
    unfold recvDims at h
    simp only [Except.ok.injEq] at h
    rw [← h]
    exact ⟨rfl, by simp [dimsProd], rfl, rfl⟩
  | nd + 1, total, s, r, h => by
    unfold recvDims at h
    obtain ⟨r1, h1, h2⟩ := bind_eq_ok h
    have hr1 := stReadU32_ok h1
    have hrec := recvDims_spec nd (w32 (total * r1.1)) _ r h2
    rw [hr1.2.1, hr1.2.2] at hrec
    refine ⟨?_, ?_, hrec.2.2.1, hrec.2.2.2⟩
    · rw [hrec.1]
      rfl
    · rw [hrec.2.1]
      show (s.input.drop 4).drop (4 * nd) = s.input.drop (4 * (nd + 1))
      rw [List.drop_drop]
      congr 1
      omega

theorem recvSlice_calls {s s' : RecvSt} (h : recvSlice s = .ok s') :
    ∃ n, s'.calls = s.calls ++ [n] := by
  unfold recvSlice at h
  obtain ⟨r, h1, h2⟩ := bind_eq_ok h
  obtain ⟨br, h3, h4⟩ := bind_eq_ok h2
  have hr := stReadU32_ok h1
  simp only [Except.ok.injEq] at h4
  refine ⟨r.1, ?_⟩
  rw [← h4]
  show (allocOne r.2 r.1).2.calls = s.calls ++ [r.1]
  show r.2.calls ++ [r.1] = s.calls ++ [r.1]
  rw [hr.2.2]


/-- The allocator-call trace of the element loop only grows, given that of
one level of the array decode. -/
theorem recvArrElts_calls_of (f : Nat) (elt : RTag) (nd : Nat)
    (hA : ∀ s s' : RecvSt, recvArrF f elt nd s = .ok s' → ∃ ext, s'.calls = s.calls ++ ext) :
    ∀ (n : Nat) (s s' : RecvSt), recvArrElts f elt nd n s = .ok s' →
      ∃ ext, s'.calls = s.calls ++ ext := by
  intro n
  induction n with
  | zero =>
    intro s s' h
    unfold recvArrElts at h
    simp only [Except.ok.injEq] at h
    exact ⟨[], by rw [← h]; simp⟩
  | succ n ih =>
    intro s s' h
    unfold recvArrElts at h
    obtain ⟨s1, h1, h2⟩ := bind_eq_ok h
    obtain ⟨e1, he1⟩ := hA s s1 h1
    obtain ⟨e2, he2⟩ := ih s1 s' h2
    exact ⟨e1 ++ e2, by rw [he2, he1]; simp⟩

/-- On success, the self-nested array decode only appends to the
allocator-call trace. -/
theorem recvArrF_calls : ∀ (f : Nat) (elt : RTag) (nd : Nat) (s s' : RecvSt),
    recvArrF f elt nd s = .ok s' → ∃ ext, s'.calls = s.calls ++ ext := by
  intro f
  induction f with
  | zero =>
    intro elt nd s s' h
    unfold recvArrF at h
    cases h
  | succ f ihf =>
    intro elt nd s s' h
    unfold recvArrF at h
    obtain ⟨r, h1, h2⟩ := bind_eq_ok h
    obtain ⟨esz, h3, h4⟩ := bind_eq_ok h2
    obtain ⟨s3, h5, h6⟩ := bind_eq_ok h4
    simp only [Except.ok.injEq] at h6
    have hdims := recvDims_spec nd 1 _ r h1
    obtain ⟨ext, hext⟩ := recvArrElts_calls_of f elt nd (fun a b => ihf elt nd a b) r.1 _ s3 h5
    refine ⟨[w32 (esz * r.1)] ++ ext, ?_⟩
    rw [← h6]
    show s3.calls = s.calls ++ ([w32 (esz * r.1)] ++ ext)
    rw [hext]
    show (r.2.calls ++ [w32 (esz * r.1)]) ++ ext = _
    rw [hdims.2.2.2]
    show ({ s with cursor := roundUpT s.cursor 4 + 4 } : RecvSt).calls ++ [w32 (esz * r.1)] ++ ext = _
    simp

mutual

/-- `recv_value` only ever appends to the allocator log, and appends
nothing at all on tags that never allocate. -/
theorem recv_value_calls : ∀ (t : RTag) (s s' : RecvSt), recv_value t s = .ok s' →
    ∃ ext, s'.calls = s.calls ++ ext ∧ (noAllocT t = true → ext = [])
  | .none, s, s', h => by
    unfold recv_value at h
    simp only [Except.ok.injEq] at h
    exact ⟨[], by rw [← h]; simp, fun _ => rfl⟩
  | .bool, s, s', h => by
    unfold recv_value at h
    obtain ⟨r, h1, h2⟩ := bind_eq_ok h
    have hr := stReadU8_ok h1
    simp only [Except.ok.injEq] at h2
    refine ⟨[], ?_, fun _ => rfl⟩
    rw [← h2]
    show r.2.calls = s.calls ++ []
    rw [hr.2.2]
    simp
  | .int32, s, s', h => by
    unfold recv_value at h
    obtain ⟨r, h1, h2⟩ := bind_eq_ok h
    have hr := stReadU32_ok h1
    simp only [Except.ok.injEq] at h2
    refine ⟨[], ?_, fun _ => rfl⟩
    rw [← h2]
    show r.2.calls = s.calls ++ []
    rw [hr.2.2]
    simp
  | .int64, s, s', h => by
    unfold recv_value at h
    obtain ⟨r, h1, h2⟩ := bind_eq_ok h
    have hr := stReadU64_ok h1
    simp only [Except.ok.injEq] at h2
    refine ⟨[], ?_, fun _ => rfl⟩
    rw [← h2]
    show r.2.calls = s.calls ++ []
    rw [hr.2.2]
    simp
  | .float64, s, s', h => by
    unfold recv_value at h
    obtain ⟨r, h1, h2⟩ := bind_eq_ok h
    have hr := stReadU64_ok h1
    simp only [Except.ok.injEq] at h2
    refine ⟨[], ?_, fun _ => rfl⟩
    rw [← h2]
    show r.2.calls = s.calls ++ []
    rw [hr.2.2]
    simp
  | .string, s, s', h => by
    unfold recv_value at h
    obtain ⟨n, hn⟩ := recvSlice_calls h
    exact ⟨[n], hn, by intro hno; simp [noAllocT] at hno⟩
  | .bytes, s, s', h => by
    unfold recv_value at h
    obtain ⟨n, hn⟩ := recvSlice_calls h
    exact ⟨[n], hn, by intro hno; simp [noAllocT] at hno⟩
  | .byteArray, s, s', h => by
    unfold recv_value at h
    obtain ⟨n, hn⟩ := recvSlice_calls h
    exact ⟨[n], hn, by intro hno; simp [noAllocT] at hno⟩
  | .tuple cs, s, s', h => by
    unfold recv_value at h
    obtain ⟨al, h1, h2⟩ := bind_eq_ok h
    obtain ⟨p, h3, h4⟩ := bind_eq_ok h2
    obtain ⟨s1, h5, h6⟩ := bind_eq_ok h4
    obtain ⟨p2, h7, h8⟩ := bind_eq_ok h6
    simp only [Except.ok.injEq] at h8
    obtain ⟨ext, hext, hno⟩ := recv_tuple_calls cs _ s1 h5
    refine ⟨ext, ?_, hno⟩
    rw [← h8]
    exact hext
  | .list elt, s, s', h => by
    unfold recv_value at h
    obtain ⟨r, h1, h2⟩ := bind_eq_ok h
    obtain ⟨al, h3, h4⟩ := bind_eq_ok h2
    obtain ⟨off, h5, h6⟩ := bind_eq_ok h4
    obtain ⟨esz, h7, h8⟩ := bind_eq_ok h6
    obtain ⟨s3, h9, h10⟩ := bind_eq_ok h8
    simp only [Except.ok.injEq] at h10
    have hr := stReadU32_ok h1
    obtain ⟨ext, hext, -⟩ := recv_elements_calls elt r.1 _ s3 h9
    refine ⟨[w32 (off + w32 (esz * r.1))] ++ ext, ?_, by intro hno; simp [noAllocT] at hno⟩
    rw [← h10]
    show s3.calls = s.calls ++ ([w32 (off + w32 (esz * r.1))] ++ ext)
    rw [hext]
    show (allocOne r.2 (w32 (off + w32 (esz * r.1)))).2.calls ++ ext = _
    show (r.2.calls ++ [w32 (off + w32 (esz * r.1))]) ++ ext = _
    rw [hr.2.2]
    simp
  | .array elt nd, s, s', h => by
    unfold recv_value at h
    obtain ⟨ext, hext⟩ := recvArrF_calls (s.input.length + 1) elt nd s s' h
    exact ⟨ext, hext, by intro hno; simp [noAllocT] at hno⟩
  | .range elt, s, s', h => by
    unfold recv_value at h
    obtain ⟨al, h1, h2⟩ := bind_eq_ok h
    obtain ⟨p, h3, h4⟩ := bind_eq_ok h2
    obtain ⟨s1, h5, h6⟩ := bind_eq_ok h4
    obtain ⟨s2, h7, h8⟩ := bind_eq_ok h6
    obtain ⟨e1, he1, hn1⟩ := recv_value_calls elt _ s1 h5
    obtain ⟨e2, he2, hn2⟩ := recv_value_calls elt s1 s2 h7
    obtain ⟨e3, he3, hn3⟩ := recv_value_calls elt s2 s' h8
    refine ⟨e1 ++ e2 ++ e3, ?_, ?_⟩
    · rw [he3, he2, he1]
      simp
    · intro hno
      have hne : noAllocT elt = true := by simpa [noAllocT] using hno
      rw [hn1 hne, hn2 hne, hn3 hne]
      rfl
  | .keyword e, s, s', h => by
    unfold recv_value at h
    cases h
  | .object, s, s', h => by
    unfold recv_value at h
    cases h

theorem recv_tuple_calls : ∀ (ts : List RTag) (s s' : RecvSt), recv_tuple ts s = .ok s' →
    ∃ ext, s'.calls = s.calls ++ ext ∧ (noAllocL ts = true → ext = [])
  | [], s, s', h => by
    unfold recv_tuple at h
    simp only [Except.ok.injEq] at h
    exact ⟨[], by rw [← h]; simp, fun _ => rfl⟩
  | t :: rest, s, s', h => by
    unfold recv_tuple at h
    obtain ⟨s1, h1, h2⟩ := bind_eq_ok h
    obtain ⟨e1, he1, hn1⟩ := recv_value_calls t s s1 h1
    obtain ⟨e2, he2, hn2⟩ := recv_tuple_calls rest s1 s' h2
    refine ⟨e1 ++ e2, ?_, ?_⟩
    · rw [he2, he1]
      simp
    · intro hno
      have hx : noAllocT t = true ∧ noAllocL rest = true := by
        simpa [noAllocL, Bool.and_eq_true] using hno
      rw [hn1 hx.1, hn2 hx.2]
      rfl

theorem recv_elements_calls : ∀ (t : RTag) (n : Nat) (s s' : RecvSt),
    recv_elements t n s = .ok s' →
    ∃ ext, s'.calls = s.calls ++ ext ∧ (noAllocT t = true → ext = [])
  | t, n, s, s', h => by
    unfold recv_elements at h
    cases hsw : scalarWidth t with
    | some k =>
      rw [hsw] at h
      obtain ⟨br, h1, h2⟩ := bind_eq_ok h
      simp only [Except.ok.injEq] at h2
      exact ⟨[], by rw [← h2]; simp, fun _ => rfl⟩
    | none =>
      rw [hsw] at h
      exact recvEltsLoop_calls t n s s' h

theorem recvEltsLoop_calls : ∀ (t : RTag) (n : Nat) (s s' : RecvSt),
    recvEltsLoop t n s = .ok s' →
    ∃ ext, s'.calls = s.calls ++ ext ∧ (noAllocT t = true → ext = [])
  | t, 0, s, s', h => by
    unfold recvEltsLoop at h
    simp only [Except.ok.injEq] at h
    exact ⟨[], by rw [← h]; simp, fun _ => rfl⟩
  | t, n + 1, s, s', h => by
    unfold recvEltsLoop at h
    obtain ⟨s1, h1, h2⟩ := bind_eq_ok h
    obtain ⟨e1, he1, hn1⟩ := recv_value_calls t s s1 h1
    obtain ⟨e2, he2, hn2⟩ := recvEltsLoop_calls t n s1 s' h2
    refine ⟨e1 ++ e2, ?_, ?_⟩
    · rw [he2, he1]
      simp
    · intro hno
      rw [hn1 hno, hn2 hno]
      rfl

end

theorem tupleOffsets_len : ∀ (cs : List RTag) (run : Nat),
    (tupleOffsets cs run).length = cs.length
  | [], _ => rfl
  | t :: ts, run => by
    show (tupleOffsets ts _).length + 1 = ts.length + 1
    rw [tupleOffsets_len ts _]

theorem tupleOffsets_get : ∀ (cs : List RTag) (run i : Nat) (hi : i < cs.length)
    (hi2 : i < (tupleOffsets cs run).length),
    (tupleOffsets cs run).get ⟨i, hi2⟩
      = roundUpT (szLoop (cs.take i) run) (alignN (cs.get ⟨i, hi⟩))
  | t :: ts, run, 0, _, _ => rfl
  | t :: ts, run, i + 1, hi, hi2 => by
    have h := tupleOffsets_get ts (roundUpT run (alignN t) + sizeN t) i
      (by simpa using Nat.lt_of_succ_lt_succ hi)
      (by
        have hl := tupleOffsets_len ts (roundUpT run (alignN t) + sizeN t)
        simp only [tupleOffsets, List.length_cons] at hi2
        omega)
    exact h

/-- **C6**: `Tag::size` on a nonempty valid tuple whose layout fits the
32-bit size arithmetic equals the spec's packing rule — accumulate
`running = round_up(running, alignment(child)) + size(child)` over the
children in order (`szLoop`), then round the result up to the tuple's
alignment, which is the maximum child alignment — and the offset of each
field is the running size before it rounded up to that field's
alignment. -/
theorem C6_tuple_packing (cs : List RTag) (hv : validL cs = true) (hne : cs ≠ [])
    (hb : szLoop cs 0 + 16 ≤ 4294967296) :
    (RTag.tuple cs).size = .ok (roundUpT (szLoop cs 0) (alMax cs))
    ∧ (RTag.tuple cs).alignment = .ok (alMax cs)
    ∧ (tupleOffsets cs 0).length = cs.length
    ∧ ∀ (i : Nat) (hi : i < cs.length) (hi2 : i < (tupleOffsets cs 0).length),
      (tupleOffsets cs 0).get ⟨i, hi2⟩
        = roundUpT (szLoop (cs.take i) 0) (alignN (cs.get ⟨i, hi⟩)) := by
  have hvt : validT (.tuple cs) = true := by
    cases cs with
    | nil => exact absurd rfl hne
    | cons c cs' => simpa [validT] using hv
  have hfit : sizeN (.tuple cs) + 8 ≤ 4294967296 := by
    have h1 : roundUpT (szLoop cs 0) (alMax cs) ≤ szLoop cs 0 + (alMax cs - 1) :=
      roundUpT_le _ (alMax_pos hv hne)
    have h2 := alMax_le8 hv hne
    show roundUpT (szLoop cs 0) (alMax cs) + 8 ≤ 4294967296
    omega
  refine ⟨?_, alignment_eq _ hvt, tupleOffsets_len cs 0, tupleOffsets_get cs 0⟩
  exact size_eq _ hvt hfit

/-- Witness for C6: the tuple `(Int32, Bool)` has size `round_up(4+1, 4) =
8` and field offsets `[0, 4]`. -/
theorem C6_witness :
    ((RTag.tuple [.int32, .bool]).size = .ok (roundUpT (szLoop [.int32, .bool] 0) (alMax [.int32, .bool]))
      ∧ (RTag.tuple [.int32, .bool]).size = .ok 8)
    ∧ ((tupleOffsets [.int32, .bool] 0).get ⟨1, by decide⟩
        = roundUpT (szLoop ([.int32, .bool].take 1) 0) (alignN ([.int32, .bool].get ⟨1, by decide⟩))
      ∧ (tupleOffsets [.int32, .bool] 0).get ⟨1, by decide⟩ = 4) := by
  have h := C6_tuple_packing [.int32, .bool] (by decide) (List.cons_ne_nil _ _) (by decide)
  exact ⟨⟨h.1, by rw [h.1]; rfl⟩, ⟨h.2.2.2 1 (by decide) (by decide), by decide⟩⟩

/-- **C7** (counterexample): the trailer is not the bare return-tag bytes:
`write_bytes` is the transport's length-prefixed primitive, so the return
tag is preceded by its u32 byte count.  For `tag = ":n"`, service 5, no
arguments, the wire is `u32(5) ‖ 0x00 ‖ u32(1) ‖ 'n'`, not
`u32(5) ‖ 0x00 ‖ 'n'`. -/
theorem C7_counterexample :
    send_args (fun _ => 0) 5 [58, 110] 0 = .ok [0, 0, 0, 5, 0, 0, 0, 0, 1, 110]
    ∧ [0, 0, 0, 5, 0, 0, 0, 0, 1, 110] ≠ writeU32 5 ++ [0] ++ [110] := by
  constructor
  · simp [send_args, split_tag, sendArgsLoop, writeU32, writeBytesP, beBytes,
      Bind.bind, Except.bind, List.findIdx?]
  · decide

/-- **C7** (amended): a successful `send_args` writes, in order, the
service id as a big-endian u32; the concatenated outputs of the argument
loop — which, for each tag the argument-tag iterator yields, sends that
argument's tagged value body via `send_value` from the pointer
`arg_ptrs[index]`; a single zero sentinel byte; and the return-tag bytes
preceded by their u32 byte count (the length-prefixed framing of the
transport's `write_bytes`, not a verbatim copy). -/
theorem C7_send_args_format (m : Mem) (service : Nat)
    (tagBytes argTags retTags : List Nat) (argp : Nat) (argOut out : List Nat)
    (hsplit : split_tag tagBytes = .ok (argTags, retTags))
    (hloop : sendArgsLoop m argTags argp 0 = .ok argOut)
    (h : send_args m service tagBytes argp = .ok out) :
    (out = writeU32 service ++ argOut ++ [0] ++ (beBytes 4 retTags.length ++ retTags))
    ∧ (∀ (b : Nat) (more : List Nat) (idx : Nat) (o : List Nat),
      sendArgsLoop m (b :: more) argp idx = .ok o →
      ∃ pr sr rest, parseOne (b :: more) = .ok pr
        ∧ send_value m pr.1 (loadLE m (argp + 4 * idx) 4) = .ok sr
        ∧ sendArgsLoop m pr.2.val argp (idx + 1) = .ok rest
        ∧ o = sr.2 ++ rest) := by
  constructor
  · unfold send_args at h
    rw [hsplit, bind_ok_law] at h
    have h2 : (sendArgsLoop m argTags argp 0 >>= fun o =>
        Except.ok (writeU32 service ++ o ++ [0] ++ writeBytesP retTags)) = .ok out := h
    rw [hloop, bind_ok_law] at h2
    simp only [Except.ok.injEq] at h2
    rw [← h2]
    rfl
  · intro b more idx o hrun
    unfold sendArgsLoop at hrun
    obtain ⟨pr, h1, h2⟩ := bind_eq_ok hrun
    obtain ⟨sr, h3, h4⟩ := bind_eq_ok h2
    obtain ⟨rest, h5, h6⟩ := bind_eq_ok h4
    simp only [Except.ok.injEq] at h6
    exact ⟨pr, sr, rest, h1, h3, h5, h6.symm⟩

/-- **C3** (code bug): `recv_value`'s `Array` arm never decodes elements
of the element type.  rpc_proto.rs line 173 passes `tag` — the `Array` tag
itself — to `recv_elements` (`elt_tag` is consulted only for the allocation
size), and `Array` is not one of `recv_elements`' bulk scalar cases, so
each element is decoded as another `Array(T, ND)` value, re-reading
dimension words from the wire.  Concretely, for `Array(Int32, 1)` with
dimension word 1 followed by the 4 element bytes `[0,0,0,7]`, the claimed
behavior is one bulk `read_exact` of `1·4` bytes consuming the input
exactly; the program instead consumes `[0,0,0,7]` as the inner array's
dimension word (7) and then fails with `eof` trying to decode 7
further "elements".  With element data `[0,0,0,0]` the decode even
succeeds — the inner "array" gets dimension 0 — performing a second,
0-byte allocation and never storing any `Int32`. -/
theorem C3_array_fill :
    recv_value (.array .int32 1) ⟨[0, 0, 0, 1, 0, 0, 0, 7], fun _ => 0, 0, 64, []⟩
      = .error .eof
    ∧ (recv_value (.array .int32 1) ⟨[0, 0, 0, 1, 0, 0, 0, 0], fun _ => 0, 0, 64, []⟩).map
        (fun s2 => (s2.input, s2.calls, s2.cursor))
      = .ok ([], [4, 0], 8) := by
  constructor
  · simp [recv_value, recvArrF, recvArrElts, recvDims, stReadU32, readExact,
      allocOne, RTag.size, roundUpT, w32, beVal, Except.map, Bind.bind, Except.bind]
  · simp [recv_value, recvArrF, recvArrElts, recvDims, stReadU32, readExact,
      allocOne, RTag.size, roundUpT, w32, beVal, Except.map, Bind.bind, Except.bind]

/-- **C4** (code bug): the `Array` arm's first allocator call does carry
the size argument `size(T) · Π dᵢ` (32-bit wrapping; `elt_tag.size()`), but
it is not the only invocation even for a scalar element type that never
allocates: because rpc_proto.rs line 173 hands `recv_elements` the `Array`
tag, every element runs the `Array` arm again, each performing its own
allocation.  `Array(Int32, 1)` with dimension word 2 followed by two zero
words decodes successfully with three allocator calls `[8, 0, 0]` — the
first of the claimed size `4·2 = 8`, then one per "element". -/
theorem C4_array_allocation :
    (recv_value (.array .int32 1)
      ⟨[0, 0, 0, 2, 0, 0, 0, 0, 0, 0, 0, 0], fun _ => 0, 0, 64, []⟩).map (fun s2 => s2.calls)
      = .ok [8, 0, 0]
    ∧ w32 (sizeN .int32 * dimsProd 1 [0, 0, 0, 2, 0, 0, 0, 0, 0, 0, 0, 0] 1) = 8
    ∧ ([8, 0, 0] : List Nat).length ≠ 1 := by
  refine ⟨?_, by decide, by decide⟩
  simp [recv_value, recvArrF, recvArrElts, recvDims, stReadU32, readExact,
    allocOne, RTag.size, roundUpT, w32, beVal, Except.map, Bind.bind, Except.bind]

/-- **C5** (amended): decoding `List(T)` with received length L performs
one allocation of `round_up(8, alignment(T)) + L · size(T)` bytes (32-bit
arithmetic) covering both the `{elements, length}` header and the element
storage, which begins at offset `round_up(8, alignment(T))` inside that
allocation (the `elements` field is set to allocation base + that offset,
and `recv_elements` fills the elements from there); it is the only
allocation when `T` itself never allocates — element deserialization adds
further calls for indirect element types. -/
theorem C5_list_allocation (elt : RTag) (s s' : RecvSt)
    (hv : validT (.list elt) = true)
    (hfit : sizeN elt + 8 ≤ 4294967296)
    (h : recv_value (.list elt) s = .ok s') :
    ∃ ext s3,
      s'.calls = s.calls
        ++ [w32 (roundUpT 8 (alignN elt) + w32 (sizeN elt * beVal (s.input.take 4)))] ++ ext
      ∧ (noAllocT elt = true → ext = [])
      ∧ recv_elements elt (beVal (s.input.take 4))
          ⟨s.input.drop 4,
            storeLE (storeLE (storeLE s.mem (roundUpT s.cursor 4) 4 (roundUpT s.hp 8))
              (roundUpT s.hp 8 + 4) 4 (beVal (s.input.take 4)))
              (roundUpT s.hp 8) 4 (roundUpT s.hp 8 + roundUpT 8 (alignN elt)),
            roundUpT s.hp 8 + roundUpT 8 (alignN elt),
            roundUpT s.hp 8 + w32 (roundUpT 8 (alignN elt) + w32 (sizeN elt * beVal (s.input.take 4))),
            s.calls ++ [w32 (roundUpT 8 (alignN elt) + w32 (sizeN elt * beVal (s.input.take 4)))]⟩
          = .ok s3
      ∧ s' = { s3 with cursor := roundUpT s.cursor 4 + 4 } := by
  have hve : validT elt = true := by simpa [validT] using hv
  unfold recv_value at h
  obtain ⟨r, h1, h2⟩ := bind_eq_ok h
  rw [alignment_eq elt hve, bind_ok_law,
    round_up_ok (alignN_pow2 hve) (by have h8 := alignN_le8 hve; omega), bind_ok_law,
    size_eq elt hve hfit, bind_ok_law] at h2
  obtain ⟨s3, h3, h4⟩ := bind_eq_ok h2
  simp only [Except.ok.injEq] at h4
  have hr := stReadU32_ok h1
  obtain ⟨ext, hext, hno⟩ := recv_elements_calls elt r.1 _ s3 h3
  rw [hr.2.1, hr.2.2] at h3
  refine ⟨ext, s3, ?_, hno, h3, by rw [← h4]⟩
  rw [← h4]
  show s3.calls = _
  rw [hext]
  show ((allocOne r.2 (w32 (roundUpT 8 (alignN elt) + w32 (sizeN elt * r.1)))).2).calls ++ ext = _
  show (r.2.calls ++ [w32 (roundUpT 8 (alignN elt) + w32 (sizeN elt * r.1))]) ++ ext = _
  rw [hr.2.2, hr.2.1]

/-- **C5** (counterexample): decoding `List(String)` of length 1 invokes
the allocator twice — `round_up(8,4) + 1·8 = 16` bytes for header plus
storage, then 2 bytes for the string payload — so "exactly once" fails for
allocating element types. -/
theorem C5_counterexample :
    (recv_value (.list .string)
      ⟨[0, 0, 0, 1, 0, 0, 0, 2, 104, 105], fun _ => 0, 0, 64, []⟩).map (fun s => s.calls)
      = .ok [16, 2]
    ∧ ([16, 2] : List Nat).length ≠ 1 := by
  constructor
  · simp [recv_value, recv_elements, recvEltsLoop, recvSlice, stReadU32, readExact,
      allocOne, RTag.alignment, RTag.size, round_up, roundUpT, isPowerOfTwo, w32, beVal,
      scalarWidth, Except.map, Bind.bind, Except.bind, show (4 &&& 3 : Nat) = 0 from rfl,
      show (8 &&& 7 : Nat) = 0 from rfl]
  · decide

/-- Witness for C5: a `List(Int32)` of length 3 allocates exactly once,
`round_up(8,4) + 3·4 = 20` bytes. -/
theorem C5_witness :
    (recv_value (.list .int32)
      ⟨[0, 0, 0, 3, 1, 0, 0, 0, 2, 0, 0, 0, 3, 0, 0, 0], fun _ => 0, 0, 64, []⟩).map (fun s => s.calls)
      = .ok ([] ++ [w32 (roundUpT 8 (alignN .int32)
          + w32 (sizeN .int32 * beVal ([0, 0, 0, 3, 1, 0, 0, 0, 2, 0, 0, 0, 3, 0, 0, 0].take 4)))] ++ []) := by
  cases hrm : recv_value (.list .int32)
      ⟨[0, 0, 0, 3, 1, 0, 0, 0, 2, 0, 0, 0, 3, 0, 0, 0], fun _ => 0, 0, 64, []⟩ with
  | error e =>
    simp [recv_value, recv_elements, recvEltsLoop, stReadU32, readExact,
      allocOne, RTag.alignment, RTag.size, round_up, roundUpT, isPowerOfTwo, w32, beVal,
      scalarWidth, Bind.bind, Except.bind, show (4 &&& 3 : Nat) = 0 from rfl] at hrm
  | ok s' =>
    obtain ⟨ext, s3, hext, hno, -, -⟩ :=
      C5_list_allocation .int32 _ s' (by decide) (by decide) hrm
    rw [hno (by decide)] at hext
    simp [Except.map, hext]

/-- Witness for C7: the `"i:n"` RPC with one Int32 argument assembles
exactly as service word, tagged argument body, sentinel, length-prefixed
return tag. -/
theorem C7_witness :
    [0, 0, 0, 5, 105, 0, 0, 0, 7, 0, 0, 0, 0, 1, 110]
      = writeU32 5 ++ [105, 0, 0, 0, 7] ++ [0] ++ (beBytes 4 ([110] : List Nat).length ++ [110]) := by
  have hsplit : split_tag [105, 58, 110] = .ok ([105], [110]) := by
    simp [split_tag, List.findIdx?]
  have hloop : sendArgsLoop (storeLE (storeLE (fun _ => 0) 100 4 7) 0 4 100) [105] 0 0 = .ok [105, 0, 0, 0, 7] := by
    simp [sendArgsLoop, parseOne, send_value, send_body, RTag.as_u8, writeU32, beBytes,
      loadLE, loadBytes, byteAt, leVal, storeLE, storeBytes, store1, leBytes, roundUpT,
      Bind.bind, Except.bind]
  have hrun : send_args (storeLE (storeLE (fun _ => 0) 100 4 7) 0 4 100) 5 [105, 58, 110] 0
      = .ok [0, 0, 0, 5, 105, 0, 0, 0, 7, 0, 0, 0, 0, 1, 110] := by
    unfold send_args
    rw [hsplit, bind_ok_law, hloop, bind_ok_law]
    rfl
  exact (C7_send_args_format (storeLE (storeLE (fun _ => 0) 100 4 7) 0 4 100) 5 [105, 58, 110] [105] [110] 0
    [105, 0, 0, 0, 7] _ hsplit hloop hrun).1

/-! ## Byte-level round-trip lemmas (claim C1) -/

theorem store1_frame (m : Mem) (a v x : Nat) (h : x ≠ a) : store1 m a v x = m x := by
  unfold store1
  simp [h]

theorem storeBytes_frame : ∀ (l : List Nat) (m : Mem) (a x : Nat),
    (x < a ∨ a + l.length ≤ x) → storeBytes m a l x = m x
  | [], m, a, x, _ => rfl
  | b :: bs, m, a, x, h => by
    have h' : x < a ∨ a + (bs.length + 1) ≤ x := by simpa using h
    show storeBytes (store1 m a b) (a + 1) bs x = m x
    rw [storeBytes_frame bs _ (a + 1) x (by omega)]
    exact store1_frame m a b x (by omega)

theorem loadBytes_congr : ∀ (n : Nat) (m1 m2 : Mem) (a : Nat),
    (∀ i, i < n → m2 (a + i) = m1 (a + i)) → loadBytes m2 a n = loadBytes m1 a n
  | 0, _, _, _, _ => rfl
  | n + 1, m1, m2, a, h => by
    show byteAt m2 a :: loadBytes m2 (a + 1) n = byteAt m1 a :: loadBytes m1 (a + 1) n
    have h0 : m2 a = m1 a := by
      have hx := h 0 (by omega)
      simpa using hx
    rw [loadBytes_congr n m1 m2 (a + 1) (fun i hi => by
      have h3 := h (i + 1) (by omega)
      rw [show a + (i + 1) = a + 1 + i by omega] at h3
      exact h3)]
    unfold byteAt
    rw [h0]

theorem loadBytes_length : ∀ (n : Nat) (m : Mem) (a : Nat), (loadBytes m a n).length = n
  | 0, _, _ => rfl
  | n + 1, m, a => by
    show (byteAt m a :: loadBytes m (a + 1) n).length = n + 1
    simp [loadBytes_length n m (a + 1)]

theorem loadBytes_lt : ∀ (n : Nat) (m : Mem) (a : Nat), ∀ b ∈ loadBytes m a n, b < 256
  | 0, m, a => by
    intro b hb
    simp [loadBytes] at hb
  | n + 1, m, a => by
    intro b hb
    rw [show loadBytes m a (n + 1) = byteAt m a :: loadBytes m (a + 1) n from rfl] at hb
    rcases List.mem_cons.mp hb with h | h
    · rw [h]
      unfold byteAt
      exact Nat.mod_lt _ (by omega)
    · exact loadBytes_lt n m (a + 1) b h

theorem loadBytes_storeBytes : ∀ (l : List Nat) (m : Mem) (a : Nat),
    (∀ b ∈ l, b < 256) → loadBytes (storeBytes m a l) a l.length = l
  | [], _, _, _ => rfl
  | b :: bs, m, a, hlt => by
    show byteAt (storeBytes (store1 m a b) (a + 1) bs) a
        :: loadBytes (storeBytes (store1 m a b) (a + 1) bs) (a + 1) bs.length = b :: bs
    rw [loadBytes_storeBytes bs (store1 m a b) (a + 1) (fun x hx => hlt x (by simp [hx]))]
    have hbb : b < 256 := hlt b (by simp)
    have hb1 : byteAt (storeBytes (store1 m a b) (a + 1) bs) a = b := by
      unfold byteAt
      rw [storeBytes_frame bs (store1 m a b) (a + 1) a (by omega)]
      show store1 m a b a % 256 = b
      unfold store1
      simp
      omega
    rw [hb1]

theorem leBytes_length : ∀ (n v : Nat), (leBytes n v).length = n
  | 0, _ => rfl
  | n + 1, v => by
    show (v % 256 :: leBytes n (v / 256)).length = n + 1
    simp [leBytes_length n (v / 256)]

theorem leBytes_lt : ∀ (n v : Nat), ∀ b ∈ leBytes n v, b < 256
  | 0, v => by
    intro b hb
    simp [leBytes] at hb
  | n + 1, v => by
    intro b hb
    rw [show leBytes (n + 1) v = v % 256 :: leBytes n (v / 256) from rfl] at hb
    rcases List.mem_cons.mp hb with h | h
    · rw [h]
      omega
    · exact leBytes_lt n (v / 256) b h

theorem leVal_leBytes : ∀ (n v : Nat), leVal (leBytes n v) = v % 256 ^ n
  | 0, v => by simp [leBytes, leVal, Nat.mod_one]
  | n + 1, v => by
    show v % 256 % 256 + 256 * leVal (leBytes n (v / 256)) = v % 256 ^ (n + 1)
    rw [leVal_leBytes n (v / 256)]
    have h3 : (256 : Nat) ^ (n + 1) = 256 * 256 ^ n := by
      rw [Nat.pow_succ, Nat.mul_comm]
    rw [h3, Nat.mod_mul]
    have h1 : v % 256 % 256 = v % 256 := by omega
    rw [h1]

theorem leVal_lt : ∀ l : List Nat, leVal l < 256 ^ l.length
  | [] => by simp [leVal]
  | b :: bs => by
    show b % 256 + 256 * leVal bs < 256 ^ (bs.length + 1)
    have h1 := leVal_lt bs
    have h3 : (256 : Nat) ^ (bs.length + 1) = 256 * 256 ^ bs.length := by
      rw [Nat.pow_succ, Nat.mul_comm]
    rw [h3]
    omega

theorem beBytes_length : ∀ (n v : Nat), (beBytes n v).length = n
  | 0, _ => rfl
  | n + 1, v => by
    show (v / 256 ^ n % 256 :: beBytes n v).length = n + 1
    simp [beBytes_length n v]

theorem beVal_lt : ∀ l : List Nat, beVal l < 256 ^ l.length
  | [] => by simp [beVal]
  | b :: bs => by
    show b % 256 * 256 ^ bs.length + beVal bs < 256 ^ (bs.length + 1)
    have h1 : beVal bs < 256 ^ bs.length := beVal_lt bs
    have h3 : (256 : Nat) ^ (bs.length + 1) = 256 * 256 ^ bs.length := by
      rw [Nat.pow_succ, Nat.mul_comm]
    calc b % 256 * 256 ^ bs.length + beVal bs
        < b % 256 * 256 ^ bs.length + 256 ^ bs.length := by omega
      _ = (b % 256 + 1) * 256 ^ bs.length := by ring
      _ ≤ 256 * 256 ^ bs.length := Nat.mul_le_mul_right _ (by omega)
      _ = 256 ^ (bs.length + 1) := h3.symm

theorem beVal_beBytes : ∀ (n v : Nat), beVal (beBytes n v) = v % 256 ^ n
  | 0, v => by simp [beBytes, beVal, Nat.mod_one]
  | n + 1, v => by
    show v / 256 ^ n % 256 % 256 * 256 ^ (beBytes n v).length + beVal (beBytes n v)
        = v % 256 ^ (n + 1)
    rw [beBytes_length, beVal_beBytes n v]
    have h1 : v / 256 ^ n % 256 % 256 = v / 256 ^ n % 256 := by omega
    rw [h1]
    have h3 : (256 : Nat) ^ (n + 1) = 256 ^ n * 256 := Nat.pow_succ 256 n
    rw [h3, Nat.mod_mul]
    ring

theorem loadLE_lt (m : Mem) (a n : Nat) : loadLE m a n < 256 ^ n := by
  unfold loadLE
  have h := leVal_lt (loadBytes m a n)
  rwa [loadBytes_length] at h

theorem loadLE_storeLE (m : Mem) (a n v : Nat) : loadLE (storeLE m a n v) a n = v % 256 ^ n := by
  unfold loadLE storeLE
  have h1 : loadBytes (storeBytes m a (leBytes n v)) a (leBytes n v).length = leBytes n v :=
    loadBytes_storeBytes _ m a (leBytes_lt n v)
  rw [leBytes_length] at h1
  rw [h1, leVal_leBytes]

theorem storeLE_frame (m : Mem) (a n v x : Nat) (h : x < a ∨ a + n ≤ x) :
    storeLE m a n v x = m x := by
  unfold storeLE
  exact storeBytes_frame _ m a x (by rw [leBytes_length]; exact h)

theorem take_app_len : ∀ (xs ys : List Nat), (xs ++ ys).take xs.length = xs
  | [], _ => rfl
  | x :: xs, ys => by
    show x :: (xs ++ ys).take xs.length = x :: xs
    rw [take_app_len xs ys]

theorem drop_app_len : ∀ (xs ys : List Nat), (xs ++ ys).drop xs.length = ys
  | [], _ => rfl
  | x :: xs, ys => drop_app_len xs ys

theorem readExact_append (xs ys : List Nat) : readExact (xs ++ ys) xs.length = .ok (xs, ys) := by
  unfold readExact
  rw [if_pos (by simp)]
  rw [take_app_len, drop_app_len]

theorem obind_eq_some {α β : Type} {x : Option α} {f : α → Option β} {b : β}
    (h : x >>= f = Option.some b) : ∃ a, x = Option.some a ∧ f a = Option.some b := by
  cases x with
  | none => simp [Bind.bind] at h
  | some a => exact ⟨a, rfl, by simpa [Bind.bind] using h⟩

theorem roundUpT_eight {t : RTag} (hv : validT t = true) : roundUpT 8 (alignN t) = 8 :=
  roundUpT_eq_self (alignN_pos hv) (alignN_dvd8 hv)

theorem scalarWidth_facts (t : RTag) (k : Nat) (h : scalarWidth t = Option.some k) :
    sizeN t = k ∧ advN t = k ∧ alignN t ∣ k := by
  cases t <;> simp [scalarWidth] at h <;> subst h <;> exact ⟨rfl, rfl, by decide⟩

theorem consumeSlice_mono {inp : List Nat} {hp : Nat} {cr : List Nat × Nat}
    (h : consumeSlice inp hp = Option.some cr) : hp ≤ cr.2 := by
  unfold consumeSlice at h
  split at h
  · split at h
    · simp only [Option.some.injEq] at h
      have h8 := le_roundUpT hp (show (0 : Nat) < 8 by omega)
      rw [← h]
      show hp ≤ roundUpT hp 8 + beVal (inp.take 4)
      omega
    · simp at h
  · simp at h

mutual

theorem consume_mono : ∀ (t : RTag) (inp : List Nat) (hp : Nat) (cr : List Nat × Nat),
    consume t inp hp = Option.some cr → hp ≤ cr.2
  | .none, inp, hp, cr, h => by
    unfold consume at h
    simp only [Option.some.injEq] at h
    rw [← h]
  | .bool, inp, hp, cr, h => by
    unfold consume at h
    split at h
    · simp only [Option.some.injEq] at h
      rw [← h]
    · simp at h
  | .int32, inp, hp, cr, h => by
    unfold consume at h
    split at h
    · simp only [Option.some.injEq] at h
      rw [← h]
    · simp at h
  | .int64, inp, hp, cr, h => by
    unfold consume at h
    split at h
    · simp only [Option.some.injEq] at h
      rw [← h]
    · simp at h
  | .float64, inp, hp, cr, h => by
    unfold consume at h
    split at h
    · simp only [Option.some.injEq] at h
      rw [← h]
    · simp at h
  | .string, inp, hp, cr, h => by
    unfold consume at h
    exact consumeSlice_mono h
  | .bytes, inp, hp, cr, h => by
    unfold consume at h
    exact consumeSlice_mono h
  | .byteArray, inp, hp, cr, h => by
    unfold consume at h
    exact consumeSlice_mono h
  | .tuple cs, inp, hp, cr, h => by
    unfold consume at h
    exact consumeL_mono cs inp hp cr h
  | .list elt, inp, hp, cr, h => by
    unfold consume at h
    split at h
    · split at h
      · have hm := consumeN_mono elt _ _ _ cr h
        have h8 := le_roundUpT hp (show (0 : Nat) < 8 by omega)
        omega
      · simp at h
    · simp at h
  | .array elt nd, inp, hp, cr, h => by
    unfold consume at h
    split at h
    · split at h
      · have hm := consumeN_mono elt _ _ _ cr h
        have h8 := le_roundUpT hp (show (0 : Nat) < 8 by omega)
        omega
      · simp at h
    · simp at h
  | .range elt, inp, hp, cr, h => by
    unfold consume at h
    obtain ⟨r1, h1, h2⟩ := obind_eq_some h
    obtain ⟨r2, h3, h4⟩ := obind_eq_some h2
    have m1 := consume_mono elt inp hp r1 h1
    have m2 := consume_mono elt r1.1 r1.2 r2 h3
    have m3 := consume_mono elt r2.1 r2.2 cr h4
    omega
  | .keyword _, inp, hp, cr, h => by
    unfold consume at h
    simp at h
  | .object, inp, hp, cr, h => by
    unfold consume at h
    simp at h

theorem consumeL_mono : ∀ (ts : List RTag) (inp : List Nat) (hp : Nat) (cr : List Nat × Nat),
    consumeL ts inp hp = Option.some cr → hp ≤ cr.2
  | [], inp, hp, cr, h => by
    unfold consumeL at h
    simp only [Option.some.injEq] at h
    rw [← h]
  | t :: rest, inp, hp, cr, h => by
    unfold consumeL at h
    obtain ⟨r1, h1, h2⟩ := obind_eq_some h
    have m1 := consume_mono t inp hp r1 h1
    have m2 := consumeL_mono rest r1.1 r1.2 cr h2
    omega

theorem consumeN_mono : ∀ (t : RTag) (n : Nat) (inp : List Nat) (hp : Nat) (cr : List Nat × Nat),
    consumeN t n inp hp = Option.some cr → hp ≤ cr.2
  | t, n, inp, hp, cr, h => by
    unfold consumeN at h
    split at h
    · split at h
      · simp only [Option.some.injEq] at h
        rw [← h]
      · simp at h
    · exact consumeNL_mono t n inp hp cr h

theorem consumeNL_mono : ∀ (t : RTag) (n : Nat) (inp : List Nat) (hp : Nat) (cr : List Nat × Nat),
    consumeNL t n inp hp = Option.some cr → hp ≤ cr.2
  | t, 0, inp, hp, cr, h => by
    unfold consumeNL at h
    simp only [Option.some.injEq] at h
    rw [← h]
  | t, n + 1, inp, hp, cr, h => by
    unfold consumeNL at h
    obtain ⟨r1, h1, h2⟩ := obind_eq_some h
    have m1 := consume_mono t inp hp r1 h1
    have m2 := consumeNL_mono t n r1.1 r1.2 cr h2
    omega

end

theorem stReadU8_run (s : RecvSt) (h : 1 ≤ s.input.length) :
    stReadU8 s = .ok (beVal (s.input.take 1), { s with input := s.input.drop 1 }) := by
  unfold stReadU8 readExact
  rw [if_pos h, bind_ok_law]

theorem stReadU32_run (s : RecvSt) (h : 4 ≤ s.input.length) :
    stReadU32 s = .ok (beVal (s.input.take 4), { s with input := s.input.drop 4 }) := by
  unfold stReadU32 readExact
  rw [if_pos h, bind_ok_law]

theorem stReadU64_run (s : RecvSt) (h : 8 ≤ s.input.length) :
    stReadU64 s = .ok (beVal (s.input.take 8), { s with input := s.input.drop 8 }) := by
  unfold stReadU64 readExact
  rw [if_pos h, bind_ok_law]

theorem sendDims_succ (m : Mem) (nd x tot : Nat) :
    sendDims m (nd + 1) x tot
      = ((sendDims m nd (roundUpT x 4 + 4) (w32 (tot * loadLE m (roundUpT x 4) 4))).1,
         writeU32 (loadLE m (roundUpT x 4) 4)
           ++ (sendDims m nd (roundUpT x 4 + 4) (w32 (tot * loadLE m (roundUpT x 4) 4))).2.1,
         (sendDims m nd (roundUpT x 4 + 4) (w32 (tot * loadLE m (roundUpT x 4) 4))).2.2) := by
  rcases he : sendDims m nd (roundUpT x 4 + 4) (w32 (tot * loadLE m (roundUpT x 4) 4))
    with ⟨c2, out, t2⟩
  simp [sendDims, he]

theorem pow4_val : (256 : Nat) ^ 4 = 4294967296 := by norm_num

/-- Round trip of the array dimension headers: fed the bytes that
`sendDims` emitted, `recvDims` succeeds, consumes exactly those `4·nd`
bytes, computes the same running (wrapping) product, writes the dimension
cells at the 4-aligned cursor, touches nothing else, and re-encoding the
cells with `sendDims` reproduces the same bytes and product. -/
theorem recvRT_dims : ∀ (nd : Nat) (m : Mem) (xS tot : Nat) (s : RecvSt) (rest : List Nat),
    4 ∣ s.cursor →
    s.input = (sendDims m nd xS tot).2.1 ++ rest →
    ∃ r : Nat × RecvSt, recvDims nd tot s = .ok r
      ∧ r.1 = (sendDims m nd xS tot).2.2
      ∧ r.2.input = rest
      ∧ r.2.cursor = s.cursor + 4 * nd
      ∧ r.2.hp = s.hp ∧ r.2.calls = s.calls
      ∧ (∀ a, (a < s.cursor ∨ s.cursor + 4 * nd ≤ a) → r.2.mem a = s.mem a)
      ∧ ∀ m2 : Mem, (∀ a, s.cursor ≤ a ∧ a < s.cursor + 4 * nd → m2 a = r.2.mem a) →
          sendDims m2 nd s.cursor tot
            = (s.cursor + 4 * nd, (sendDims m nd xS tot).2.1, (sendDims m nd xS tot).2.2)
  | 0, m, xS, tot, s, rest, hdvd, hinp => by
    refine ⟨(tot, s), rfl, rfl, by simpa using hinp,
      by show s.cursor = s.cursor + 4 * 0; omega, rfl, rfl, fun a _ => rfl, ?_⟩
    intro m2 _
    show (s.cursor, [], tot) = (s.cursor + 4 * 0, [], tot)
    rw [show s.cursor + 4 * 0 = s.cursor by omega]
  | nd + 1, m, xS, tot, s, rest, hdvd, hinp => by
    have hvlt : loadLE m (roundUpT xS 4) 4 < 4294967296 := by
      have hlt := loadLE_lt m (roundUpT xS 4) 4
      rwa [pow4_val] at hlt
    have hsd := sendDims_succ m nd xS tot
    have hinp2 : s.input = beBytes 4 (loadLE m (roundUpT xS 4) 4)
        ++ ((sendDims m nd (roundUpT xS 4 + 4)
              (w32 (tot * loadLE m (roundUpT xS 4) 4))).2.1 ++ rest) := by
      rw [hinp, hsd]
      simp [writeU32]
    have hlen : 4 ≤ s.input.length := by
      rw [hinp2]
      simp [beBytes_length]
    have hrun := stReadU32_run s hlen
    have htake : s.input.take 4 = beBytes 4 (loadLE m (roundUpT xS 4) 4) := by
      have h0 := take_app_len (beBytes 4 (loadLE m (roundUpT xS 4) 4))
        ((sendDims m nd (roundUpT xS 4 + 4) (w32 (tot * loadLE m (roundUpT xS 4) 4))).2.1 ++ rest)
      rw [beBytes_length] at h0
      rw [hinp2]
      exact h0
    have hdrop : s.input.drop 4
        = (sendDims m nd (roundUpT xS 4 + 4) (w32 (tot * loadLE m (roundUpT xS 4) 4))).2.1
          ++ rest := by
      have h0 := drop_app_len (beBytes 4 (loadLE m (roundUpT xS 4) 4))
        ((sendDims m nd (roundUpT xS 4 + 4) (w32 (tot * loadLE m (roundUpT xS 4) 4))).2.1 ++ rest)
      rw [beBytes_length] at h0
      rw [hinp2]
      exact h0
    have hval : beVal (s.input.take 4) = loadLE m (roundUpT xS 4) 4 := by
      rw [htake, beVal_beBytes, pow4_val]
      exact Nat.mod_eq_of_lt hvlt
    have hcur : roundUpT s.cursor 4 = s.cursor := roundUpT_eq_self (by omega) hdvd
    have hih := recvRT_dims nd m (roundUpT xS 4 + 4) (w32 (tot * loadLE m (roundUpT xS 4) 4))
      { input := s.input.drop 4,
        mem := storeLE s.mem s.cursor 4 (loadLE m (roundUpT xS 4) 4),
        cursor := s.cursor + 4, hp := s.hp, calls := s.calls }
      rest (by show (4 : Nat) ∣ s.cursor + 4; omega) hdrop
    obtain ⟨r, hrunI, hprod, hinpI, hcurI, hhpI, hcallsI, hframeI, hreI⟩ := hih
    refine ⟨r, ?_, ?_, hinpI, ?_, hhpI, hcallsI, ?_, ?_⟩
    · unfold recvDims
      rw [hrun, bind_ok_law]
      show recvDims nd (w32 (tot * beVal (s.input.take 4)))
        { input := s.input.drop 4,
          mem := storeLE s.mem (roundUpT s.cursor 4) 4 (beVal (s.input.take 4)),
          cursor := roundUpT s.cursor 4 + 4, hp := s.hp, calls := s.calls } = .ok r
      rw [hval, hcur]
      exact hrunI
    · rw [hprod, hsd]
    · rw [hcurI]
      show s.cursor + 4 + 4 * nd = s.cursor + 4 * (nd + 1)
      omega
    · intro a ha
      have hfr := hframeI a (by
        show a < s.cursor + 4 ∨ s.cursor + 4 + 4 * nd ≤ a
        omega)
      rw [hfr]
      show storeLE s.mem s.cursor 4 (loadLE m (roundUpT xS 4) 4) a = s.mem a
      exact storeLE_frame s.mem s.cursor 4 _ a (by omega)
    · intro m2 hag
      have hload : loadLE m2 s.cursor 4 = loadLE m (roundUpT xS 4) 4 := by
        have hcg : loadBytes m2 s.cursor 4 = loadBytes r.2.mem s.cursor 4 := by
          apply loadBytes_congr
          intro i hi
          exact hag (s.cursor + i) (by omega)
        have hcg2 : loadBytes r.2.mem s.cursor 4
            = loadBytes (storeLE s.mem s.cursor 4 (loadLE m (roundUpT xS 4) 4)) s.cursor 4 := by
          apply loadBytes_congr
          intro i hi
          exact hframeI (s.cursor + i) (by
            show s.cursor + i < s.cursor + 4 ∨ s.cursor + 4 + 4 * nd ≤ s.cursor + i
            omega)
        have hcg3 : loadLE m2 s.cursor 4
            = loadLE (storeLE s.mem s.cursor 4 (loadLE m (roundUpT xS 4) 4)) s.cursor 4 :=
          congrArg leVal (hcg.trans hcg2)
        rw [hcg3, loadLE_storeLE, pow4_val]
        exact Nat.mod_eq_of_lt hvlt
      have hre2 := hreI m2 (fun a ha => hag a (by
        have ha2 : s.cursor + 4 ≤ a ∧ a < s.cursor + 4 + 4 * nd := ha
        omega))
      have hsd2 := sendDims_succ m2 nd s.cursor tot
      rw [hsd2, hcur, hload, hre2, hsd]
      show (s.cursor + 4 + 4 * nd,
          writeU32 (loadLE m (roundUpT xS 4) 4)
            ++ (sendDims m nd (roundUpT xS 4 + 4) (w32 (tot * loadLE m (roundUpT xS 4) 4))).2.1,
          (sendDims m nd (roundUpT xS 4 + 4) (w32 (tot * loadLE m (roundUpT xS 4) 4))).2.2)
        = (s.cursor + 4 * (nd + 1), _, _)
      rw [show s.cursor + 4 * (nd + 1) = s.cursor + 4 + 4 * nd by omega]

theorem pow8_val : (256 : Nat) ^ 8 = 18446744073709551616 := by norm_num

theorem sendDims_len (m : Mem) : ∀ (nd x tot : Nat), (sendDims m nd x tot).2.1.length = 4 * nd
  | 0, _, _ => rfl
  | nd + 1, x, tot => by
    rw [sendDims_succ]
    show (writeU32 (loadLE m (roundUpT x 4) 4)
      ++ (sendDims m nd (roundUpT x 4 + 4) (w32 (tot * loadLE m (roundUpT x 4) 4))).2.1).length
      = 4 * (nd + 1)
    rw [List.length_append, sendDims_len m nd _ _]
    show (beBytes 4 (loadLE m (roundUpT x 4) 4)).length + 4 * nd = 4 * (nd + 1)
    rw [beBytes_length]
    omega

theorem advLoop_ge : ∀ (ts : List RTag), validL ts = true → ∀ a : Nat, a ≤ advLoop ts a
  | [], _, a => Nat.le_refl a
  | t :: rest, hv, a => by
    have hv2 : validT t = true ∧ validL rest = true := by
      simpa [validL, Bool.and_eq_true] using hv
    have h1 : a ≤ roundUpT a (alignN t) := le_roundUpT a (alignN_pos hv2.1)
    have h2 := advLoop_ge rest hv2.2 (roundUpT a (alignN t) + advN t)
    show a ≤ advLoop rest (roundUpT a (alignN t) + advN t)
    omega

theorem bodyStream_align : ∀ (t : RTag) (m : Mem) (c : Nat), validT t = true →
    (needsAlign t = true → alignN t ∣ c) →
    bodyStream m t (roundUpT c (alignN t)) = bodyStream m t c
  | .none, m, c, _, _ => by
    show bodyStream m .none (roundUpT c 1) = bodyStream m .none c
    unfold bodyStream
    rw [roundUpT_one]
  | .bool, m, c, _, _ => by
    show bodyStream m .bool (roundUpT c 1) = bodyStream m .bool c
    rw [roundUpT_one]
  | .int32, m, c, _, _ => by
    show bodyStream m .int32 (roundUpT c 4) = bodyStream m .int32 c
    unfold bodyStream
    rw [roundUpT_eq_self (by omega) (dvd_roundUpT c 4)]
  | .int64, m, c, _, _ => by
    show bodyStream m .int64 (roundUpT c 8) = bodyStream m .int64 c
    unfold bodyStream
    rw [roundUpT_eq_self (by omega) (dvd_roundUpT c 8)]
  | .float64, m, c, _, _ => by
    show bodyStream m .float64 (roundUpT c 8) = bodyStream m .float64 c
    unfold bodyStream
    rw [roundUpT_eq_self (by omega) (dvd_roundUpT c 8)]
  | .string, m, c, _, _ => by
    show bodyStream m .string (roundUpT c 4) = bodyStream m .string c
    unfold bodyStream
    unfold sendSliceHeader
    rw [roundUpT_eq_self (by omega) (dvd_roundUpT c 4)]
  | .bytes, m, c, _, _ => by
    show bodyStream m .bytes (roundUpT c 4) = bodyStream m .bytes c
    unfold bodyStream
    unfold sendSliceHeader
    rw [roundUpT_eq_self (by omega) (dvd_roundUpT c 4)]
  | .byteArray, m, c, _, _ => by
    show bodyStream m .byteArray (roundUpT c 4) = bodyStream m .byteArray c
    unfold bodyStream
    unfold sendSliceHeader
    rw [roundUpT_eq_self (by omega) (dvd_roundUpT c 4)]
  | .tuple cs, m, c, hv, hna => by
    have hd : alMax cs ∣ c := hna rfl
    have hpos : 0 < alMax cs := alignN_pos hv
    show bodyStream m (.tuple cs) (roundUpT c (alMax cs)) = bodyStream m (.tuple cs) c
    rw [roundUpT_eq_self hpos hd]
  | .list e, m, c, _, _ => by
    show bodyStream m (.list e) (roundUpT c 4) = bodyStream m (.list e) c
    unfold bodyStream
    rw [roundUpT_eq_self (by omega) (dvd_roundUpT c 4)]
  | .array e nd, m, c, _, _ => by
    show bodyStream m (.array e nd) (roundUpT c 4) = bodyStream m (.array e nd) c
    unfold bodyStream
    rw [roundUpT_eq_self (by omega) (dvd_roundUpT c 4)]
  | .range e, m, c, hv, hna => by
    have hve : validT e = true := by simpa [validT] using hv
    have hrec := bodyStream_align e m c hve (fun h => hna h)
    show bodyStream m (.range e) (roundUpT c (alignN e)) = bodyStream m (.range e) c
    unfold bodyStream
    rw [hrec]
  | .keyword _, m, c, hv, _ => by simp [validT] at hv
  | .object, m, c, hv, _ => by simp [validT] at hv

/-- Round trip of the shared `String`/`Bytes`/`ByteArray` arm: fed a u32
length prefix and that many payload bytes, `recvSlice` succeeds, consumes
exactly them, writes the `{ptr, len}` header into the 8-byte cursor cell
and the payload into a fresh allocation of `len` bytes, touches nothing
else, and the decoded buffer re-reads as that header and payload. -/
theorem recvRT_slice (payload : List Nat) (s : RecvSt) (rest : List Nat) (cr : List Nat × Nat)
    (hlt : ∀ b ∈ payload, b < 256)
    (hlen : payload.length < 4294967296)
    (hcons : consumeSlice s.input s.hp = Option.some cr)
    (hA : cr.2 + 8 ≤ 4294967296)
    (hinp : s.input = (beBytes 4 payload.length ++ payload) ++ rest)
    (hheap : roundUpT s.cursor 4 + 8 ≤ s.hp) :
    ∃ s2, recvSlice s = .ok s2
      ∧ s2.input = rest ∧ cr.1 = rest ∧ s2.hp = cr.2
      ∧ s2.cursor = roundUpT s.cursor 4 + 8
      ∧ frameOn s s2 (roundUpT s.cursor 4) (roundUpT s.cursor 4 + 8)
      ∧ ∀ m2 : Mem, agreeOn m2 s s2 (roundUpT s.cursor 4) (roundUpT s.cursor 4 + 8) →
          sendSliceHeader m2 s.cursor = (roundUpT s.cursor 4, roundUpT s.hp 8, payload.length)
          ∧ loadBytes m2 (roundUpT s.hp 8) payload.length = payload := by
  have hinp2 : s.input = beBytes 4 payload.length ++ (payload ++ rest) := by
    rw [hinp, List.append_assoc]
  have hlen4 : 4 ≤ s.input.length := by
    rw [hinp2]
    simp [beBytes_length]
  have htake : s.input.take 4 = beBytes 4 payload.length := by
    have h0 := take_app_len (beBytes 4 payload.length) (payload ++ rest)
    rw [beBytes_length] at h0
    rw [hinp2]
    exact h0
  have hdrop : s.input.drop 4 = payload ++ rest := by
    have h0 := drop_app_len (beBytes 4 payload.length) (payload ++ rest)
    rw [beBytes_length] at h0
    rw [hinp2]
    exact h0
  have hval : beVal (s.input.take 4) = payload.length := by
    rw [htake, beVal_beBytes, pow4_val]
    exact Nat.mod_eq_of_lt hlen
  have hq8 : (8 : Nat) ∣ roundUpT s.hp 8 := dvd_roundUpT s.hp 8
  have hqge : s.hp ≤ roundUpT s.hp 8 := le_roundUpT s.hp (by omega)
  unfold consumeSlice at hcons
  rw [if_pos hlen4, hval, hdrop, if_pos (by simp)] at hcons
  simp only [Option.some.injEq] at hcons
  have hcr2 : cr.2 = roundUpT s.hp 8 + payload.length := by rw [← hcons]
  have hrun := stReadU32_run { s with cursor := roundUpT s.cursor 4 + 8 }
    (by show 4 ≤ s.input.length; exact hlen4)
  refine ⟨⟨rest,
    storeBytes (storeLE (storeLE s.mem (roundUpT s.cursor 4) 4 (roundUpT s.hp 8))
      (roundUpT s.cursor 4 + 4) 4 payload.length) (roundUpT s.hp 8) payload,
    roundUpT s.cursor 4 + 8,
    roundUpT s.hp 8 + payload.length,
    s.calls ++ [payload.length]⟩, ?_, rfl, ?_, ?_, rfl, ?_, ?_⟩
  · simp only [recvSlice, hrun, bind_ok_law, hval, hdrop, allocOne, Bind.bind, Except.bind,
      readExact_append]
  · rw [← hcons]
    exact drop_app_len payload rest
  · rw [hcr2]
  · intro a hcw hhw
    show storeBytes (storeLE (storeLE s.mem (roundUpT s.cursor 4) 4 (roundUpT s.hp 8))
      (roundUpT s.cursor 4 + 4) 4 payload.length) (roundUpT s.hp 8) payload a = s.mem a
    have hhw2 : a < s.hp ∨ roundUpT s.hp 8 + payload.length ≤ a := hhw
    rw [storeBytes_frame payload _ (roundUpT s.hp 8) a (by omega)]
    rw [storeLE_frame _ (roundUpT s.cursor 4 + 4) 4 payload.length a (by omega)]
    exact storeLE_frame _ (roundUpT s.cursor 4) 4 (roundUpT s.hp 8) a (by omega)
  · intro m2 hag
    have hqlt : roundUpT s.hp 8 < 4294967296 := by omega
    have hs2mem : ∀ i, i < 8 →
        storeBytes (storeLE (storeLE s.mem (roundUpT s.cursor 4) 4 (roundUpT s.hp 8))
            (roundUpT s.cursor 4 + 4) 4 payload.length) (roundUpT s.hp 8) payload
            (roundUpT s.cursor 4 + i)
        = storeLE (storeLE s.mem (roundUpT s.cursor 4) 4 (roundUpT s.hp 8))
            (roundUpT s.cursor 4 + 4) 4 payload.length (roundUpT s.cursor 4 + i) := by
      intro i hi
      exact storeBytes_frame payload _ (roundUpT s.hp 8) _ (by omega)
    have hm2c : ∀ i, i < 8 → m2 (roundUpT s.cursor 4 + i)
        = storeLE (storeLE s.mem (roundUpT s.cursor 4) 4 (roundUpT s.hp 8))
            (roundUpT s.cursor 4 + 4) 4 payload.length (roundUpT s.cursor 4 + i) := by
      intro i hi
      rw [hag (roundUpT s.cursor 4 + i) (Or.inl (by omega))]
      exact hs2mem i hi
    have hload1 : loadLE m2 (roundUpT s.cursor 4) 4 = roundUpT s.hp 8 := by
      have hcg : loadBytes m2 (roundUpT s.cursor 4) 4
          = loadBytes (storeLE (storeLE s.mem (roundUpT s.cursor 4) 4 (roundUpT s.hp 8))
              (roundUpT s.cursor 4 + 4) 4 payload.length) (roundUpT s.cursor 4) 4 :=
        loadBytes_congr 4 _ m2 _ (fun i hi => hm2c i (by omega))
      have hcg2 : loadBytes (storeLE (storeLE s.mem (roundUpT s.cursor 4) 4 (roundUpT s.hp 8))
            (roundUpT s.cursor 4 + 4) 4 payload.length) (roundUpT s.cursor 4) 4
          = loadBytes (storeLE s.mem (roundUpT s.cursor 4) 4 (roundUpT s.hp 8))
              (roundUpT s.cursor 4) 4 :=
        loadBytes_congr 4 _ _ _ (fun i hi =>
          storeLE_frame _ (roundUpT s.cursor 4 + 4) 4 payload.length _ (by omega))
      have hcg3 : loadLE m2 (roundUpT s.cursor 4) 4
          = loadLE (storeLE s.mem (roundUpT s.cursor 4) 4 (roundUpT s.hp 8)) (roundUpT s.cursor 4) 4 :=
        congrArg leVal (hcg.trans hcg2)
      rw [hcg3, loadLE_storeLE, pow4_val]
      exact Nat.mod_eq_of_lt hqlt
    have hload2 : loadLE m2 (roundUpT s.cursor 4 + 4) 4 = payload.length := by
      have hcg : loadBytes m2 (roundUpT s.cursor 4 + 4) 4
          = loadBytes (storeLE (storeLE s.mem (roundUpT s.cursor 4) 4 (roundUpT s.hp 8))
              (roundUpT s.cursor 4 + 4) 4 payload.length) (roundUpT s.cursor 4 + 4) 4 :=
        loadBytes_congr 4 _ m2 _ (fun i hi => by
          rw [show roundUpT s.cursor 4 + 4 + i = roundUpT s.cursor 4 + (4 + i) by omega]
          exact hm2c (4 + i) (by omega))
      have hcg3 : loadLE m2 (roundUpT s.cursor 4 + 4) 4
          = loadLE (storeLE (storeLE s.mem (roundUpT s.cursor 4) 4 (roundUpT s.hp 8))
              (roundUpT s.cursor 4 + 4) 4 payload.length) (roundUpT s.cursor 4 + 4) 4 :=
        congrArg leVal hcg
      rw [hcg3, loadLE_storeLE, pow4_val]
      exact Nat.mod_eq_of_lt hlen
    refine ⟨?_, ?_⟩
    · show (roundUpT s.cursor 4, loadLE m2 (roundUpT s.cursor 4) 4,
        loadLE m2 (roundUpT s.cursor 4 + 4) 4)
        = (roundUpT s.cursor 4, roundUpT s.hp 8, payload.length)
      rw [hload1, hload2]
    · have hcg : loadBytes m2 (roundUpT s.hp 8) payload.length
          = loadBytes (storeBytes (storeLE (storeLE s.mem (roundUpT s.cursor 4) 4 (roundUpT s.hp 8))
              (roundUpT s.cursor 4 + 4) 4 payload.length) (roundUpT s.hp 8) payload)
              (roundUpT s.hp 8) payload.length :=
        loadBytes_congr _ _ m2 _ (fun i hi =>
          hag (roundUpT s.hp 8 + i) (Or.inr ⟨by omega,
            show roundUpT s.hp 8 + i < roundUpT s.hp 8 + payload.length by omega⟩))
      rw [hcg]
      exact loadBytes_storeBytes payload _ (roundUpT s.hp 8) hlt


set_option maxHeartbeats 2000000 in
mutual

/-- Decode correctness for claim C1, over array-free tags (`noArray`; the
`Array` receive path does not round-trip — rpc_proto.rs line 173 decodes
each element as another array, see claims C3/C4): fed the de-framed byte
stream `bodyStream` produced for a value, from any cursor suitably aligned
for the encoder's tuple placement and any arena position whose decoded
layout fits the 32-bit address space (`consume`), `recv_value` succeeds,
consumes exactly that stream, advances the cursor by `advN`, writes only
the value's cursor window and fresh heap blocks, and the decoded buffer
re-encodes (via `bodyStream`) to the identical stream. -/
theorem recvRT : ∀ (t : RTag) (m : Mem) (cS cE : Nat) (bs : List Nat)
    (s : RecvSt) (rest : List Nat) (cr : List Nat × Nat),
    validT t = true → alignOkT t = true → noArray t = true →
    (needsAlign t = true → alignN t ∣ s.cursor) →
    bodyStream m t cS = .ok (cE, bs) →
    consume t s.input s.hp = Option.some cr →
    cr.2 + 8 ≤ 4294967296 →
    s.input = bs ++ rest →
    roundUpT s.cursor (alignN t) + sizeN t ≤ s.hp →
    ∃ s2, recv_value t s = .ok s2
      ∧ s2.input = rest ∧ cr.1 = rest ∧ s2.hp = cr.2
      ∧ s2.cursor = roundUpT s.cursor (alignN t) + advN t
      ∧ frameOn s s2 (roundUpT s.cursor (alignN t)) (roundUpT s.cursor (alignN t) + advN t)
      ∧ ∀ m2 : Mem, agreeOn m2 s s2 (roundUpT s.cursor (alignN t))
            (roundUpT s.cursor (alignN t) + advN t) →
          bodyStream m2 t s.cursor = .ok (roundUpT s.cursor (alignN t) + advN t, bs)
  | .none, m, cS, cE, bs, s, rest, cr, hv, hok, hnoarr, hna, henc, hcons, hA, hin, hheap => by
    unfold bodyStream at henc
    simp only [Except.ok.injEq, Prod.mk.injEq] at henc
    unfold consume at hcons
    simp only [Option.some.injEq] at hcons
    have hbs : bs = [] := henc.2.symm
    subst hbs
    have hrest : s.input = rest := by simpa using hin
    refine ⟨s, ?_, hrest, ?_, ?_, ?_, fun a _ _ => rfl, ?_⟩
    · unfold recv_value
      rfl
    · rw [← hcons]
      exact hrest
    · rw [← hcons]
    · show s.cursor = roundUpT s.cursor 1 + 0
      rw [roundUpT_one]
      rfl
    · intro m2 _
      show bodyStream m2 .none s.cursor = .ok (roundUpT s.cursor 1 + 0, [])
      unfold bodyStream
      rw [roundUpT_one]
      rfl
  | .bool, m, cS, cE, bs, s, rest, cr, hv, hok, hnoarr, hna, henc, hcons, hA, hin, hheap => by
    unfold bodyStream at henc
    simp only [Except.ok.injEq, Prod.mk.injEq] at henc
    have hbs : bs = [byteAt m (roundUpT cS 1)] := henc.2.symm
    subst hbs
    have hblt : byteAt m (roundUpT cS 1) < 256 := by
      unfold byteAt
      exact Nat.mod_lt _ (by omega)
    have hlen : 1 ≤ s.input.length := by
      rw [hin]
      simp
    unfold consume at hcons
    rw [if_pos hlen] at hcons
    simp only [Option.some.injEq] at hcons
    have htake : s.input.take 1 = [byteAt m (roundUpT cS 1)] := by
      rw [hin]
      rfl
    have hdrop1 : s.input.drop 1 = rest := by
      rw [hin]
      rfl
    have hbeval : beVal (s.input.take 1) = byteAt m (roundUpT cS 1) := by
      rw [htake]
      show byteAt m (roundUpT cS 1) % 256 * 256 ^ (0 : Nat) + 0 = byteAt m (roundUpT cS 1)
      simp
      omega
    have hrun := stReadU8_run { s with cursor := roundUpT s.cursor 1 + 1 }
      (show 1 ≤ s.input.length from hlen)
    refine ⟨⟨rest, store1 s.mem (roundUpT s.cursor 1) (byteAt m (roundUpT cS 1)),
      roundUpT s.cursor 1 + 1, s.hp, s.calls⟩, ?_, rfl, ?_, ?_, rfl, ?_, ?_⟩
    · simp only [recv_value, hrun, bind_ok_law, Bind.bind, Except.bind, hbeval, hdrop1]
    · rw [← hcons]
      exact hdrop1
    · rw [← hcons]
    · intro a hcw hhw
      show store1 s.mem (roundUpT s.cursor 1) (byteAt m (roundUpT cS 1)) a = s.mem a
      have hcw2 : a < roundUpT s.cursor 1 ∨ roundUpT s.cursor 1 + 1 ≤ a := hcw
      exact store1_frame _ _ _ _ (by omega)
    · intro m2 hag
      have hm2 : m2 (roundUpT s.cursor 1) = byteAt m (roundUpT cS 1) % 256 := by
        rw [hag (roundUpT s.cursor 1) (Or.inl ⟨show roundUpT s.cursor 1 ≤ roundUpT s.cursor 1
          from Nat.le_refl _,
          show roundUpT s.cursor 1 < roundUpT s.cursor 1 + 1 from by omega⟩)]
        show store1 s.mem (roundUpT s.cursor 1) (byteAt m (roundUpT cS 1)) (roundUpT s.cursor 1) = _
        unfold store1
        simp
      show bodyStream m2 .bool s.cursor
        = .ok (roundUpT s.cursor 1 + 1, [byteAt m (roundUpT cS 1)])
      unfold bodyStream
      have hb2 : byteAt m2 (roundUpT s.cursor 1) = byteAt m (roundUpT cS 1) := by
        unfold byteAt
        unfold byteAt at hm2
        omega
      show Except.ok (roundUpT s.cursor 1 + 1, [byteAt m2 (roundUpT s.cursor 1)])
        = Except.ok (roundUpT s.cursor 1 + 1, [byteAt m (roundUpT cS 1)])
      rw [hb2]
  | .int32, m, cS, cE, bs, s, rest, cr, hv, hok, hnoarr, hna, henc, hcons, hA, hin, hheap => by
    unfold bodyStream at henc
    simp only [Except.ok.injEq, Prod.mk.injEq] at henc
    have hbs : bs = writeU32 (loadLE m (roundUpT cS 4) 4) := henc.2.symm
    subst hbs
    unfold writeU32 at hin
    have hvlt : loadLE m (roundUpT cS 4) 4 < 4294967296 := by
      have h := loadLE_lt m (roundUpT cS 4) 4
      rwa [pow4_val] at h
    have hlen : 4 ≤ s.input.length := by
      rw [hin]
      simp [beBytes_length]
    unfold consume at hcons
    rw [if_pos hlen] at hcons
    simp only [Option.some.injEq] at hcons
    have htake : s.input.take 4 = beBytes 4 (loadLE m (roundUpT cS 4) 4) := by
      have h0 := take_app_len (beBytes 4 (loadLE m (roundUpT cS 4) 4)) rest
      rw [beBytes_length] at h0
      rw [hin]
      exact h0
    have hdrop : s.input.drop 4 = rest := by
      have h0 := drop_app_len (beBytes 4 (loadLE m (roundUpT cS 4) 4)) rest
      rw [beBytes_length] at h0
      rw [hin]
      exact h0
    have hval : beVal (s.input.take 4) = loadLE m (roundUpT cS 4) 4 := by
      rw [htake, beVal_beBytes, pow4_val]
      exact Nat.mod_eq_of_lt hvlt
    have hrun := stReadU32_run { s with cursor := roundUpT s.cursor 4 + 4 }
      (show 4 ≤ s.input.length from hlen)
    refine ⟨⟨rest, storeLE s.mem (roundUpT s.cursor 4) 4 (loadLE m (roundUpT cS 4) 4),
      roundUpT s.cursor 4 + 4, s.hp, s.calls⟩, ?_, rfl, ?_, ?_, rfl, ?_, ?_⟩
    · simp only [recv_value, hrun, bind_ok_law, Bind.bind, Except.bind, hval, hdrop]
    · rw [← hcons]
      exact hdrop
    · rw [← hcons]
    · intro a hcw hhw
      show storeLE s.mem (roundUpT s.cursor 4) 4 (loadLE m (roundUpT cS 4) 4) a = s.mem a
      have hcw2 : a < roundUpT s.cursor 4 ∨ roundUpT s.cursor 4 + 4 ≤ a := hcw
      exact storeLE_frame _ _ _ _ _ (by omega)
    · intro m2 hag
      have hcg3 : loadLE m2 (roundUpT s.cursor 4) 4
          = loadLE (storeLE s.mem (roundUpT s.cursor 4) 4 (loadLE m (roundUpT cS 4) 4))
              (roundUpT s.cursor 4) 4 :=
        congrArg leVal (loadBytes_congr 4 _ m2 _ (fun i hi =>
          hag (roundUpT s.cursor 4 + i)
            (Or.inl ⟨show roundUpT s.cursor 4 ≤ roundUpT s.cursor 4 + i from by omega,
              show roundUpT s.cursor 4 + i < roundUpT s.cursor 4 + 4 from by omega⟩)))
      show bodyStream m2 .int32 s.cursor
        = .ok (roundUpT s.cursor 4 + 4, writeU32 (loadLE m (roundUpT cS 4) 4))
      unfold bodyStream
      show Except.ok (roundUpT s.cursor 4 + 4, writeU32 (loadLE m2 (roundUpT s.cursor 4) 4))
        = Except.ok (roundUpT s.cursor 4 + 4, writeU32 (loadLE m (roundUpT cS 4) 4))
      rw [hcg3, loadLE_storeLE, pow4_val, Nat.mod_eq_of_lt hvlt]
  | .int64, m, cS, cE, bs, s, rest, cr, hv, hok, hnoarr, hna, henc, hcons, hA, hin, hheap => by
    unfold bodyStream at henc
    simp only [Except.ok.injEq, Prod.mk.injEq] at henc
    have hbs : bs = writeU64 (loadLE m (roundUpT cS 8) 8) := henc.2.symm
    subst hbs
    unfold writeU64 at hin
    have hvlt : loadLE m (roundUpT cS 8) 8 < 18446744073709551616 := by
      have h := loadLE_lt m (roundUpT cS 8) 8
      rwa [pow8_val] at h
    have hlen : 8 ≤ s.input.length := by
      rw [hin]
      simp [beBytes_length]
    unfold consume at hcons
    rw [if_pos hlen] at hcons
    simp only [Option.some.injEq] at hcons
    have htake : s.input.take 8 = beBytes 8 (loadLE m (roundUpT cS 8) 8) := by
      have h0 := take_app_len (beBytes 8 (loadLE m (roundUpT cS 8) 8)) rest
      rw [beBytes_length] at h0
      rw [hin]
      exact h0
    have hdrop : s.input.drop 8 = rest := by
      have h0 := drop_app_len (beBytes 8 (loadLE m (roundUpT cS 8) 8)) rest
      rw [beBytes_length] at h0
      rw [hin]
      exact h0
    have hval : beVal (s.input.take 8) = loadLE m (roundUpT cS 8) 8 := by
      rw [htake, beVal_beBytes, pow8_val]
      exact Nat.mod_eq_of_lt hvlt
    have hrun := stReadU64_run { s with cursor := roundUpT s.cursor 8 + 8 }
      (show 8 ≤ s.input.length from hlen)
    refine ⟨⟨rest, storeLE s.mem (roundUpT s.cursor 8) 8 (loadLE m (roundUpT cS 8) 8),
      roundUpT s.cursor 8 + 8, s.hp, s.calls⟩, ?_, rfl, ?_, ?_, rfl, ?_, ?_⟩
    · simp only [recv_value, hrun, bind_ok_law, Bind.bind, Except.bind, hval, hdrop]
    · rw [← hcons]
      exact hdrop
    · rw [← hcons]
    · intro a hcw hhw
      show storeLE s.mem (roundUpT s.cursor 8) 8 (loadLE m (roundUpT cS 8) 8) a = s.mem a
      have hcw2 : a < roundUpT s.cursor 8 ∨ roundUpT s.cursor 8 + 8 ≤ a := hcw
      exact storeLE_frame _ _ _ _ _ (by omega)
    · intro m2 hag
      have hcg3 : loadLE m2 (roundUpT s.cursor 8) 8
          = loadLE (storeLE s.mem (roundUpT s.cursor 8) 8 (loadLE m (roundUpT cS 8) 8))
              (roundUpT s.cursor 8) 8 :=
        congrArg leVal (loadBytes_congr 8 _ m2 _ (fun i hi =>
          hag (roundUpT s.cursor 8 + i)
            (Or.inl ⟨show roundUpT s.cursor 8 ≤ roundUpT s.cursor 8 + i from by omega,
              show roundUpT s.cursor 8 + i < roundUpT s.cursor 8 + 8 from by omega⟩)))
      show bodyStream m2 .int64 s.cursor
        = .ok (roundUpT s.cursor 8 + 8, writeU64 (loadLE m (roundUpT cS 8) 8))
      unfold bodyStream
      show Except.ok (roundUpT s.cursor 8 + 8, writeU64 (loadLE m2 (roundUpT s.cursor 8) 8))
        = Except.ok (roundUpT s.cursor 8 + 8, writeU64 (loadLE m (roundUpT cS 8) 8))
      rw [hcg3, loadLE_storeLE, pow8_val, Nat.mod_eq_of_lt hvlt]
  | .float64, m, cS, cE, bs, s, rest, cr, hv, hok, hnoarr, hna, henc, hcons, hA, hin, hheap => by
    unfold bodyStream at henc
    simp only [Except.ok.injEq, Prod.mk.injEq] at henc
    have hbs : bs = writeU64 (loadLE m (roundUpT cS 8) 8) := henc.2.symm
    subst hbs
    unfold writeU64 at hin
    have hvlt : loadLE m (roundUpT cS 8) 8 < 18446744073709551616 := by
      have h := loadLE_lt m (roundUpT cS 8) 8
      rwa [pow8_val] at h
    have hlen : 8 ≤ s.input.length := by
      rw [hin]
      simp [beBytes_length]
    unfold consume at hcons
    rw [if_pos hlen] at hcons
    simp only [Option.some.injEq] at hcons
    have htake : s.input.take 8 = beBytes 8 (loadLE m (roundUpT cS 8) 8) := by
      have h0 := take_app_len (beBytes 8 (loadLE m (roundUpT cS 8) 8)) rest
      rw [beBytes_length] at h0
      rw [hin]
      exact h0
    have hdrop : s.input.drop 8 = rest := by
      have h0 := drop_app_len (beBytes 8 (loadLE m (roundUpT cS 8) 8)) rest
      rw [beBytes_length] at h0
      rw [hin]
      exact h0
    have hval : beVal (s.input.take 8) = loadLE m (roundUpT cS 8) 8 := by
      rw [htake, beVal_beBytes, pow8_val]
      exact Nat.mod_eq_of_lt hvlt
    have hrun := stReadU64_run { s with cursor := roundUpT s.cursor 8 + 8 }
      (show 8 ≤ s.input.length from hlen)
    refine ⟨⟨rest, storeLE s.mem (roundUpT s.cursor 8) 8 (loadLE m (roundUpT cS 8) 8),
      roundUpT s.cursor 8 + 8, s.hp, s.calls⟩, ?_, rfl, ?_, ?_, rfl, ?_, ?_⟩
    · simp only [recv_value, hrun, bind_ok_law, Bind.bind, Except.bind, hval, hdrop]
    · rw [← hcons]
      exact hdrop
    · rw [← hcons]
    · intro a hcw hhw
      show storeLE s.mem (roundUpT s.cursor 8) 8 (loadLE m (roundUpT cS 8) 8) a = s.mem a
      have hcw2 : a < roundUpT s.cursor 8 ∨ roundUpT s.cursor 8 + 8 ≤ a := hcw
      exact storeLE_frame _ _ _ _ _ (by omega)
    · intro m2 hag
      have hcg3 : loadLE m2 (roundUpT s.cursor 8) 8
          = loadLE (storeLE s.mem (roundUpT s.cursor 8) 8 (loadLE m (roundUpT cS 8) 8))
              (roundUpT s.cursor 8) 8 :=
        congrArg leVal (loadBytes_congr 8 _ m2 _ (fun i hi =>
          hag (roundUpT s.cursor 8 + i)
            (Or.inl ⟨show roundUpT s.cursor 8 ≤ roundUpT s.cursor 8 + i from by omega,
              show roundUpT s.cursor 8 + i < roundUpT s.cursor 8 + 8 from by omega⟩)))
      show bodyStream m2 .float64 s.cursor
        = .ok (roundUpT s.cursor 8 + 8, writeU64 (loadLE m (roundUpT cS 8) 8))
      unfold bodyStream
      show Except.ok (roundUpT s.cursor 8 + 8, writeU64 (loadLE m2 (roundUpT s.cursor 8) 8))
        = Except.ok (roundUpT s.cursor 8 + 8, writeU64 (loadLE m (roundUpT cS 8) 8))
      rw [hcg3, loadLE_storeLE, pow8_val, Nat.mod_eq_of_lt hvlt]
  | .string, m, cS, cE, bs, s, rest, cr, hv, hok, hnoarr, hna, henc, hcons, hA, hin, hheap => by
    unfold bodyStream at henc
    obtain ⟨bsrc, h1, h2⟩ := bind_eq_ok henc
    simp only [Except.ok.injEq, Prod.mk.injEq] at h2
    unfold fromUtf8Unwrap at h1
    split at h1
    · rename_i hu
      simp only [Except.ok.injEq] at h1
      subst h1
      have hbs : bs = writeStringP
          (loadBytes m (sendSliceHeader m cS).2.1 (sendSliceHeader m cS).2.2) := h2.2.symm
      subst hbs
      have hplt : ∀ b ∈ loadBytes m (sendSliceHeader m cS).2.1 (sendSliceHeader m cS).2.2,
          b < 256 := loadBytes_lt _ m _
      have hLlt : (sendSliceHeader m cS).2.2 < 4294967296 := by
        show loadLE m (roundUpT cS 4 + 4) 4 < 4294967296
        have h := loadLE_lt m (roundUpT cS 4 + 4) 4
        rwa [pow4_val] at h
      have hlenlt : (loadBytes m (sendSliceHeader m cS).2.1
          (sendSliceHeader m cS).2.2).length < 4294967296 := by
        rw [loadBytes_length]
        exact hLlt
      unfold consume at hcons
      have hinp2 : s.input = (beBytes 4 (loadBytes m (sendSliceHeader m cS).2.1
            (sendSliceHeader m cS).2.2).length
          ++ loadBytes m (sendSliceHeader m cS).2.1 (sendSliceHeader m cS).2.2) ++ rest := hin
      have hheap2 : roundUpT s.cursor 4 + 8 ≤ s.hp := hheap
      obtain ⟨s2, hrunS, hinpS, hcr1, hhp, hcurS, hframeS, hreS⟩ :=
        recvRT_slice (loadBytes m (sendSliceHeader m cS).2.1 (sendSliceHeader m cS).2.2)
          s rest cr hplt hlenlt hcons hA hinp2 hheap2
      refine ⟨s2, ?_, hinpS, hcr1, hhp, hcurS, hframeS, ?_⟩
      · unfold recv_value
        exact hrunS
      · intro m2 hag
        obtain ⟨hhdr, hpl⟩ := hreS m2 hag
        show bodyStream m2 .string s.cursor
          = .ok (roundUpT s.cursor 4 + 8,
            writeStringP (loadBytes m (sendSliceHeader m cS).2.1 (sendSliceHeader m cS).2.2))
        simp only [bodyStream, hhdr, hpl]
        unfold fromUtf8Unwrap
        rw [if_pos hu, bind_ok_law]
    · exact absurd h1 (by simp)
  | .bytes, m, cS, cE, bs, s, rest, cr, hv, hok, hnoarr, hna, henc, hcons, hA, hin, hheap => by
    unfold bodyStream at henc
    simp only [Except.ok.injEq, Prod.mk.injEq] at henc
    have hbs : bs = writeBytesP
        (loadBytes m (sendSliceHeader m cS).2.1 (sendSliceHeader m cS).2.2) := henc.2.symm
    subst hbs
    have hplt : ∀ b ∈ loadBytes m (sendSliceHeader m cS).2.1 (sendSliceHeader m cS).2.2,
        b < 256 := loadBytes_lt _ m _
    have hLlt : (sendSliceHeader m cS).2.2 < 4294967296 := by
      show loadLE m (roundUpT cS 4 + 4) 4 < 4294967296
      have h := loadLE_lt m (roundUpT cS 4 + 4) 4
      rwa [pow4_val] at h
    have hlenlt : (loadBytes m (sendSliceHeader m cS).2.1
        (sendSliceHeader m cS).2.2).length < 4294967296 := by
      rw [loadBytes_length]
      exact hLlt
    unfold consume at hcons
    have hinp2 : s.input = (beBytes 4 (loadBytes m (sendSliceHeader m cS).2.1
          (sendSliceHeader m cS).2.2).length
        ++ loadBytes m (sendSliceHeader m cS).2.1 (sendSliceHeader m cS).2.2) ++ rest := hin
    have hheap2 : roundUpT s.cursor 4 + 8 ≤ s.hp := hheap
    obtain ⟨s2, hrunS, hinpS, hcr1, hhp, hcurS, hframeS, hreS⟩ :=
      recvRT_slice (loadBytes m (sendSliceHeader m cS).2.1 (sendSliceHeader m cS).2.2)
        s rest cr hplt hlenlt hcons hA hinp2 hheap2
    refine ⟨s2, ?_, hinpS, hcr1, hhp, hcurS, hframeS, ?_⟩
    · unfold recv_value
      exact hrunS
    · intro m2 hag
      obtain ⟨hhdr, hpl⟩ := hreS m2 hag
      show bodyStream m2 .bytes s.cursor
        = .ok (roundUpT s.cursor 4 + 8,
          writeBytesP (loadBytes m (sendSliceHeader m cS).2.1 (sendSliceHeader m cS).2.2))
      simp only [bodyStream, hhdr, hpl]
  | .byteArray, m, cS, cE, bs, s, rest, cr, hv, hok, hnoarr, hna, henc, hcons, hA, hin, hheap => by
    unfold bodyStream at henc
    simp only [Except.ok.injEq, Prod.mk.injEq] at henc
    have hbs : bs = writeBytesP
        (loadBytes m (sendSliceHeader m cS).2.1 (sendSliceHeader m cS).2.2) := henc.2.symm
    subst hbs
    have hplt : ∀ b ∈ loadBytes m (sendSliceHeader m cS).2.1 (sendSliceHeader m cS).2.2,
        b < 256 := loadBytes_lt _ m _
    have hLlt : (sendSliceHeader m cS).2.2 < 4294967296 := by
      show loadLE m (roundUpT cS 4 + 4) 4 < 4294967296
      have h := loadLE_lt m (roundUpT cS 4 + 4) 4
      rwa [pow4_val] at h
    have hlenlt : (loadBytes m (sendSliceHeader m cS).2.1
        (sendSliceHeader m cS).2.2).length < 4294967296 := by
      rw [loadBytes_length]
      exact hLlt
    unfold consume at hcons
    have hinp2 : s.input = (beBytes 4 (loadBytes m (sendSliceHeader m cS).2.1
          (sendSliceHeader m cS).2.2).length
        ++ loadBytes m (sendSliceHeader m cS).2.1 (sendSliceHeader m cS).2.2) ++ rest := hin
    have hheap2 : roundUpT s.cursor 4 + 8 ≤ s.hp := hheap
    obtain ⟨s2, hrunS, hinpS, hcr1, hhp, hcurS, hframeS, hreS⟩ :=
      recvRT_slice (loadBytes m (sendSliceHeader m cS).2.1 (sendSliceHeader m cS).2.2)
        s rest cr hplt hlenlt hcons hA hinp2 hheap2
    refine ⟨s2, ?_, hinpS, hcr1, hhp, hcurS, hframeS, ?_⟩
    · unfold recv_value
      exact hrunS
    · intro m2 hag
      obtain ⟨hhdr, hpl⟩ := hreS m2 hag
      show bodyStream m2 .byteArray s.cursor
        = .ok (roundUpT s.cursor 4 + 8,
          writeBytesP (loadBytes m (sendSliceHeader m cS).2.1 (sendSliceHeader m cS).2.2))
      simp only [bodyStream, hhdr, hpl]
  | .tuple cs, m, cS, cE, bs, s, rest, cr, hv, hok, hnoarr, hna, henc, hcons, hA, hin, hheap => by
    have hcs : validL cs = true ∧ cs ≠ [] := by
      cases cs with
      | nil => simp [validT] at hv
      | cons c0 cs0 => exact ⟨by simpa [validT] using hv, by simp⟩
    have halm := alMax_pos hcs.1 hcs.2
    have halm8 := alMax_le8 hcs.1 hcs.2
    have hcd : alMax cs ∣ s.cursor := hna rfl
    have hcrnd : roundUpT s.cursor (alMax cs) = s.cursor := roundUpT_eq_self halm hcd
    unfold bodyStream at henc
    obtain ⟨rT, h1, h2⟩ := bind_eq_ok henc
    obtain ⟨c2x, h3, h4⟩ := bind_eq_ok h2
    simp only [Except.ok.injEq, Prod.mk.injEq] at h4
    unfold consume at hcons
    have hok2 : alignOkFields cs 0 = true := hok
    have hheap2 : s.cursor + szLoop cs 0 ≤ s.hp := by
      have hx : roundUpT s.cursor (alMax cs) + roundUpT (szLoop cs 0) (alMax cs) ≤ s.hp := hheap
      have hszle : szLoop cs 0 ≤ roundUpT (szLoop cs 0) (alMax cs) := le_roundUpT _ halm
      omega
    have hin2 : s.input = rT.2.1 ++ rest := by
      rw [h4.2]
      exact hin
    have hnoarrL : noArrayL cs = true := by simpa [noArray] using hnoarr
    have htup := recvRT_tuple cs m cS rT s.cursor 0 s rest cr hcs.1 hok2 hnoarrL
      (fun u hu => Dvd.dvd.trans (alignN_dvd_alMax hu (validL_mem hcs.1 hu) hcs.1 hcs.2) hcd)
      0 h1 hcons hA (by omega) hin2 hheap2
    obtain ⟨s1, hrun1, hinp1, hcr1, hhp1, hcur1, hframe1, hre1⟩ := htup
    have hs_hp_le : s.hp ≤ cr.2 := consumeL_mono cs s.input s.hp cr hcons
    have hadvle : advLoop cs 0 ≤ szLoop cs 0 := advLoop_le_szLoop cs hcs.1 (Nat.le_refl 0)
    have hadv2 : advLoop cs 0 ≤ roundUpT (advLoop cs 0) (alMax cs) := le_roundUpT _ halm
    have hcur1b : s1.cursor = s.cursor + advLoop cs 0 := hcur1
    have hexit : round_up s1.cursor (alMax cs) = .ok (roundUpT s1.cursor (alMax cs)) :=
      round_up_ok (alMax_pow2 hcs.1 hcs.2) (by rw [hcur1b]; omega)
    have hexit2 : roundUpT s1.cursor (alMax cs) = s.cursor + roundUpT (advLoop cs 0) (alMax cs) := by
      rw [hcur1b]
      exact roundUpT_add_left (advLoop cs 0) halm hcd
    refine ⟨{ s1 with cursor := roundUpT s1.cursor (alMax cs) }, ?_, hinp1, hcr1, hhp1, ?_, ?_, ?_⟩
    · simp only [recv_value, alignment_eq _ hv, alignN, bind_ok_law]
      rw [show round_up s.cursor (alMax cs) = .ok (roundUpT s.cursor (alMax cs)) from
        round_up_ok (alMax_pow2 hcs.1 hcs.2) (by omega), bind_ok_law, hcrnd]
      rw [show ({ s with cursor := s.cursor } : RecvSt) = s from rfl, hrun1, bind_ok_law,
        hexit, bind_ok_law]
    · show roundUpT s1.cursor (alMax cs)
        = roundUpT s.cursor (alMax cs) + roundUpT (advLoop cs 0) (alMax cs)
      rw [hexit2, hcrnd]
    · intro a hcw hhw
      have hcw2 : a < roundUpT s.cursor (alMax cs)
          ∨ roundUpT s.cursor (alMax cs) + roundUpT (advLoop cs 0) (alMax cs) ≤ a := hcw
      rw [hcrnd] at hcw2
      show s1.mem a = s.mem a
      exact hframe1 a (by omega) hhw
    · intro m2 hag
      have hagS : agreeOn m2 s s1 (s.cursor + 0) (s.cursor + advLoop cs 0) := by
        intro a ha
        apply hag a
        rcases ha with hcw | hhp
        · refine Or.inl ?_
          show roundUpT s.cursor (alMax cs) ≤ a
            ∧ a < roundUpT s.cursor (alMax cs) + roundUpT (advLoop cs 0) (alMax cs)
          rw [hcrnd]
          omega
        · exact Or.inr hhp
      have hre0 := hre1 m2 hagS 0
      have hre0b : bodyTuple m2 cs s.cursor 0
          = .ok (s.cursor + advLoop cs 0, rT.2.1, Nat.max 0 (alMax cs)) := hre0
      show bodyStream m2 (.tuple cs) s.cursor
        = .ok (roundUpT s.cursor (alMax cs) + roundUpT (advLoop cs 0) (alMax cs), bs)
      simp only [bodyStream, hre0b, bind_ok_law]
      rw [show Nat.max 0 (alMax cs) = alMax cs from Nat.zero_max _]
      rw [show round_up (s.cursor + advLoop cs 0) (alMax cs)
          = .ok (roundUpT (s.cursor + advLoop cs 0) (alMax cs)) from
        round_up_ok (alMax_pow2 hcs.1 hcs.2) (by omega), bind_ok_law]
      rw [roundUpT_add_left (advLoop cs 0) halm hcd, hcrnd, h4.2]
  | .list elt, m, cS, cE, bs, s, rest, cr, hv, hok, hnoarr, hna, henc, hcons, hA, hin, hheap => by
    have hve : validT elt = true := by simpa [validT] using hv
    have hoke : alignOkT elt = true := hok
    have hnoarrE : noArray elt = true := by simpa [noArray] using hnoarr
    have halpos := alignN_pos hve
    have hal8 := alignN_le8 hve
    have hald8 := alignN_dvd8 hve
    unfold bodyStream at henc
    obtain ⟨outE, h1, h2⟩ := bind_eq_ok henc
    simp only [Except.ok.injEq, Prod.mk.injEq] at h2
    have hlenlt : loadLE m (loadLE m (roundUpT cS 4) 4 + 4) 4 < 4294967296 := by
      have h := loadLE_lt m (loadLE m (roundUpT cS 4) 4 + 4) 4
      rwa [pow4_val] at h
    have hbs : bs = writeU32 (loadLE m (loadLE m (roundUpT cS 4) 4 + 4) 4) ++ outE := h2.2.symm
    subst hbs
    unfold writeU32 at hin
    have hinp2 : s.input = beBytes 4 (loadLE m (loadLE m (roundUpT cS 4) 4 + 4) 4) ++ (outE ++ rest) := by
      rw [hin, List.append_assoc]
    have hlen4 : 4 ≤ s.input.length := by
      rw [hinp2]
      simp [beBytes_length]
    have htake : s.input.take 4 = beBytes 4 (loadLE m (loadLE m (roundUpT cS 4) 4 + 4) 4) := by
      have h0 := take_app_len (beBytes 4 (loadLE m (loadLE m (roundUpT cS 4) 4 + 4) 4)) (outE ++ rest)
      rw [beBytes_length] at h0
      rw [hinp2]
      exact h0
    have hdrop : s.input.drop 4 = outE ++ rest := by
      have h0 := drop_app_len (beBytes 4 (loadLE m (loadLE m (roundUpT cS 4) 4 + 4) 4)) (outE ++ rest)
      rw [beBytes_length] at h0
      rw [hinp2]
      exact h0
    have hval : beVal (s.input.take 4) = loadLE m (loadLE m (roundUpT cS 4) 4 + 4) 4 := by
      rw [htake, beVal_beBytes, pow4_val]
      exact Nat.mod_eq_of_lt hlenlt
    unfold consume at hcons
    rw [if_pos hlen4, hval, roundUpT_eight hve, hdrop] at hcons
    have hfit : 8 + sizeN elt * (loadLE m (loadLE m (roundUpT cS 4) 4 + 4) 4) + 8 ≤ 4294967296 := by
      by_contra hc
      rw [if_neg hc] at hcons
      simp at hcons
    rw [if_pos hfit] at hcons
    have hconsN : consumeN elt (loadLE m (loadLE m (roundUpT cS 4) 4 + 4) 4) (outE ++ rest)
        (roundUpT s.hp 8 + (8 + sizeN elt * loadLE m (loadLE m (roundUpT cS 4) 4 + 4) 4)) = Option.some cr := hcons
    have hhp_cr : roundUpT s.hp 8 + (8 + sizeN elt * loadLE m (loadLE m (roundUpT cS 4) 4 + 4) 4) ≤ cr.2 :=
      consumeN_mono elt _ _ _ cr hconsN
    have hqge : s.hp ≤ roundUpT s.hp 8 := le_roundUpT s.hp (by omega)
    have hq8 : (8 : Nat) ∣ roundUpT s.hp 8 := dvd_roundUpT _ _
    have hheap2 : roundUpT s.cursor 4 + 8 ≤ s.hp := hheap
    obtain ⟨esz, hesz⟩ := size_ok elt hve
    have heszeq : loadLE m (loadLE m (roundUpT cS 4) 4 + 4) 4 = 0 ∨ esz = sizeN elt := by
      rcases Nat.eq_zero_or_pos (loadLE m (loadLE m (roundUpT cS 4) 4 + 4) 4) with h0 | hpos
      · exact Or.inl h0
      · right
        have hmul := Nat.mul_le_mul_left (sizeN elt) hpos
        rw [Nat.mul_one] at hmul
        have hfits : sizeN elt + 8 ≤ 4294967296 := by omega
        have hseq := size_eq elt hve hfits
        rw [hesz] at hseq
        simp only [Except.ok.injEq] at hseq
        exact hseq
    have halloc : w32 (8 + w32 (esz * loadLE m (loadLE m (roundUpT cS 4) 4 + 4) 4)) = 8 + sizeN elt * loadLE m (loadLE m (roundUpT cS 4) 4 + 4) 4 := by
      rcases heszeq with h0 | hsz
      · rw [h0]
        unfold w32
        omega
      · rw [hsz]
        unfold w32
        omega
    have hoff : round_up 8 (alignN elt) = .ok 8 := by
      rw [round_up_ok (alignN_pow2 hve) (by omega), roundUpT_eight hve]
    have hrun := stReadU32_run { s with cursor := roundUpT s.cursor 4 + 4 }
      (show 4 ≤ s.input.length from hlen4)
    have hcomm : loadLE m (loadLE m (roundUpT cS 4) 4 + 4) 4 * sizeN elt = sizeN elt * loadLE m (loadLE m (roundUpT cS 4) 4 + 4) 4 := Nat.mul_comm _ _
    have helts := recvRT_elts elt (loadLE m (loadLE m (roundUpT cS 4) 4 + 4) 4) m (loadLE m (loadLE m (roundUpT cS 4) 4) 4) outE
      ⟨outE ++ rest,
       storeLE (storeLE (storeLE s.mem (roundUpT s.cursor 4) 4 (roundUpT s.hp 8))
         (roundUpT s.hp 8 + 4) 4 (loadLE m (loadLE m (roundUpT cS 4) 4 + 4) 4)) (roundUpT s.hp 8) 4 (roundUpT s.hp 8 + 8),
       roundUpT s.hp 8 + 8,
       roundUpT s.hp 8 + (8 + sizeN elt * loadLE m (loadLE m (roundUpT cS 4) 4 + 4) 4),
       s.calls ++ [8 + sizeN elt * loadLE m (loadLE m (roundUpT cS 4) 4 + 4) 4]⟩
      rest cr hve hoke hnoarrE
      (show alignN elt ∣ roundUpT s.hp 8 + 8 from
        Dvd.dvd.add (dvd_trans hald8 hq8) hald8)
      h1 hconsN hA rfl
      (show roundUpT s.hp 8 + 8 + loadLE m (loadLE m (roundUpT cS 4) 4 + 4) 4 * sizeN elt
          ≤ roundUpT s.hp 8 + (8 + sizeN elt * loadLE m (loadLE m (roundUpT cS 4) 4 + 4) 4) by omega)
    obtain ⟨s3, hrun3, hinp3, hcr3, hhp3, hframe3, hre3⟩ := helts
    have hse_le : roundUpT s.hp 8 + (8 + sizeN elt * loadLE m (loadLE m (roundUpT cS 4) 4 + 4) 4) ≤ s3.hp := by
      rw [hhp3]
      exact hhp_cr
    refine ⟨{ s3 with cursor := roundUpT s.cursor 4 + 4 }, ?_, hinp3, hcr3, hhp3, rfl, ?_, ?_⟩
    · simp only [recv_value, hrun, bind_ok_law, Bind.bind, Except.bind, hval,
        alignment_eq elt hve, hoff, hesz, allocOne, halloc, hdrop, hrun3]
    · intro a0 hcw hhw
      have hcw2 : a0 < roundUpT s.cursor 4 ∨ roundUpT s.cursor 4 + 4 ≤ a0 := hcw
      have hhw2 : a0 < s.hp ∨ s3.hp ≤ a0 := hhw
      have hf3 := hframe3 a0
        (show a0 < roundUpT s.hp 8 + 8
            ∨ roundUpT s.hp 8 + 8 + loadLE m (loadLE m (roundUpT cS 4) 4 + 4) 4 * sizeN elt ≤ a0
          by omega)
        (show a0 < roundUpT s.hp 8 + (8 + sizeN elt * loadLE m (loadLE m (roundUpT cS 4) 4 + 4) 4) ∨ s3.hp ≤ a0 by omega)
      show s3.mem a0 = s.mem a0
      rw [hf3]
      show storeLE (storeLE (storeLE s.mem (roundUpT s.cursor 4) 4 (roundUpT s.hp 8))
        (roundUpT s.hp 8 + 4) 4 (loadLE m (loadLE m (roundUpT cS 4) 4 + 4) 4)) (roundUpT s.hp 8) 4 (roundUpT s.hp 8 + 8) a0 = s.mem a0
      rw [storeLE_frame _ (roundUpT s.hp 8) 4 _ a0 (by omega)]
      rw [storeLE_frame _ (roundUpT s.hp 8 + 4) 4 _ a0 (by omega)]
      exact storeLE_frame _ (roundUpT s.cursor 4) 4 _ a0 (by omega)
    · intro m2 hag
      have hagE : agreeOn m2
          ⟨outE ++ rest,
           storeLE (storeLE (storeLE s.mem (roundUpT s.cursor 4) 4 (roundUpT s.hp 8))
             (roundUpT s.hp 8 + 4) 4 (loadLE m (loadLE m (roundUpT cS 4) 4 + 4) 4)) (roundUpT s.hp 8) 4 (roundUpT s.hp 8 + 8),
           roundUpT s.hp 8 + 8,
           roundUpT s.hp 8 + (8 + sizeN elt * loadLE m (loadLE m (roundUpT cS 4) 4 + 4) 4),
           s.calls ++ [8 + sizeN elt * loadLE m (loadLE m (roundUpT cS 4) 4 + 4) 4]⟩ s3
          (roundUpT s.hp 8 + 8) (roundUpT s.hp 8 + 8 + loadLE m (loadLE m (roundUpT cS 4) 4 + 4) 4 * sizeN elt) := by
        intro a0 hcase
        apply hag a0
        rcases hcase with hcw | hhp
        · exact Or.inr ⟨by omega, show a0 < s3.hp by omega⟩
        · have hhp2 : roundUpT s.hp 8 + (8 + sizeN elt * loadLE m (loadLE m (roundUpT cS 4) 4 + 4) 4) ≤ a0 ∧ a0 < s3.hp := hhp
          exact Or.inr ⟨by omega, show a0 < s3.hp by omega⟩
      have hreE := hre3 m2 hagE
      have hreE2 : bodyElements m2 elt (loadLE m (loadLE m (roundUpT cS 4) 4 + 4) 4) (roundUpT s.hp 8 + 8) = .ok outE := hreE
      have hqlt : roundUpT s.hp 8 + 8 < 4294967296 := by omega
      have hmemP : ∀ i, i < 4 → m2 (roundUpT s.cursor 4 + i)
          = storeLE s.mem (roundUpT s.cursor 4) 4 (roundUpT s.hp 8) (roundUpT s.cursor 4 + i) := by
        intro i hi
        rw [hag (roundUpT s.cursor 4 + i)
          (Or.inl ⟨show roundUpT s.cursor 4 ≤ roundUpT s.cursor 4 + i by omega,
            show roundUpT s.cursor 4 + i < roundUpT s.cursor 4 + 4 by omega⟩)]
        show s3.mem (roundUpT s.cursor 4 + i)
          = storeLE s.mem (roundUpT s.cursor 4) 4 (roundUpT s.hp 8) (roundUpT s.cursor 4 + i)
        have hf3 := hframe3 (roundUpT s.cursor 4 + i)
          (Or.inl (show roundUpT s.cursor 4 + i < roundUpT s.hp 8 + 8 by omega))
          (show roundUpT s.cursor 4 + i < roundUpT s.hp 8 + (8 + sizeN elt * loadLE m (loadLE m (roundUpT cS 4) 4 + 4) 4)
              ∨ s3.hp ≤ roundUpT s.cursor 4 + i by omega)
        rw [hf3]
        show storeLE (storeLE (storeLE s.mem (roundUpT s.cursor 4) 4 (roundUpT s.hp 8))
          (roundUpT s.hp 8 + 4) 4 (loadLE m (loadLE m (roundUpT cS 4) 4 + 4) 4)) (roundUpT s.hp 8) 4 (roundUpT s.hp 8 + 8)
          (roundUpT s.cursor 4 + i) = _
        rw [storeLE_frame _ (roundUpT s.hp 8) 4 _ _ (by omega)]
        exact storeLE_frame _ (roundUpT s.hp 8 + 4) 4 _ _ (by omega)
      have hload_ptr : loadLE m2 (roundUpT s.cursor 4) 4 = roundUpT s.hp 8 := by
        have hcg : loadLE m2 (roundUpT s.cursor 4) 4
            = loadLE (storeLE s.mem (roundUpT s.cursor 4) 4 (roundUpT s.hp 8))
                (roundUpT s.cursor 4) 4 :=
          congrArg leVal (loadBytes_congr 4 _ m2 _ (fun i hi => hmemP i hi))
        rw [hcg, loadLE_storeLE, pow4_val]
        exact Nat.mod_eq_of_lt (by omega)
      have hmemH : ∀ i, i < 8 → m2 (roundUpT s.hp 8 + i)
          = storeLE (storeLE (storeLE s.mem (roundUpT s.cursor 4) 4 (roundUpT s.hp 8))
            (roundUpT s.hp 8 + 4) 4 (loadLE m (loadLE m (roundUpT cS 4) 4 + 4) 4)) (roundUpT s.hp 8) 4 (roundUpT s.hp 8 + 8)
            (roundUpT s.hp 8 + i) := by
        intro i hi
        rw [hag (roundUpT s.hp 8 + i)
          (Or.inr ⟨by omega, show roundUpT s.hp 8 + i < s3.hp by omega⟩)]
        exact hframe3 (roundUpT s.hp 8 + i)
          (Or.inl (show roundUpT s.hp 8 + i < roundUpT s.hp 8 + 8 by omega))
          (show roundUpT s.hp 8 + i < roundUpT s.hp 8 + (8 + sizeN elt * loadLE m (loadLE m (roundUpT cS 4) 4 + 4) 4)
              ∨ s3.hp ≤ roundUpT s.hp 8 + i by omega)
      have hload_dp : loadLE m2 (roundUpT s.hp 8) 4 = roundUpT s.hp 8 + 8 := by
        have hcg : loadLE m2 (roundUpT s.hp 8) 4
            = loadLE (storeLE (storeLE (storeLE s.mem (roundUpT s.cursor 4) 4 (roundUpT s.hp 8))
                (roundUpT s.hp 8 + 4) 4 (loadLE m (loadLE m (roundUpT cS 4) 4 + 4) 4)) (roundUpT s.hp 8) 4 (roundUpT s.hp 8 + 8))
                (roundUpT s.hp 8) 4 :=
          congrArg leVal (loadBytes_congr 4 _ m2 _ (fun i hi => hmemH i (by omega)))
        rw [hcg, loadLE_storeLE, pow4_val]
        exact Nat.mod_eq_of_lt (by omega)
      have hload_len : loadLE m2 (roundUpT s.hp 8 + 4) 4 = loadLE m (loadLE m (roundUpT cS 4) 4 + 4) 4 := by
        have hcg1 : loadBytes m2 (roundUpT s.hp 8 + 4) 4
            = loadBytes (storeLE (storeLE (storeLE s.mem (roundUpT s.cursor 4) 4 (roundUpT s.hp 8))
                (roundUpT s.hp 8 + 4) 4 (loadLE m (loadLE m (roundUpT cS 4) 4 + 4) 4)) (roundUpT s.hp 8) 4 (roundUpT s.hp 8 + 8))
                (roundUpT s.hp 8 + 4) 4 :=
          loadBytes_congr 4 _ m2 (roundUpT s.hp 8 + 4) (fun i hi => by
            rw [show roundUpT s.hp 8 + 4 + i = roundUpT s.hp 8 + (4 + i) by omega]
            exact hmemH (4 + i) (by omega))
        have hcg2 : loadBytes (storeLE (storeLE (storeLE s.mem (roundUpT s.cursor 4) 4 (roundUpT s.hp 8))
                (roundUpT s.hp 8 + 4) 4 (loadLE m (loadLE m (roundUpT cS 4) 4 + 4) 4)) (roundUpT s.hp 8) 4 (roundUpT s.hp 8 + 8))
                (roundUpT s.hp 8 + 4) 4
            = loadBytes (storeLE (storeLE s.mem (roundUpT s.cursor 4) 4 (roundUpT s.hp 8))
                (roundUpT s.hp 8 + 4) 4 (loadLE m (loadLE m (roundUpT cS 4) 4 + 4) 4)) (roundUpT s.hp 8 + 4) 4 :=
          loadBytes_congr 4 _ _ (roundUpT s.hp 8 + 4) (fun i hi =>
            storeLE_frame _ (roundUpT s.hp 8) 4 _ _ (Or.inr (by omega)))
        have hcg : loadLE m2 (roundUpT s.hp 8 + 4) 4
            = loadLE (storeLE (storeLE s.mem (roundUpT s.cursor 4) 4 (roundUpT s.hp 8))
                (roundUpT s.hp 8 + 4) 4 (loadLE m (loadLE m (roundUpT cS 4) 4 + 4) 4)) (roundUpT s.hp 8 + 4) 4 :=
          congrArg leVal (hcg1.trans hcg2)
        rw [hcg, loadLE_storeLE, pow4_val]
        exact Nat.mod_eq_of_lt hlenlt
      show bodyStream m2 (.list elt) s.cursor
        = .ok (roundUpT s.cursor 4 + 4, writeU32 (loadLE m (loadLE m (roundUpT cS 4) 4 + 4) 4) ++ outE)
      simp only [bodyStream, hload_ptr, hload_len, hload_dp, hreE2, bind_ok_law,
        Bind.bind, Except.bind]
  | .array elt nd, m, cS, cE, bs, s, rest, cr, hv, hok, hnoarr, hna, henc, hcons, hA, hin, hheap => by
    simp [noArray] at hnoarr
  | .range elt, m, cS, cE, bs, s, rest, cr, hv, hok, hnoarr, hna, henc, hcons, hA, hin, hheap => by
    have hve : validT elt = true := by simpa [validT] using hv
    have hoke : alignOkT elt = true := hok
    have hnoarrE : noArray elt = true := by simpa [noArray] using hnoarr
    have halpos := alignN_pos hve
    have hal8 := alignN_le8 hve
    have hdadv := alignN_dvd_advN elt hve
    have hadvsz := advN_le_sizeN elt hve
    unfold bodyStream at henc
    obtain ⟨r1, h1, h2⟩ := bind_eq_ok henc
    obtain ⟨r2, h3, h4⟩ := bind_eq_ok h2
    obtain ⟨r3, h5, h6⟩ := bind_eq_ok h4
    simp only [Except.ok.injEq, Prod.mk.injEq] at h6
    have hbs : bs = r1.2 ++ r2.2 ++ r3.2 := h6.2.symm
    subst hbs
    unfold consume at hcons
    obtain ⟨rc1, hc1, hc2x⟩ := obind_eq_some hcons
    obtain ⟨rc2, hc3, hc4⟩ := obind_eq_some hc2x
    have hheap2 : roundUpT s.cursor (alignN elt) + sizeN elt * 3 ≤ s.hp := hheap
    have hpd : alignN elt ∣ roundUpT s.cursor (alignN elt) := dvd_roundUpT _ _
    have hin1 : s.input = r1.2 ++ (r2.2 ++ (r3.2 ++ rest)) := by
      rw [hin]
      simp [List.append_assoc]
    have hm2a := consume_mono elt rc1.1 rc1.2 rc2 hc3
    have hm3a := consume_mono elt rc2.1 rc2.2 cr hc4
    have hA1 : rc1.2 + 8 ≤ 4294967296 := by omega
    have hA2 : rc2.2 + 8 ≤ 4294967296 := by omega
    have hchild1 := recvRT elt m cS r1.1 r1.2
      { s with cursor := roundUpT s.cursor (alignN elt) } (r2.2 ++ (r3.2 ++ rest)) rc1
      hve hoke hnoarrE
      (fun _ => show alignN elt ∣ roundUpT s.cursor (alignN elt) from hpd)
      (show bodyStream m elt cS = .ok (r1.1, r1.2) from h1)
      hc1 hA1
      (show s.input = r1.2 ++ (r2.2 ++ (r3.2 ++ rest)) from hin1)
      (show roundUpT (roundUpT s.cursor (alignN elt)) (alignN elt) + sizeN elt ≤ s.hp from by
        rw [roundUpT_eq_self halpos hpd]
        omega)
    obtain ⟨s1, hrun1, hinp1, hcr1, hhp1, hcur1, hframe1, hre1⟩ := hchild1
    have hp1 : roundUpT (roundUpT s.cursor (alignN elt)) (alignN elt)
        = roundUpT s.cursor (alignN elt) := roundUpT_eq_self halpos hpd
    have hcur1b : s1.cursor = roundUpT s.cursor (alignN elt) + advN elt := by
      have hx : s1.cursor = roundUpT (roundUpT s.cursor (alignN elt)) (alignN elt) + advN elt := hcur1
      rw [hx, hp1]
    have hdvd1 : alignN elt ∣ s1.cursor := by
      rw [hcur1b]
      exact Dvd.dvd.add hpd hdadv
    have hp2 : roundUpT s1.cursor (alignN elt) = s1.cursor := roundUpT_eq_self halpos hdvd1
    have hs1ge : s.hp ≤ s1.hp := by
      rw [hhp1]
      exact consume_mono elt s.input s.hp rc1 hc1
    have hcons2 : consume elt s1.input s1.hp = Option.some rc2 := by
      rw [hinp1, hhp1, ← hcr1]
      exact hc3
    have hchild2 := recvRT elt m r1.1 r2.1 r2.2 s1 (r3.2 ++ rest) rc2 hve hoke hnoarrE
      (fun _ => hdvd1)
      (show bodyStream m elt r1.1 = .ok (r2.1, r2.2) from h3)
      hcons2 hA2 (by rw [hinp1])
      (show roundUpT s1.cursor (alignN elt) + sizeN elt ≤ s1.hp from by
        rw [hp2, hcur1b]
        omega)
    obtain ⟨s2x, hrun2, hinp2, hcr2, hhp2, hcur2, hframe2, hre2⟩ := hchild2
    have hcur2b : s2x.cursor = roundUpT s.cursor (alignN elt) + advN elt + advN elt := by
      rw [hcur2, hp2, hcur1b]
    have hdvd2 : alignN elt ∣ s2x.cursor := by
      rw [hcur2b]
      exact Dvd.dvd.add (Dvd.dvd.add hpd hdadv) hdadv
    have hp3 : roundUpT s2x.cursor (alignN elt) = s2x.cursor := roundUpT_eq_self halpos hdvd2
    have hs2ge : s1.hp ≤ s2x.hp := by
      rw [hhp2, hhp1]
      exact consume_mono elt rc1.1 rc1.2 rc2 hc3
    have hcons3 : consume elt s2x.input s2x.hp = Option.some cr := by
      rw [hinp2, hhp2, ← hcr2]
      exact hc4
    have hchild3 := recvRT elt m r2.1 r3.1 r3.2 s2x rest cr hve hoke hnoarrE
      (fun _ => hdvd2)
      (show bodyStream m elt r2.1 = .ok (r3.1, r3.2) from h5)
      hcons3 hA (by rw [hinp2])
      (show roundUpT s2x.cursor (alignN elt) + sizeN elt ≤ s2x.hp from by
        rw [hp3, hcur2b]
        omega)
    obtain ⟨s3, hrun3, hinp3, hcr3, hhp3, hcur3, hframe3, hre3⟩ := hchild3
    have hcur3b : s3.cursor
        = roundUpT s.cursor (alignN elt) + advN elt + advN elt + advN elt := by
      rw [hcur3, hp3, hcur2b]
    have hs3ge : s2x.hp ≤ s3.hp := by
      rw [hhp3, hhp2]
      exact consume_mono elt rc2.1 rc2.2 cr hc4
    have hscr : s.hp ≤ cr.2 := by
      have h0 := consume_mono elt s.input s.hp rc1 hc1
      omega
    refine ⟨s3, ?_, hinp3, hcr3, hhp3, ?_, ?_, ?_⟩
    · simp only [recv_value, alignment_eq _ hv, alignN, bind_ok_law]
      rw [show round_up s.cursor (alignN elt) = .ok (roundUpT s.cursor (alignN elt)) from
        round_up_ok (alignN_pow2 hve) (by
          have hle := le_roundUpT s.cursor halpos
          omega), bind_ok_law, hrun1, bind_ok_law, hrun2, bind_ok_law]
      exact hrun3
    · show s3.cursor = roundUpT s.cursor (alignN elt) + advN elt * 3
      rw [hcur3b]
      omega
    · intro a0 hcw hhw
      have hcw2 : a0 < roundUpT s.cursor (alignN elt)
          ∨ roundUpT s.cursor (alignN elt) + advN elt * 3 ≤ a0 := hcw
      have hhw2 : a0 < s.hp ∨ s3.hp ≤ a0 := hhw
      have hf3 := hframe3 a0 (by rw [hp3, hcur2b]; omega) (by omega)
      rw [hf3]
      have hf2 := hframe2 a0 (by rw [hp2, hcur1b]; omega) (by omega)
      rw [hf2]
      exact hframe1 a0
        (show a0 < roundUpT (roundUpT s.cursor (alignN elt)) (alignN elt)
            ∨ roundUpT (roundUpT s.cursor (alignN elt)) (alignN elt) + advN elt ≤ a0 from by
          rw [hp1]
          omega)
        (show a0 < s.hp ∨ s1.hp ≤ a0 from by omega)
    · intro m2 hag
      have hag3 : agreeOn m2 s2x s3 (roundUpT s2x.cursor (alignN elt))
          (roundUpT s2x.cursor (alignN elt) + advN elt) := by
        intro a0 hcase
        rw [hp3, hcur2b] at hcase
        apply hag a0
        rcases hcase with hcwX | hhpX
        · exact Or.inl ⟨show roundUpT s.cursor (alignN elt) ≤ a0 from by omega,
            show a0 < roundUpT s.cursor (alignN elt) + advN elt * 3 from by omega⟩
        · exact Or.inr ⟨show s.hp ≤ a0 from by omega, show a0 < s3.hp from hhpX.2⟩
      have hre3b := hre3 m2 hag3
      rw [hp3, hcur2b] at hre3b
      have hag2 : agreeOn m2 s1 s2x (roundUpT s1.cursor (alignN elt))
          (roundUpT s1.cursor (alignN elt) + advN elt) := by
        intro a0 hcase
        rw [hp2, hcur1b] at hcase
        have hbig : m2 a0 = s3.mem a0 := hag a0 (by
          rcases hcase with hcwX | hhpX
          · exact Or.inl ⟨show roundUpT s.cursor (alignN elt) ≤ a0 from by omega,
              show a0 < roundUpT s.cursor (alignN elt) + advN elt * 3 from by omega⟩
          · exact Or.inr ⟨show s.hp ≤ a0 from by omega, show a0 < s3.hp from by omega⟩)
        rw [hbig]
        rcases hcase with hcwX | hhpX
        · exact hframe3 a0 (by rw [hp3, hcur2b]; omega) (by omega)
        · exact hframe3 a0 (by rw [hp3, hcur2b]; omega) (by omega)
      have hre2b := hre2 m2 hag2
      rw [hp2, hcur1b] at hre2b
      have hag1 : agreeOn m2 { s with cursor := roundUpT s.cursor (alignN elt) } s1
          (roundUpT (roundUpT s.cursor (alignN elt)) (alignN elt))
          (roundUpT (roundUpT s.cursor (alignN elt)) (alignN elt) + advN elt) := by
        intro a0 hcase
        rw [hp1] at hcase
        have hcase2 : (roundUpT s.cursor (alignN elt) ≤ a0
              ∧ a0 < roundUpT s.cursor (alignN elt) + advN elt)
            ∨ (s.hp ≤ a0 ∧ a0 < s1.hp) := hcase
        have hbig : m2 a0 = s3.mem a0 := hag a0 (by
          rcases hcase2 with hcwX | hhpX
          · exact Or.inl ⟨show roundUpT s.cursor (alignN elt) ≤ a0 from by omega,
              show a0 < roundUpT s.cursor (alignN elt) + advN elt * 3 from by omega⟩
          · exact Or.inr ⟨show s.hp ≤ a0 from by omega, show a0 < s3.hp from by omega⟩)
        rw [hbig]
        rcases hcase2 with hcwX | hhpX
        · have hf3x := hframe3 a0 (by rw [hp3, hcur2b]; omega) (by omega)
          rw [hf3x]
          exact hframe2 a0 (by rw [hp2, hcur1b]; omega) (by omega)
        · have hf3x := hframe3 a0 (by rw [hp3, hcur2b]; omega) (by omega)
          rw [hf3x]
          exact hframe2 a0 (by rw [hp2, hcur1b]; omega) (by omega)
      have hre1b := hre1 m2 hag1
      have hre1c : bodyStream m2 elt (roundUpT s.cursor (alignN elt))
          = .ok (roundUpT (roundUpT s.cursor (alignN elt)) (alignN elt) + advN elt, r1.2) := hre1b
      rw [hp1] at hre1c
      have hshim := bodyStream_align elt m2 s.cursor hve (fun h => hna h)
      have hre1d : bodyStream m2 elt s.cursor
          = .ok (roundUpT s.cursor (alignN elt) + advN elt, r1.2) := by
        rw [← hshim]
        exact hre1c
      show bodyStream m2 (.range elt) s.cursor
        = .ok (roundUpT s.cursor (alignN elt) + advN elt * 3, r1.2 ++ r2.2 ++ r3.2)
      rw [show roundUpT s.cursor (alignN elt) + advN elt * 3
          = roundUpT s.cursor (alignN elt) + advN elt + advN elt + advN elt from by omega]
      simp only [bodyStream, hre1d, hre2b, hre3b, bind_ok_law, Bind.bind, Except.bind]
  | .keyword e, m, cS, cE, bs, s, rest, cr, hv, hok, hnoarr, hna, henc, hcons, hA, hin, hheap => by
    simp [validT] at hv
  | .object, m, cS, cE, bs, s, rest, cr, hv, hok, hnoarr, hna, henc, hcons, hA, hin, hheap => by
    simp [validT] at hv

/-- Per-field decode correctness for tuples (claim C1): the children's
streams concatenate, the running cursor offset is `advLoop`, and the
decoded fields re-encode through `bodyTuple` with the alignment fold
`Nat.max mAl (alMax ts)`. -/
theorem recvRT_tuple : ∀ (ts : List RTag) (m : Mem) (cS : Nat) (rS : Nat × List Nat × Nat)
    (d a : Nat) (s : RecvSt) (rest : List Nat) (cr : List Nat × Nat),
    validL ts = true → alignOkFields ts a = true → noArrayL ts = true →
    (∀ u ∈ ts, alignN u ∣ d) →
    ∀ mAlS : Nat, bodyTuple m ts cS mAlS = .ok rS →
    consumeL ts s.input s.hp = Option.some cr →
    cr.2 + 8 ≤ 4294967296 →
    s.cursor = d + a →
    s.input = rS.2.1 ++ rest →
    d + szLoop ts a ≤ s.hp →
    ∃ s2, recv_tuple ts s = .ok s2
      ∧ s2.input = rest ∧ cr.1 = rest ∧ s2.hp = cr.2
      ∧ s2.cursor = d + advLoop ts a
      ∧ frameOn s s2 (d + a) (d + advLoop ts a)
      ∧ ∀ m2 : Mem, agreeOn m2 s s2 (d + a) (d + advLoop ts a) →
          ∀ mAl2 : Nat, bodyTuple m2 ts s.cursor mAl2
            = .ok (d + advLoop ts a, rS.2.1, Nat.max mAl2 (alMax ts))
  | [], m, cS, rS, d, a, s, rest, cr, hv, hok, hnoarr, hdvd, mAlS, hencT, hcons, hA, hcur, hin, hheap => by
    unfold bodyTuple at hencT
    simp only [Except.ok.injEq] at hencT
    unfold consumeL at hcons
    simp only [Option.some.injEq] at hcons
    have hrest : s.input = rest := by
      rw [hin, ← hencT]
      rfl
    refine ⟨s, ?_, hrest, ?_, ?_, ?_, fun a0 _ _ => rfl, ?_⟩
    · unfold recv_tuple
      rfl
    · rw [← hcons]
      exact hrest
    · rw [← hcons]
    · show s.cursor = d + a
      exact hcur
    · intro m2 _ mAl2
      show bodyTuple m2 [] s.cursor mAl2 = .ok (d + a, rS.2.1, Nat.max mAl2 (alMax []))
      unfold bodyTuple
      rw [hcur, ← hencT]
      show Except.ok (d + a, ([] : List Nat), mAl2) = .ok (d + a, [], max mAl2 0)
      rw [Nat.max_zero]
  | t :: ts2, m, cS, rS, d, a, s, rest, cr, hv, hok, hnoarr, hdvd, mAlS, hencT, hcons, hA, hcur, hin, hheap => by
    have hv2 : validT t = true ∧ validL ts2 = true := by
      simpa [validL, Bool.and_eq_true] using hv
    have hdt : alignN t ∣ d := hdvd t (by simp)
    have halpos := alignN_pos hv2.1
    have hokparts : (!needsAlign t || decide (alignN t ∣ a)) = true ∧ alignOkT t = true ∧
        alignOkFields ts2 (roundUpT a (alignN t) + advN t) = true := by
      have hx : alignOkFields (t :: ts2) a
          = ((!needsAlign t || decide (alignN t ∣ a)) && alignOkT t
            && alignOkFields ts2 (roundUpT a (alignN t) + advN t)) := rfl
      rw [hx] at hok
      simp only [Bool.and_eq_true] at hok
      exact ⟨hok.1.1, hok.1.2, hok.2⟩
    unfold bodyTuple at hencT
    rw [alignment_eq t hv2.1, bind_ok_law] at hencT
    obtain ⟨r1, h1, h2⟩ := bind_eq_ok hencT
    obtain ⟨r2, h3, h4⟩ := bind_eq_ok h2
    simp only [Except.ok.injEq] at h4
    unfold consumeL at hcons
    obtain ⟨rc1, hc1, hc2⟩ := obind_eq_some hcons
    have hrnd : roundUpT s.cursor (alignN t) = d + roundUpT a (alignN t) := by
      rw [hcur]
      exact roundUpT_add_left a halpos hdt
    have hszle : roundUpT a (alignN t) + sizeN t ≤ szLoop (t :: ts2) a := szLoop_le hv2.2 _
    have hin1 : s.input = r1.2 ++ (r2.2.1 ++ rest) := by
      rw [hin, ← h4]
      show (r2.1, r1.2 ++ r2.2.1, r2.2.2).2.1 ++ rest = r1.2 ++ (r2.2.1 ++ rest)
      rw [List.append_assoc]
    have hAc : rc1.2 + 8 ≤ 4294967296 := by
      have h0 := consumeL_mono ts2 rc1.1 rc1.2 cr hc2
      omega
    have hnoarr2 : noArray t = true ∧ noArrayL ts2 = true := by
      simpa [noArrayL, Bool.and_eq_true] using hnoarr
    have hchild := recvRT t m cS r1.1 r1.2 s (r2.2.1 ++ rest) rc1 hv2.1 hokparts.2.1 hnoarr2.1
      (fun hn => by
        rw [hcur]
        have hda : alignN t ∣ a := by
          have hx := hokparts.1
          rw [hn] at hx
          simpa using hx
        exact Dvd.dvd.add hdt hda)
      (show bodyStream m t cS = .ok (r1.1, r1.2) from h1)
      hc1 hAc hin1
      (by rw [hrnd]; omega)
    obtain ⟨s1, hrun1, hinp1, hcr1a, hhp1, hcur1, hframe1, hre1⟩ := hchild
    have hcur1b : s1.cursor = d + (roundUpT a (alignN t) + advN t) := by
      rw [hcur1, hrnd]
      omega
    have hadv_le : advN t ≤ sizeN t := advN_le_sizeN t hv2.1
    have hs1ge : s.hp ≤ s1.hp := by
      rw [hhp1]
      exact consume_mono t s.input s.hp rc1 hc1
    have hheap1 : d + szLoop ts2 (roundUpT a (alignN t) + advN t) ≤ s1.hp := by
      have hmono := szLoop_mono hv2.2
        (show roundUpT a (alignN t) + advN t ≤ roundUpT a (alignN t) + sizeN t by omega)
      have hco : szLoop ts2 (roundUpT a (alignN t) + sizeN t) = szLoop (t :: ts2) a := rfl
      omega
    have hcons2 : consumeL ts2 s1.input s1.hp = Option.some cr := by
      rw [hinp1, hhp1, ← hcr1a]
      exact hc2
    have hrec := recvRT_tuple ts2 m r1.1 r2 d (roundUpT a (alignN t) + advN t) s1 rest cr
      hv2.2 hokparts.2.2 hnoarr2.2 (fun u hu => hdvd u (by simp [hu]))
      (Nat.max mAlS (alignN t)) h3 hcons2 hA hcur1b (by rw [hinp1]) hheap1
    obtain ⟨s2, hrun2, hinp2, hcr2a, hhp2, hcur2, hframe2, hre2⟩ := hrec
    have hs2ge : s1.hp ≤ s2.hp := by
      rw [hhp2, hhp1]
      exact consumeL_mono ts2 rc1.1 rc1.2 cr hc2
    have hge1 : a ≤ roundUpT a (alignN t) := le_roundUpT a halpos
    have hge2 : roundUpT a (alignN t) + advN t ≤ advLoop (t :: ts2) a :=
      advLoop_ge ts2 hv2.2 (roundUpT a (alignN t) + advN t)
    have hLL : advLoop (t :: ts2) a = advLoop ts2 (roundUpT a (alignN t) + advN t) := rfl
    have hLS : advLoop (t :: ts2) a ≤ szLoop (t :: ts2) a :=
      advLoop_le_szLoop (t :: ts2) hv (Nat.le_refl a)
    refine ⟨s2, ?_, hinp2, hcr2a, hhp2, ?_, ?_, ?_⟩
    · simp only [recv_tuple, hrun1, bind_ok_law, Bind.bind, Except.bind]
      exact hrun2
    · rw [hcur2, hLL]
    · intro a0 hcw hhw
      have hcw2 : a0 < d + a ∨ d + advLoop (t :: ts2) a ≤ a0 := hcw
      have hhw2 : a0 < s.hp ∨ s2.hp ≤ a0 := hhw
      have hf2 := hframe2 a0 (by omega) (by omega)
      rw [hf2]
      exact hframe1 a0 (by rw [hrnd]; omega) (by omega)
    · intro m2 hag mAl2
      have hchwin_hp : roundUpT s.cursor (alignN t) + advN t ≤ s.hp := by
        rw [hrnd]
        omega
      have hagc : agreeOn m2 s s1 (roundUpT s.cursor (alignN t))
          (roundUpT s.cursor (alignN t) + advN t) := by
        intro a0 hcase
        rw [hrnd] at hcase
        have hbig : m2 a0 = s2.mem a0 := hag a0 (by
          rcases hcase with hcwX | hhpX
          · exact Or.inl ⟨by omega, by omega⟩
          · exact Or.inr ⟨by omega, by omega⟩)
        rw [hbig]
        rcases hcase with hcwX | hhpX
        · exact hframe2 a0 (by omega) (by omega)
        · exact hframe2 a0 (by omega) (by omega)
      have hreC := hre1 m2 hagc
      have hagr : agreeOn m2 s1 s2 (d + (roundUpT a (alignN t) + advN t))
          (d + advLoop ts2 (roundUpT a (alignN t) + advN t)) := by
        intro a0 hcase
        apply hag a0
        rcases hcase with hcwX | hhpX
        · exact Or.inl ⟨by omega, by omega⟩
        · exact Or.inr ⟨by omega, by omega⟩
      have hreR := hre2 m2 hagr (Nat.max mAl2 (alignN t))
      show bodyTuple m2 (t :: ts2) s.cursor mAl2
        = .ok (d + advLoop (t :: ts2) a, rS.2.1, Nat.max mAl2 (alMax (t :: ts2)))
      have hreC2 : bodyStream m2 t s.cursor
          = .ok (d + (roundUpT a (alignN t) + advN t), r1.2) := by
        rw [hreC, hrnd]
        show Except.ok (d + roundUpT a (alignN t) + advN t, r1.2) = _
        rw [show d + roundUpT a (alignN t) + advN t
          = d + (roundUpT a (alignN t) + advN t) from by omega]
      have hreR2 : bodyTuple m2 ts2 (d + (roundUpT a (alignN t) + advN t))
          (Nat.max mAl2 (alignN t))
          = .ok (d + advLoop ts2 (roundUpT a (alignN t) + advN t), r2.2.1,
              Nat.max (Nat.max mAl2 (alignN t)) (alMax ts2)) := by
        rw [← hcur1b]
        exact hreR
      simp only [bodyTuple, alignment_eq t hv2.1, bind_ok_law, hreC2, hreR2,
        Bind.bind, Except.bind]
      rw [← h4]
      have hmx : Nat.max (Nat.max mAl2 (alignN t)) (alMax ts2)
          = Nat.max mAl2 (Nat.max (alignN t) (alMax ts2)) := Nat.max_assoc _ _ _
      rw [hmx]
      rfl

/-- Element-fill decode correctness (claim C1): `recv_elements` consumes the
elements' concatenated streams into the aligned storage and the storage
re-encodes through `bodyElements`. -/
theorem recvRT_elts : ∀ (t : RTag) (n : Nat) (m : Mem) (dpS : Nat) (out : List Nat)
    (s : RecvSt) (rest : List Nat) (cr : List Nat × Nat),
    validT t = true → alignOkT t = true → noArray t = true →
    alignN t ∣ s.cursor →
    bodyElements m t n dpS = .ok out →
    consumeN t n s.input s.hp = Option.some cr →
    cr.2 + 8 ≤ 4294967296 →
    s.input = out ++ rest →
    s.cursor + n * sizeN t ≤ s.hp →
    ∃ s2, recv_elements t n s = .ok s2
      ∧ s2.input = rest ∧ cr.1 = rest ∧ s2.hp = cr.2
      ∧ frameOn s s2 s.cursor (s.cursor + n * sizeN t)
      ∧ ∀ m2 : Mem, agreeOn m2 s s2 s.cursor (s.cursor + n * sizeN t) →
          bodyElements m2 t n s.cursor = .ok out
  | t, n, m, dpS, out, s, rest, cr, hv, hok, hnoarr, hdvd, hencE, hcons, hA, hin, hheap => by
    cases hsw : scalarWidth t with
    | some k =>
      obtain ⟨hk1, hk2, hk3⟩ := scalarWidth_facts t k hsw
      simp only [bodyElements, hsw] at hencE
      simp only [Except.ok.injEq] at hencE
      simp only [consumeN, hsw] at hcons
      have hlenout : out.length = n * k := by
        rw [← hencE]
        exact loadBytes_length _ _ _
      have hms : n * sizeN t = n * k := by rw [hk1]
      have hlen : n * k ≤ s.input.length := by
        rw [hin, List.length_append, hlenout]
        omega
      rw [if_pos hlen] at hcons
      simp only [Option.some.injEq] at hcons
      have hltout : ∀ b ∈ out, b < 256 := by
        intro b hb
        rw [← hencE] at hb
        exact loadBytes_lt _ m dpS b hb
      have hread : readExact s.input (n * k) = .ok (out, rest) := by
        rw [hin, ← hlenout, readExact_append]
      refine ⟨⟨rest, storeBytes s.mem s.cursor out, s.cursor, s.hp, s.calls⟩,
        ?_, rfl, ?_, ?_, ?_, ?_⟩
      · simp only [recv_elements, hsw, hread, bind_ok_law, Bind.bind, Except.bind]
      · rw [← hcons]
        show s.input.drop (n * k) = rest
        rw [hin, ← hlenout, drop_app_len]
      · rw [← hcons]
      · intro a0 hcw hhw
        show storeBytes s.mem s.cursor out a0 = s.mem a0
        have hcw2 : a0 < s.cursor ∨ s.cursor + n * sizeN t ≤ a0 := hcw
        exact storeBytes_frame out s.mem s.cursor a0 (by rw [hlenout]; omega)
      · intro m2 hag
        simp only [bodyElements, hsw]
        have hcg : loadBytes m2 s.cursor (n * k)
            = loadBytes (storeBytes s.mem s.cursor out) s.cursor (n * k) :=
          loadBytes_congr _ _ _ _ (fun i hi => hag (s.cursor + i)
            (Or.inl ⟨by omega, by omega⟩))
        rw [hcg, ← hlenout, loadBytes_storeBytes out s.mem s.cursor hltout]
    | none =>
      simp only [bodyElements, hsw] at hencE
      simp only [consumeN, hsw] at hcons
      obtain ⟨s2, hrun2, hinp2, hcr2, hhp2, hcur2, hframe2, hre2⟩ :=
        recvRT_eltsLoop t n m dpS out s rest cr hv hok hnoarr hdvd hencE hcons hA hin hheap
      refine ⟨s2, ?_, hinp2, hcr2, hhp2, hframe2, ?_⟩
      · simp only [recv_elements, hsw]
        exact hrun2
      · intro m2 hag
        simp only [bodyElements, hsw]
        exact hre2 m2 hag

/-- The per-element loop of `recvRT_elts`. -/
theorem recvRT_eltsLoop : ∀ (t : RTag) (n : Nat) (m : Mem) (dpS : Nat) (out : List Nat)
    (s : RecvSt) (rest : List Nat) (cr : List Nat × Nat),
    validT t = true → alignOkT t = true → noArray t = true →
    alignN t ∣ s.cursor →
    bodyEltsLoop m t n dpS = .ok out →
    consumeNL t n s.input s.hp = Option.some cr →
    cr.2 + 8 ≤ 4294967296 →
    s.input = out ++ rest →
    s.cursor + n * sizeN t ≤ s.hp →
    ∃ s2, recvEltsLoop t n s = .ok s2
      ∧ s2.input = rest ∧ cr.1 = rest ∧ s2.hp = cr.2
      ∧ s2.cursor = s.cursor + n * advN t
      ∧ frameOn s s2 s.cursor (s.cursor + n * sizeN t)
      ∧ ∀ m2 : Mem, agreeOn m2 s s2 s.cursor (s.cursor + n * sizeN t) →
          bodyEltsLoop m2 t n s.cursor = .ok out
  | t, 0, m, dpS, out, s, rest, cr, hv, hok, hnoarr, hdvd, hencE, hcons, hA, hin, hheap => by
    simp only [bodyEltsLoop] at hencE
    simp only [Except.ok.injEq] at hencE
    simp only [consumeNL, Option.some.injEq] at hcons
    have hrest : s.input = rest := by
      rw [hin, ← hencE]
      rfl
    refine ⟨s, ?_, hrest, ?_, ?_, ?_, fun a0 _ _ => rfl, ?_⟩
    · simp only [recvEltsLoop]
    · rw [← hcons]
      exact hrest
    · rw [← hcons]
    · show s.cursor = s.cursor + 0 * advN t
      omega
    · intro m2 _
      simp only [bodyEltsLoop]
      rw [← hencE]
  | t, n + 1, m, dpS, out, s, rest, cr, hv, hok, hnoarr, hdvd, hencE, hcons, hA, hin, hheap => by
    simp only [bodyEltsLoop] at hencE
    obtain ⟨r1, h1, h2⟩ := bind_eq_ok hencE
    obtain ⟨outR, h3, h4⟩ := bind_eq_ok h2
    simp only [Except.ok.injEq] at h4
    simp only [consumeNL] at hcons
    obtain ⟨rc1, hc1, hc2⟩ := obind_eq_some hcons
    have hin1 : s.input = r1.2 ++ (outR ++ rest) := by
      rw [hin, ← h4, List.append_assoc]
    have hAc : rc1.2 + 8 ≤ 4294967296 := by
      have h0 := consumeNL_mono t n rc1.1 rc1.2 cr hc2
      omega
    have hcurR : roundUpT s.cursor (alignN t) = s.cursor :=
      roundUpT_eq_self (alignN_pos hv) hdvd
    have hadvsz := advN_le_sizeN t hv
    have hmulS : (n + 1) * sizeN t = n * sizeN t + sizeN t := Nat.succ_mul _ _
    have hmulA : (n + 1) * advN t = n * advN t + advN t := Nat.succ_mul _ _
    have hchild := recvRT t m dpS r1.1 r1.2 s (outR ++ rest) rc1 hv hok hnoarr
      (fun _ => hdvd) (show bodyStream m t dpS = .ok (r1.1, r1.2) from h1) hc1 hAc hin1
      (by rw [hcurR]; omega)
    obtain ⟨s1, hrun1, hinp1, hcr1, hhp1, hcur1, hframe1, hre1⟩ := hchild
    have hcur1b : s1.cursor = s.cursor + advN t := by
      rw [hcur1, hcurR]
    have hdvd1 : alignN t ∣ s1.cursor := by
      rw [hcur1b]
      exact Dvd.dvd.add hdvd (alignN_dvd_advN t hv)
    have hs1ge : s.hp ≤ s1.hp := by
      rw [hhp1]
      exact consume_mono t s.input s.hp rc1 hc1
    have hheap1 : s1.cursor + n * sizeN t ≤ s1.hp := by
      rw [hcur1b]
      omega
    have hcons2 : consumeNL t n s1.input s1.hp = Option.some cr := by
      rw [hinp1, hhp1, ← hcr1]
      exact hc2
    have hrec := recvRT_eltsLoop t n m r1.1 outR s1 rest cr hv hok hnoarr hdvd1 h3 hcons2 hA
      (by rw [hinp1]) hheap1
    obtain ⟨s2, hrun2, hinp2, hcr2, hhp2, hcur2, hframe2, hre2⟩ := hrec
    have hs2ge : s1.hp ≤ s2.hp := by
      rw [hhp2, hhp1]
      exact consumeNL_mono t n rc1.1 rc1.2 cr hc2
    refine ⟨s2, ?_, hinp2, hcr2, hhp2, ?_, ?_, ?_⟩
    · simp only [recvEltsLoop, hrun1, bind_ok_law, Bind.bind, Except.bind]
      exact hrun2
    · rw [hcur2, hcur1b]
      omega
    · intro a0 hcw hhw
      have hcw2 : a0 < s.cursor ∨ s.cursor + (n + 1) * sizeN t ≤ a0 := hcw
      have hhw2 : a0 < s.hp ∨ s2.hp ≤ a0 := hhw
      have hf2 := hframe2 a0 (by rw [hcur1b]; omega) (by omega)
      rw [hf2]
      exact hframe1 a0 (by rw [hcurR]; omega) (by omega)
    · intro m2 hag
      have hag1 : agreeOn m2 s s1 (roundUpT s.cursor (alignN t))
          (roundUpT s.cursor (alignN t) + advN t) := by
        intro a0 hcase
        rw [hcurR] at hcase
        have hbig : m2 a0 = s2.mem a0 := hag a0 (by
          rcases hcase with hcwX | hhpX
          · exact Or.inl ⟨by omega, by omega⟩
          · exact Or.inr ⟨by omega, by omega⟩)
        rw [hbig]
        rcases hcase with hcwX | hhpX
        · exact hframe2 a0 (by omega) (by omega)
        · exact hframe2 a0 (by omega) (by omega)
      have hre1b := hre1 m2 hag1
      rw [hcurR] at hre1b
      have hag2 : agreeOn m2 s1 s2 s1.cursor (s1.cursor + n * sizeN t) := by
        intro a0 hcase
        rw [hcur1b] at hcase
        apply hag a0
        rcases hcase with hcwX | hhpX
        · exact Or.inl ⟨by omega, by omega⟩
        · exact Or.inr ⟨by omega, by omega⟩
      have hre2b := hre2 m2 hag2
      rw [hcur1b] at hre2b
      simp only [bodyEltsLoop, hre1b, hre2b, bind_ok_law, Bind.bind, Except.bind]
      rw [h4]

end

/-- The literal claim fails: `send_value` frames the stream with a leading
tag byte that `recv_value` (driven by an already-parsed tag) never
consumes.  Sending `Int32` value 7 produces `[105, 0, 0, 0, 7]` (tag byte
`'i' = 105` then the big-endian body); decoding that stream as `Int32`
leaves the byte `[7]` unconsumed and stores `105·2^24 = 1761607680 ≠ 7`
in the fresh buffer. -/
theorem C1_counterexample :
    send_value (storeLE (fun _ => 0) 0 4 7) .int32 0 = .ok (4, [105, 0, 0, 0, 7])
    ∧ (recv_value .int32 ⟨[105, 0, 0, 0, 7], fun _ => 0, 0, 64, []⟩).map
        (fun s2 => (s2.input, loadLE s2.mem 0 4))
      = .ok ([7], 1761607680)
    ∧ (1761607680 : Nat) ≠ 7 := by
  refine ⟨?_, ?_, by decide⟩
  · simp [send_value, send_body, loadLE, loadBytes, byteAt, storeLE, storeBytes,
      store1, leBytes, leVal, writeU32, beBytes, roundUpT, RTag.as_u8,
      Bind.bind, Except.bind]
  · simp [recv_value, stReadU32, readExact, beVal, storeLE, storeBytes, store1,
      leBytes, loadLE, loadBytes, byteAt, leVal, roundUpT, round_up,
      isPowerOfTwo, w32, Except.map, Bind.bind, Except.bind,
      show (4 &&& 3 : Nat) = 0 from rfl]

/-- **C1** (amended): round trip holds for the de-framed byte stream, for
array-free tags.  For every valid tag that contains no `Array` (the array
receive path decodes each element as another array — rpc_proto.rs line
173, claims C3/C4 — so arrays do not round-trip) and whose nested tuples
the encoder places at aligned offsets, if `bodyStream` (the concatenation
of the value bytes `send_value` writes, without the tag framing bytes the
receiver's tag iterator supplies out of band) encodes the source buffer to
`bs`, and the decoded layout fits the 32-bit target (`consume` succeeds on
`bs` and the resulting arena top leaves room for an allocator round-up),
then `recv_value` into a fresh aligned buffer with room for the value
succeeds, consumes exactly `bs`, advances the cursor by the pointer-level
advance `advN`, and the decoded buffer re-encodes through `bodyStream` to
the bit-identical stream `bs`. -/
theorem C1_roundtrip (t : RTag) (m : Mem) (cS cE : Nat) (bs : List Nat)
    (s : RecvSt) (rest : List Nat) (cr : List Nat × Nat)
    (hv : validT t = true) (hok : alignOkT t = true)
    (hnoarr : noArray t = true)
    (hna : needsAlign t = true → alignN t ∣ s.cursor)
    (henc : bodyStream m t cS = .ok (cE, bs))
    (hcons : consume t s.input s.hp = Option.some cr)
    (hA : cr.2 + 8 ≤ 4294967296)
    (hin : s.input = bs ++ rest)
    (hheap : roundUpT s.cursor (alignN t) + sizeN t ≤ s.hp) :
    ∃ s2, recv_value t s = .ok s2
      ∧ s2.input = rest
      ∧ s2.cursor = roundUpT s.cursor (alignN t) + advN t
      ∧ bodyStream s2.mem t s.cursor = .ok (s2.cursor, bs) := by
  obtain ⟨s2, hrun, hinp, hcr, hhp, hcur, hframe, hre⟩ :=
    recvRT t m cS cE bs s rest cr hv hok hnoarr hna henc hcons hA hin hheap
  refine ⟨s2, hrun, hinp, hcur, ?_⟩
  rw [hcur]
  exact hre s2.mem (fun a _ => rfl)

/-- Witness for C1 at a concrete instance: the `Int32` value 7 in a source
buffer, de-framed stream `[0, 0, 0, 7]`, decoded into a fresh arena at 64. -/
theorem C1_witness :
    bodyStream (storeLE (fun _ => 0) 0 4 7) .int32 0 = .ok (4, [0, 0, 0, 7])
    ∧ consume .int32 [0, 0, 0, 7] 64 = Option.some ([], 64)
    ∧ ∃ s2, recv_value .int32 ⟨[0, 0, 0, 7], fun _ => 0, 0, 64, []⟩ = .ok s2
        ∧ s2.input = []
        ∧ s2.cursor = roundUpT 0 (alignN .int32) + advN .int32
        ∧ bodyStream s2.mem .int32 0 = .ok (s2.cursor, [0, 0, 0, 7]) := by
  have henc : bodyStream (storeLE (fun _ => 0) 0 4 7) .int32 0 = .ok (4, [0, 0, 0, 7]) := by
    simp [bodyStream, loadLE, loadBytes, byteAt, storeLE, storeBytes, store1,
      leBytes, leVal, writeU32, beBytes, roundUpT]
  have hcons : consume .int32 [0, 0, 0, 7] 64 = Option.some ([], 64) := by
    simp [consume]
  refine ⟨henc, hcons, ?_⟩
  exact C1_roundtrip .int32 (storeLE (fun _ => 0) 0 4 7) 0 4 [0, 0, 0, 7]
    ⟨[0, 0, 0, 7], fun _ => 0, 0, 64, []⟩ [] ([], 64)
    rfl rfl rfl (fun _ => Dvd.intro 0 rfl) henc hcons (by decide) rfl (by decide)

end RpcProto
